import Mathlib

/-!
Verification of the TVM cell / BoC core of `tonutils-rs`
(`src/tvm/cell.rs`, `src/tvm/slice.rs`, `src/tvm/builder.rs`, `src/tvm/boc.rs`).

The Rust code is embedded shallowly:
* bytes are `Nat`s kept below 256 (reads from untyped buffers normalize with `% 256`,
  mirroring the `u8` type of the Rust buffers);
* `Vec<u8>` becomes `List Nat`;
* fallible functions return `Except CellError` (the error kinds follow the spec's
  error taxonomy: CapacityExceeded, InsufficientData, UnsupportedFormat,
  MalformedStream, IntegrityError);
* functions taking `&mut self` and returning `Result<()>` become functions returning
  `Option CellError × State`: on the error paths the Rust code returns before any
  mutation, so the state component is returned unchanged there.

Nothing in the repository ever sets `is_exotic` to true or a level other than the
value computed by `update_level` (which is 0 for cells whose references all have
level 0), so cells are embedded without the `is_exotic`/`level` fields; in
`descriptors()` the exotic summand is 0 and the level summand is 0.
-/

set_option maxRecDepth 100000

/-- Maximum number of bits a cell can store (`MAX_CELL_BITS`). -/
def MAX_CELL_BITS : Nat := 1023

/-- Maximum number of references a cell can have (`MAX_CELL_REFS`). -/
def MAX_CELL_REFS : Nat := 4

/-- Error kinds, following the spec's taxonomy for the `anyhow` failures. -/
inductive CellError where
  | capacityExceeded
  | insufficientData
  | unsupportedFormat
  | malformedStream
  | integrityError
deriving DecidableEq

/-- Big-endian bytes of a value: models `value.to_be_bytes()[8-size..]`
(byte `i` is `(value >> (8*(size-1-i))) & 0xFF`). -/
def natToBytesBE (size value : Nat) : List Nat :=
  (List.range size).map (fun i => (value >>> (8 * (size - 1 - i))) % 256)

/-- Little-endian bytes of a value: models `value.to_le_bytes()` truncated to `size`. -/
def natToBytesLE (size value : Nat) : List Nat :=
  (List.range size).map (fun i => (value >>> (8 * i)) % 256)

/-- Reading a byte from an untyped buffer; `% 256` records that Rust buffers hold `u8`. -/
def byteAt (data : List Nat) (i : Nat) : Nat :=
  data.getD i 0 % 256

/-! ### SHA-256 (the `sha2::Sha256` digest used by `Cell::hash`) -/

/-- Right rotation on 32-bit words. -/
def rotr32 (x n : Nat) : Nat :=
  ((x >>> n) ||| (x <<< (32 - n))) % 4294967296

def sha256BigSigma0 (x : Nat) : Nat := rotr32 x 2 ^^^ rotr32 x 13 ^^^ rotr32 x 22

def sha256BigSigma1 (x : Nat) : Nat := rotr32 x 6 ^^^ rotr32 x 11 ^^^ rotr32 x 25

def sha256SmallSigma0 (x : Nat) : Nat := rotr32 x 7 ^^^ rotr32 x 18 ^^^ (x >>> 3)

def sha256SmallSigma1 (x : Nat) : Nat := rotr32 x 17 ^^^ rotr32 x 19 ^^^ (x >>> 10)

def sha256Ch (x y z : Nat) : Nat := (x &&& y) ^^^ ((x ^^^ 4294967295) &&& z)

def sha256Maj (x y z : Nat) : Nat := (x &&& y) ^^^ (x &&& z) ^^^ (y &&& z)

/-- The 64 SHA-256 round constants. -/
def sha256K : List Nat :=
  [1116352408, 1899447441, 3049323471, 3921009573, 961987163, 1508970993,
   2453635748, 2870763221, 3624381080, 310598401, 607225278, 1426881987,
   1925078388, 2162078206, 2614888103, 3248222580, 3835390401, 4022224774,
   264347078, 604807628, 770255983, 1249150122, 1555081692, 1996064986,
   2554220882, 2821834349, 2952996808, 3210313671, 3336571891, 3584528711,
   113926993, 338241895, 666307205, 773529912, 1294757372, 1396182291,
   1695183700, 1986661051, 2177026350, 2456956037, 2730485921, 2820302411,
   3259730800, 3345764771, 3516065817, 3600352804, 4094571909, 275423344,
   430227734, 506948616, 659060556, 883997877, 958139571, 1322822218,
   1537002063, 1747873779, 1955562222, 2024104815, 2227730452, 2361852424,
   2428436474, 2756734187, 3204031479, 3329325298]

/-- The SHA-256 initial hash state. -/
def sha256H0 : List Nat :=
  [1779033703, 3144134277, 1013904242, 2773480762,
   1359893119, 2600822924, 528734635, 1541459225]

/-- Group bytes into big-endian 32-bit words. -/
def bytesToWordsBE : List Nat → List Nat
  | b0 :: b1 :: b2 :: b3 :: rest =>
      (((b0 * 256 + b1) * 256 + b2) * 256 + b3) :: bytesToWordsBE rest
  | _ => []

/-- Append the next word of the SHA-256 message schedule. -/
def sha256ExtendStep (w : List Nat) : List Nat :=
  let i := w.length
  w ++ [(w.getD (i - 16) 0 + sha256SmallSigma0 (w.getD (i - 15) 0) +
         w.getD (i - 7) 0 + sha256SmallSigma1 (w.getD (i - 2) 0)) % 4294967296]

/-- Extend the 16 block words to the 64 schedule words. -/
def sha256MessageSchedule (block : List Nat) : List Nat :=
  (List.range 48).foldl (fun w _ => sha256ExtendStep w) block

/-- One SHA-256 round on the 8-word working state. -/
def sha256Round (st : List Nat) (kw : Nat) : List Nat :=
  match st with
  | [a, b, c, d, e, f, g, hh] =>
      let t1 := (hh + sha256BigSigma1 e + sha256Ch e f g + kw) % 4294967296
      let t2 := (sha256BigSigma0 a + sha256Maj a b c) % 4294967296
      [(t1 + t2) % 4294967296, a, b, c, (d + t1) % 4294967296, e, f, g]
  | other => other

/-- Compress one 64-byte block into the hash state. -/
def sha256Compress (h0 : List Nat) (block : List Nat) : List Nat :=
  let ws := sha256MessageSchedule (bytesToWordsBE block)
  let kws := (List.range 64).map (fun i => (sha256K.getD i 0 + ws.getD i 0) % 4294967296)
  let st := kws.foldl sha256Round h0
  List.zipWith (fun x y => (x + y) % 4294967296) h0 st

/-- SHA-256 padding: a `0x80` byte, zeros to 56 mod 64, and the 64-bit message
bit length, big-endian. -/
def sha256Pad (msg : List Nat) : List Nat :=
  let zeros := (119 - msg.length % 64) % 64
  msg ++ [128] ++ List.replicate zeros 0 ++ natToBytesBE 8 (msg.length * 8)

/-- Process the padded message block by block (`fuel` bounds the number of steps;
it is instantiated with the padded length, which is at least the block count). -/
def sha256Blocks : Nat → List Nat → List Nat → List Nat
  | 0, h, _ => h
  | _ + 1, h, [] => h
  | fuel + 1, h, bs => sha256Blocks fuel (sha256Compress h (bs.take 64)) (bs.drop 64)

/-- SHA-256 of a byte list, as 32 bytes. -/
def sha256 (msg : List Nat) : List Nat :=
  let padded := sha256Pad msg
  ((sha256Blocks padded.length sha256H0 padded).map (natToBytesBE 4)).flatten

/-! ### CRC-32/ISO-HDLC (the `crc::CRC_32_ISO_HDLC` checksum used by the BoC codec) -/

/-- The reflected CRC-32 polynomial. -/
def crc32Poly : Nat := 0xEDB88320

/-- One bit step of the reflected CRC-32. -/
def crc32StepBit (c : Nat) : Nat :=
  if c % 2 = 1 then (c >>> 1) ^^^ crc32Poly else c >>> 1

/-- Fold one byte into the CRC state. -/
def crc32UpdateByte (crc b : Nat) : Nat :=
  (List.range 8).foldl (fun c _ => crc32StepBit c) (crc ^^^ (b % 256))

/-- CRC-32/ISO-HDLC: init `0xFFFFFFFF`, reflected, xorout `0xFFFFFFFF`. -/
def crc32 (data : List Nat) : Nat :=
  (data.foldl crc32UpdateByte 0xFFFFFFFF) ^^^ 0xFFFFFFFF

example : sha256 [] =
    [0xe3, 0xb0, 0xc4, 0x42, 0x98, 0xfc, 0x1c, 0x14, 0x9a, 0xfb, 0xf4, 0xc8,
     0x99, 0x6f, 0xb9, 0x24, 0x27, 0xae, 0x41, 0xe4, 0x64, 0x9b, 0x93, 0x4c,
     0xa4, 0x95, 0x99, 0x1b, 0x78, 0x52, 0xb8, 0x55] := by decide

example : sha256 [0x61, 0x62, 0x63] =
    [0xba, 0x78, 0x16, 0xbf, 0x8f, 0x01, 0xcf, 0xea, 0x41, 0x41, 0x40, 0xde,
     0x5d, 0xae, 0x22, 0x23, 0xb0, 0x03, 0x61, 0xa3, 0x96, 0x17, 0x7a, 0x9c,
     0xb4, 0x10, 0xff, 0x61, 0xf2, 0x00, 0x15, 0xad] := by decide

example : crc32 [0x31, 0x32, 0x33, 0x34, 0x35, 0x36, 0x37, 0x38, 0x39] = 0xCBF43926 := by
  decide

/-! ### Cell (`src/tvm/cell.rs`) -/

/-- A TON cell: data bytes, a bit length, and child references.
References are `Arc<Cell>` in the source; shared ownership is modelled by
plain subtrees (structurally equal subtrees correspond to shared children). -/
inductive Cell where
  | mk (data : List Nat) (bitLen : Nat) (refs : List Cell)

/-- `Cell::data`. -/
def Cell.data : Cell → List Nat
  | .mk d _ _ => d

/-- `Cell::bit_len`. -/
def Cell.bitLen : Cell → Nat
  | .mk _ b _ => b

/-- `Cell::references`. -/
def Cell.refs : Cell → List Cell
  | .mk _ _ rs => rs

mutual

/-- Structural (pointer-free) equality of cells, decidable. -/
def Cell.beq : Cell → Cell → Bool
  | .mk d b rs, .mk d2 b2 rs2 => d == d2 && b == b2 && Cell.beqList rs rs2

def Cell.beqList : List Cell → List Cell → Bool
  | [], [] => true
  | c :: cs, c2 :: cs2 => Cell.beq c c2 && Cell.beqList cs cs2
  | _, _ => false

end

instance : BEq Cell := ⟨Cell.beq⟩

mutual

theorem Cell.beq_iff : ∀ a b : Cell, Cell.beq a b = true ↔ a = b
  | .mk d b rs, .mk d2 b2 rs2 => by
      simp only [Cell.beq, Bool.and_eq_true, beq_iff_eq, Cell.mk.injEq, and_assoc]
      exact and_congr Iff.rfl (and_congr Iff.rfl (Cell.beqList_iff rs rs2))

theorem Cell.beqList_iff : ∀ a b : List Cell, Cell.beqList a b = true ↔ a = b
  | [], [] => by simp [Cell.beqList]
  | [], _ :: _ => by simp [Cell.beqList]
  | _ :: _, [] => by simp [Cell.beqList]
  | c :: cs, c2 :: cs2 => by
      simp only [Cell.beqList, Bool.and_eq_true, List.cons.injEq]
      exact and_congr (Cell.beq_iff c c2) (Cell.beqList_iff cs cs2)

end

instance : DecidableEq Cell := fun a b =>
  decidable_of_iff (Cell.beq a b = true) (Cell.beq_iff a b)

instance : LawfulBEq Cell where
  eq_of_beq h := (Cell.beq_iff _ _).mp h
  rfl := (Cell.beq_iff _ _).mpr rfl

instance {ε α : Type} [DecidableEq ε] [DecidableEq α] : DecidableEq (Except ε α) := fun a b =>
  match a, b with
  | .ok x, .ok y => decidable_of_iff (x = y) (by simp)
  | .error x, .error y => decidable_of_iff (x = y) (by simp)
  | .ok _, .error _ => isFalse (by simp)
  | .error _, .ok _ => isFalse (by simp)

/-- `Cell::new`. -/
def Cell.new : Cell := .mk [] 0 []

/-- `Cell::with_data(data, bit_len)`. -/
def Cell.withData (data : List Nat) (bitLen : Nat) : Except CellError Cell :=
  if bitLen > MAX_CELL_BITS then
    .error .capacityExceeded
  else if data.length < (bitLen + 7) / 8 then
    .error .insufficientData
  else
    .ok (.mk data bitLen [])

/-- `Cell::add_reference(cell)` (cache invalidation and `update_level` have no
observable counterpart here: hash and depth are recomputed functions, and the
level of every cell in this repository is 0). -/
def Cell.addReference (c : Cell) (r : Cell) : Except CellError Cell :=
  if c.refs.length ≥ MAX_CELL_REFS then
    .error .capacityExceeded
  else
    .ok (.mk c.data c.bitLen (c.refs ++ [r]))

/-- `Cell::reference_count`. -/
def Cell.referenceCount (c : Cell) : Nat := c.refs.length

/-- `Cell::reference(index)`. -/
def Cell.reference (c : Cell) (index : Nat) : Option Cell := c.refs.get? index

/-- `Cell::descriptors`: `d1 = refs + 8*is_exotic + 32*level` (exotic flag and
level are always 0 in this repository), `d2 = floor(bits/8) + ceil(bits/8)`. -/
def Cell.descriptors (c : Cell) : List Nat :=
  [c.refs.length, c.bitLen / 8 + (c.bitLen + 7) / 8]

/-- `Cell::serialize_data`: clone the data and, if the bit length is not
byte-aligned, OR a completion-marker bit into the byte holding the last data bit. -/
def Cell.serializeData (c : Cell) : List Nat :=
  if c.bitLen % 8 ≠ 0 then
    let lastByteIdx := c.bitLen / 8
    if lastByteIdx < c.data.length then
      c.data.set lastByteIdx
        (c.data.getD lastByteIdx 0 ||| (1 <<< (7 - c.bitLen % 8)))
    else
      c.data
  else
    c.data

mutual

/-- `Cell::depth`: 0 without references, else 1 + the maximum child depth. -/
def Cell.depth : Cell → Nat
  | .mk _ _ rs =>
    match rs with
    | [] => 0
    | _ :: _ => Cell.depthRefsMax rs + 1

/-- Maximum depth over a reference list (`references.iter().map(depth).max().unwrap_or(0)`). -/
def Cell.depthRefsMax : List Cell → Nat
  | [] => 0
  | c :: cs => Nat.max c.depth (Cell.depthRefsMax cs)

end

mutual

/-- `Cell::hash`: SHA-256 over descriptors, serialized data, each reference's
depth as a big-endian u16, then each reference's hash. -/
def Cell.hash : Cell → List Nat
  | .mk d b rs =>
      sha256 ((Cell.mk d b rs).descriptors ++ (Cell.mk d b rs).serializeData ++
        Cell.depthBytesOfRefs rs ++ Cell.hashesOfRefs rs)

/-- The concatenated `depth().to_be_bytes()` of the references (u16 wraps mod 2^16). -/
def Cell.depthBytesOfRefs : List Cell → List Nat
  | [] => []
  | c :: cs => natToBytesBE 2 c.depth ++ Cell.depthBytesOfRefs cs

/-- The concatenated hashes of the references. -/
def Cell.hashesOfRefs : List Cell → List Nat
  | [] => []
  | c :: cs => c.hash ++ Cell.hashesOfRefs cs

end

mutual

/-- Well-formedness of a cell tree: every cell satisfies the `Cell` invariants
(`bit_len ≤ 1023`, at most 4 references) together with the byte-exactness of
its buffer (`data.len() == ceil(bit_len/8)`) and byte range. -/
def Cell.wfB : Cell → Bool
  | .mk d b rs =>
      decide (d.length = (b + 7) / 8) && decide (b ≤ MAX_CELL_BITS) &&
      decide (rs.length ≤ MAX_CELL_REFS) && d.all (fun x => x < 256) &&
      Cell.wfListB rs

def Cell.wfListB : List Cell → Bool
  | [] => true
  | c :: cs => Cell.wfB c && Cell.wfListB cs

end

mutual

/-- All cells of a tree, duplicates included (the root first, then the subcells
of each reference in order). -/
def Cell.allSubcells : Cell → List Cell
  | .mk d b rs => Cell.mk d b rs :: Cell.allSubcellsList rs

def Cell.allSubcellsList : List Cell → List Cell
  | [] => []
  | c :: cs => Cell.allSubcells c ++ Cell.allSubcellsList cs

end

example :
    Cell.withData [0, 0, 0, 0x0F] 32 = .ok (Cell.mk [0, 0, 0, 0x0F] 32 []) := by decide

example :
    (Cell.mk [0, 0, 0, 0x0F] 32 []).hash =
      [0x57, 0xb5, 0x20, 0xdb, 0xcb, 0x9d, 0x13, 0x58, 0x63, 0xfc, 0x33, 0x96,
       0x3c, 0xde, 0x9f, 0x6d, 0xb2, 0xde, 0xd1, 0x43, 0x0d, 0x88, 0x05, 0x68,
       0x10, 0xa2, 0xc9, 0x43, 0x4a, 0x38, 0x60, 0xf9] := by decide

/-! ### CellBuilder (`src/tvm/cell.rs`)

`&mut self` methods returning `Result` become functions returning
`Option CellError × CellBuilder`; the error paths of the source return before
mutating, so they yield the input state unchanged. -/

structure CellBuilder where
  data : List Nat
  bitLen : Nat
  refs : List Cell
deriving DecidableEq

/-- `CellBuilder::new`. -/
def CellBuilder.new : CellBuilder := ⟨[], 0, []⟩

/-- The body of the `store_bits` loop for one bit: push a fresh zero byte when the
target byte does not exist yet, then OR the bit into the target position. -/
def storeBitsStep (data : List Nat) (bitLen : Nat) (bit : Nat) : List Nat × Nat :=
  let targetByteIdx := bitLen / 8
  let targetBitIdx := 7 - bitLen % 8
  let data1 := if targetByteIdx ≥ data.length then data ++ [0] else data
  let data2 :=
    if bit = 1 then
      data1.set targetByteIdx (data1.getD targetByteIdx 0 ||| (1 <<< targetBitIdx))
    else data1
  (data2, bitLen + 1)

/-- The `for i in 0..bit_len` loop of `store_bits`: `i` is the source index,
the second argument counts the remaining iterations. -/
def storeBitsCore (src : List Nat) : Nat → Nat → List Nat → Nat → List Nat × Nat
  | _, 0, data, bitLen => (data, bitLen)
  | i, n + 1, data, bitLen =>
      let bit := (byteAt src (i / 8) >>> (7 - i % 8)) &&& 1
      let step := storeBitsStep data bitLen bit
      storeBitsCore src (i + 1) n step.1 step.2

/-- `CellBuilder::store_bits(bits, bit_len)`. -/
def CellBuilder.storeBits (b : CellBuilder) (bits : List Nat) (bitLen : Nat) :
    Option CellError × CellBuilder :=
  if b.bitLen + bitLen > MAX_CELL_BITS then (some .capacityExceeded, b)
  else if bits.length < (bitLen + 7) / 8 then (some .insufficientData, b)
  else
    let res := storeBitsCore bits 0 bitLen b.data b.bitLen
    (none, { b with data := res.1, bitLen := res.2 })

/-- `CellBuilder::store_byte`. -/
def CellBuilder.storeByte (b : CellBuilder) (byte : Nat) : Option CellError × CellBuilder :=
  b.storeBits [byte % 256] 8

/-- `CellBuilder::store_bytes`. -/
def CellBuilder.storeBytes (b : CellBuilder) (bytes : List Nat) :
    Option CellError × CellBuilder :=
  b.storeBits bytes (bytes.length * 8)

/-- `CellBuilder::store_u32`. -/
def CellBuilder.storeU32 (b : CellBuilder) (value : Nat) : Option CellError × CellBuilder :=
  b.storeBits (natToBytesBE 4 (value % 4294967296)) 32

/-- `CellBuilder::store_u64`. -/
def CellBuilder.storeU64 (b : CellBuilder) (value : Nat) : Option CellError × CellBuilder :=
  b.storeBits (natToBytesBE 8 (value % 18446744073709551616)) 64

/-- The `temp` buffer of `store_uint`: the low `bits` bits of `value`, packed
MSB-first (`value` is a `u64` in the source). -/
def storeUintTemp (value bits : Nat) : List Nat :=
  (List.range bits).foldl
    (fun temp i =>
      if value &&& (1 <<< (bits - 1 - i)) ≠ 0 then
        temp.set (i / 8) (temp.getD (i / 8) 0 ||| (1 <<< (7 - i % 8)))
      else temp)
    (List.replicate ((bits + 7) / 8) 0)

/-- `CellBuilder::store_uint(value, bits)`. -/
def CellBuilder.storeUint (b : CellBuilder) (value bits : Nat) :
    Option CellError × CellBuilder :=
  if bits > 64 then (some .capacityExceeded, b)
  else b.storeBits (storeUintTemp value bits) bits

/-- `CellBuilder::store_bit`. -/
def CellBuilder.storeBit (b : CellBuilder) (bit : Bool) : Option CellError × CellBuilder :=
  b.storeBits [if bit then 0x80 else 0x00] 1

/-- `CellBuilder::store_reference`. -/
def CellBuilder.storeReference (b : CellBuilder) (c : Cell) :
    Option CellError × CellBuilder :=
  if b.refs.length ≥ MAX_CELL_REFS then (some .capacityExceeded, b)
  else (none, { b with refs := b.refs ++ [c] })

/-- The reference-attaching loop of `CellBuilder::build`. -/
def addRefsFold : Cell → List Cell → Except CellError Cell
  | c, [] => .ok c
  | c, r :: rs =>
      match c.addReference r with
      | .ok c2 => addRefsFold c2 rs
      | .error e => .error e

/-- `CellBuilder::build`. -/
def CellBuilder.build (b : CellBuilder) : Except CellError Cell :=
  match Cell.withData b.data b.bitLen with
  | .ok c => addRefsFold c b.refs
  | .error e => .error e

/-! ### Slice (`src/tvm/slice.rs`) -/

structure Slice where
  cell : Cell
  bitPos : Nat
  refPos : Nat
deriving DecidableEq

/-- `Slice::new`. -/
def Slice.new (c : Cell) : Slice := ⟨c, 0, 0⟩

/-- `Slice::remaining_bits` (saturating subtraction, as in the source). -/
def Slice.remainingBits (s : Slice) : Nat := s.cell.bitLen - s.bitPos

/-- `Slice::remaining_refs`. -/
def Slice.remainingRefs (s : Slice) : Nat := s.cell.referenceCount - s.refPos

/-- `Slice::is_empty`. -/
def Slice.isEmpty (s : Slice) : Bool :=
  s.remainingBits == 0 && s.remainingRefs == 0

/-- `Slice::load_bit`. -/
def Slice.loadBit (s : Slice) : Except CellError Bool × Slice :=
  if s.remainingBits = 0 then (.error .malformedStream, s)
  else
    let byteIdx := s.bitPos / 8
    let bitIdx := 7 - s.bitPos % 8
    if byteIdx ≥ s.cell.data.length then (.error .malformedStream, s)
    else
      let bit := (byteAt s.cell.data byteIdx >>> bitIdx) &&& 1
      (.ok (bit == 1), { s with bitPos := s.bitPos + 1 })

/-- The bit-collecting loop of `load_bits`: `i` indexes the result bit. -/
def loadBitsGo : Nat → Nat → Slice → List Nat → Except CellError (List Nat) × Slice
  | _, 0, s, acc => (.ok acc, s)
  | i, n + 1, s, acc =>
      match s.loadBit with
      | (.ok bit, s2) =>
          let acc2 :=
            if bit then acc.set (i / 8) (acc.getD (i / 8) 0 ||| (1 <<< (7 - i % 8)))
            else acc
          loadBitsGo (i + 1) n s2 acc2
      | (.error e, s2) => (.error e, s2)

/-- `Slice::load_bits(n)`. -/
def Slice.loadBits (s : Slice) (n : Nat) : Except CellError (List Nat) × Slice :=
  if n > s.remainingBits then (.error .malformedStream, s)
  else loadBitsGo 0 n s (List.replicate ((n + 7) / 8) 0)

/-- `Slice::load_byte`. -/
def Slice.loadByte (s : Slice) : Except CellError Nat × Slice :=
  match s.loadBits 8 with
  | (.ok bits, s2) => (.ok (bits.getD 0 0), s2)
  | (.error e, s2) => (.error e, s2)

/-- `Slice::load_bytes(n)`. -/
def Slice.loadBytes (s : Slice) (n : Nat) : Except CellError (List Nat) × Slice :=
  s.loadBits (n * 8)

/-- `Slice::load_u16`. -/
def Slice.loadU16 (s : Slice) : Except CellError Nat × Slice :=
  match s.loadBits 16 with
  | (.ok bs, s2) => (.ok (bs.getD 0 0 * 256 + bs.getD 1 0), s2)
  | (.error e, s2) => (.error e, s2)

/-- `Slice::load_u32`. -/
def Slice.loadU32 (s : Slice) : Except CellError Nat × Slice :=
  match s.loadBits 32 with
  | (.ok bs, s2) =>
      (.ok (((bs.getD 0 0 * 256 + bs.getD 1 0) * 256 + bs.getD 2 0) * 256 + bs.getD 3 0), s2)
  | (.error e, s2) => (.error e, s2)

/-- `Slice::load_u64`. -/
def Slice.loadU64 (s : Slice) : Except CellError Nat × Slice :=
  match s.loadBits 64 with
  | (.ok bs, s2) =>
      (.ok ((List.range 8).foldl (fun r i => r * 256 + bs.getD i 0) 0), s2)
  | (.error e, s2) => (.error e, s2)

/-- The assembling loop of `load_uint`: for the `i`-th byte,
`result |= byte << ((len - 1 - i) * 8)`; the length of the remaining list is
exactly `len - 1 - i`. -/
def beAccum : List Nat → Nat → Nat
  | [], r => r
  | b :: rest, r => beAccum rest (r ||| (b <<< (rest.length * 8)))

/-- `Slice::load_uint(bits)`. -/
def Slice.loadUint (s : Slice) (bits : Nat) : Except CellError Nat × Slice :=
  if bits > 64 then (.error .malformedStream, s)
  else if bits = 0 then (.ok 0, s)
  else
    match s.loadBits bits with
    | (.ok bytes, s2) =>
        let result := beAccum bytes 0
        let extraBits := bytes.length * 8 - bits
        (.ok (result >>> extraBits), s2)
    | (.error e, s2) => (.error e, s2)

/-- `Slice::load_int(bits)`: sign-extends from bit `bits - 1`.  The source ORs the
mask `!0u64 << bits` into the `u64` and reinterprets as `i64`; for `bits < 64`
that value is `unsigned - 2^bits`. -/
def Slice.loadInt (s : Slice) (bits : Nat) : Except CellError Int × Slice :=
  if bits > 64 then (.error .malformedStream, s)
  else if bits = 0 then (.ok 0, s)
  else
    match s.loadUint bits with
    | (.ok unsigned, s2) =>
        if unsigned &&& (1 <<< (bits - 1)) ≠ 0 then
          (.ok ((unsigned : Int) - ((2 : Int) ^ bits)), s2)
        else (.ok (unsigned : Int), s2)
    | (.error e, s2) => (.error e, s2)

/-- `Slice::load_reference`. -/
def Slice.loadReference (s : Slice) : Except CellError Cell × Slice :=
  if s.remainingRefs = 0 then (.error .malformedStream, s)
  else
    match s.cell.reference s.refPos with
    | some r => (.ok r, { s with refPos := s.refPos + 1 })
    | none => (.error .malformedStream, s)

/-- `Slice::preload_reference(index)`: no cursor movement. -/
def Slice.preloadReference (s : Slice) (index : Nat) : Except CellError Cell :=
  match s.cell.reference (s.refPos + index) with
  | some r => .ok r
  | none => .error .malformedStream

/-- `Slice::skip_bits(n)`. -/
def Slice.skipBits (s : Slice) (n : Nat) : Except CellError Unit × Slice :=
  if n > s.remainingBits then (.error .malformedStream, s)
  else (.ok (), { s with bitPos := s.bitPos + n })

/-- `Slice::skip_refs(n)`. -/
def Slice.skipRefs (s : Slice) (n : Nat) : Except CellError Unit × Slice :=
  if n > s.remainingRefs then (.error .malformedStream, s)
  else (.ok (), { s with refPos := s.refPos + n })

/-- `Slice::bit_position`. -/
def Slice.bitPosition (s : Slice) : Nat := s.bitPos

/-- `Slice::ref_position`. -/
def Slice.refPosition (s : Slice) : Nat := s.refPos

/-- `Slice::reset`. -/
def Slice.reset (s : Slice) : Slice :=
  { s with bitPos := 0, refPos := 0 }

/-- `Slice::clone_from_current`: copies the cell handle and both cursors. -/
def Slice.cloneFromCurrent (s : Slice) : Slice :=
  ⟨s.cell, s.bitPos, s.refPos⟩

/-- `Slice::load_remaining_bits`. -/
def Slice.loadRemainingBits (s : Slice) : Except CellError (List Nat) × Slice :=
  s.loadBits s.remainingBits

/-- The `while remaining_refs() > 0` loop of `load_remaining_refs`
(the fuel is instantiated with `remaining_refs`, which bounds the iterations). -/
def loadRemainingRefsGo : Nat → Slice → List Cell → Except CellError (List Cell) × Slice
  | 0, s, acc => (.ok acc, s)
  | fuel + 1, s, acc =>
      if s.remainingRefs = 0 then (.ok acc, s)
      else
        match s.loadReference with
        | (.ok r, s2) => loadRemainingRefsGo fuel s2 (acc ++ [r])
        | (.error e, s2) => (.error e, s2)

/-- `Slice::load_remaining_refs`. -/
def Slice.loadRemainingRefs (s : Slice) : Except CellError (List Cell) × Slice :=
  loadRemainingRefsGo s.remainingRefs s []

/-- `Slice::can_read_bits(n)`. -/
def Slice.canReadBits (s : Slice) (n : Nat) : Bool := n ≤ s.remainingBits

/-- `Slice::can_read_refs(n)`. -/
def Slice.canReadRefs (s : Slice) (n : Nat) : Bool := n ≤ s.remainingRefs

/-- `Slice::load_var_uint(length_bits)`. -/
def Slice.loadVarUint (s : Slice) (lengthBits : Nat) : Except CellError Nat × Slice :=
  if lengthBits > 8 then (.error .malformedStream, s)
  else
    match s.loadUint lengthBits with
    | (.ok byteLen, s2) =>
        if byteLen > 8 then (.error .malformedStream, s2)
        else if byteLen = 0 then (.ok 0, s2)
        else
          match s2.loadBytes byteLen with
          | (.ok bytes, s3) => (.ok (bytes.foldl (fun r b => r * 256 + b) 0), s3)
          | (.error e, s3) => (.error e, s3)
    | (.error e, s2) => (.error e, s2)

/-- `Slice::load_coins`. -/
def Slice.loadCoins (s : Slice) : Except CellError Nat × Slice :=
  match s.loadUint 4 with
  | (.ok len, s2) =>
      if len > 16 then (.error .malformedStream, s2)
      else if len = 0 then (.ok 0, s2)
      else
        match s2.loadBytes len with
        | (.ok bytes, s3) => (.ok (bytes.foldl (fun r b => r * 256 + b) 0), s3)
        | (.error e, s3) => (.error e, s3)
  | (.error e, s2) => (.error e, s2)

/-! ### Builder (`src/tvm/builder.rs`)

The high-level wrapper around `CellBuilder`.  Only the methods the claims are
about are embedded.  Note that `bit_len()` and `ref_count()` are literal
placeholders in the source: they return 0 regardless of the builder contents. -/

structure Builder where
  inner : CellBuilder
deriving DecidableEq

/-- `Builder::new`. -/
def Builder.new : Builder := ⟨CellBuilder.new⟩

/-- `Builder::bit_len`: the source returns the placeholder 0, never the real count. -/
def Builder.bitLen (_ : Builder) : Nat := 0

/-- `Builder::available_bits`. -/
def Builder.availableBits (b : Builder) : Nat := MAX_CELL_BITS - b.bitLen

/-- `Builder::available_bytes`. -/
def Builder.availableBytes (b : Builder) : Nat := b.availableBits / 8

/-- `Builder::ref_count`: the source returns the placeholder 0. -/
def Builder.refCount (_ : Builder) : Nat := 0

/-- `Builder::available_refs`. -/
def Builder.availableRefs (b : Builder) : Nat := MAX_CELL_REFS - b.refCount

/-- `Builder::store_bits`. -/
def Builder.storeBits (b : Builder) (bits : List Nat) (bitLen : Nat) :
    Option CellError × Builder :=
  let res := b.inner.storeBits bits bitLen
  (res.1, ⟨res.2⟩)

/-- `Builder::store_byte`. -/
def Builder.storeByte (b : Builder) (byte : Nat) : Option CellError × Builder :=
  let res := b.inner.storeByte byte
  (res.1, ⟨res.2⟩)

/-- `Builder::store_bytes`. -/
def Builder.storeBytes (b : Builder) (bytes : List Nat) : Option CellError × Builder :=
  let res := b.inner.storeBytes bytes
  (res.1, ⟨res.2⟩)

/-- `Builder::store_ref`. -/
def Builder.storeRef (b : Builder) (c : Cell) : Option CellError × Builder :=
  let res := b.inner.storeReference c
  (res.1, ⟨res.2⟩)

/-- `Builder::build`. -/
def Builder.build (b : Builder) : Except CellError Cell := b.inner.build

/-- The recursion of `store_snake_bytes` (the fuel is instantiated with the
payload length, which bounds the recursion depth because each recursive call
drops `available_bytes() = 127 > 0` bytes; the fuel-exhaustion branch is
unreachable). -/
def Builder.storeSnakeBytesGo : Nat → Builder → List Nat → Option CellError × Builder
  | 0, b, _ => (some .capacityExceeded, b)
  | fuel + 1, b, bytes =>
      if bytes.isEmpty then (none, b)
      else
        let available := b.availableBytes
        if bytes.length ≤ available then b.storeBytes bytes
        else
          match b.storeBytes (bytes.take available) with
          | (some e, b2) => (some e, b2)
          | (none, b2) =>
              match Builder.storeSnakeBytesGo fuel Builder.new (bytes.drop available) with
              | (some e, _) => (some e, b2)
              | (none, nb) =>
                  match nb.build with
                  | .error e => (some e, b2)
                  | .ok c => b2.storeRef c

/-- `Builder::store_snake_bytes`. -/
def Builder.storeSnakeBytes (b : Builder) (bytes : List Nat) : Option CellError × Builder :=
  Builder.storeSnakeBytesGo (bytes.length + 1) b bytes

/-- The byte payload obtained by following the first reference of each cell in a
snake chain and concatenating the data buffers. -/
def Cell.chainBytes : Cell → List Nat
  | .mk d _ rs =>
      match rs with
      | [] => d
      | r :: _ => d ++ Cell.chainBytes r

/-! ### Bag of Cells codec (`src/tvm/boc.rs`) -/

def BOC_GENERIC_MAGIC : Nat := 0xb5ee9c72

def BOC_INDEXED_MAGIC : Nat := 0x68ff65f3

def BOC_INDEXED_CRC32C_MAGIC : Nat := 0xacc3a728

mutual

/-- `collect_cells_recursive`: skip cells whose hash was already visited, else
visit the children first and then append the cell (the visited map's key set
always equals the set of hashes of the accumulated list). -/
def collectCell : Cell → List Cell → List Cell
  | .mk d b rs, acc =>
      if acc.any (fun c => c.hash == (Cell.mk d b rs).hash) then acc
      else collectRefs rs acc ++ [Cell.mk d b rs]

def collectRefs : List Cell → List Cell → List Cell
  | [], acc => acc
  | r :: rest, acc => collectRefs rest (collectCell r acc)

end

/-- Lookup in the hash-to-index map (`HashMap<[u8;32], usize>`, modelled as an
association list with distinct keys). -/
def mapLookup : List (List Nat × Nat) → List Nat → Option Nat
  | [], _ => none
  | (k, v) :: rest, key => if k == key then some v else mapLookup rest key

/-- The reference-index bytes of `serialize_cell`: each reference contributes its
index in the cell map, written as a single byte (`*ref_idx as u8`). -/
def serializeCellRefs : List Cell → List (List Nat × Nat) → Except CellError (List Nat)
  | [], _ => .ok []
  | r :: rest, cmap =>
      match mapLookup cmap r.hash with
      | some idx =>
          match serializeCellRefs rest cmap with
          | .ok tail => .ok (idx % 256 :: tail)
          | .error e => .error e
      | none => .error .malformedStream

/-- `serialize_cell`: descriptors, serialized data, then one index byte per reference. -/
def serializeCell (c : Cell) (cmap : List (List Nat × Nat)) : Except CellError (List Nat) :=
  match serializeCellRefs c.refs cmap with
  | .ok refBytes => .ok (c.descriptors ++ c.serializeData ++ refBytes)
  | .error e => .error e

/-- The serialization loop of `serialize_boc`: insert each cell's hash into the
map, then serialize it against the map built so far. -/
def serializeCellsLoop : List Cell → List (List Nat × Nat) → Nat →
    Except CellError (List (List Nat))
  | [], _, _ => .ok []
  | c :: rest, cmap, idx =>
      let cmap2 := cmap ++ [(c.hash, idx)]
      match serializeCell c cmap2 with
      | .ok s =>
          match serializeCellsLoop rest cmap2 (idx + 1) with
          | .ok others => .ok (s :: others)
          | .error e => .error e
      | .error e => .error e

/-- The bit width `usize::BITS - value.leading_zeros()` of a `usize` value:
the number of positions `i < 64` whose right-shift of `value` is nonzero. -/
def bitWidth64 (value : Nat) : Nat :=
  (List.range 64).countP (fun i => value >>> i != 0)

/-- `bytes_needed`: minimal byte width of a value (`(64 - leading_zeros + 7) / 8`). -/
def bytesNeeded (value : Nat) : Nat :=
  if value = 0 then 1 else (bitWidth64 value + 7) / 8

/-- `cells.iter().position(|cell| cell.hash() == root.hash())`. -/
def positionByHash : List Cell → List Nat → Option Nat
  | [], _ => none
  | c :: rest, h =>
      if c.hash == h then some 0
      else (positionByHash rest h).map (fun i => i + 1)

/-- `serialize_boc(root, has_crc32)`. -/
def serializeBoc (root : Cell) (hasCrc32 : Bool) : Except CellError (List Nat) :=
  let cells := collectCell root []
  match positionByHash cells root.hash with
  | none => .error .malformedStream
  | some rootIndex =>
    match serializeCellsLoop cells [] 0 with
    | .error e => .error e
    | .ok serializedCells =>
      let cellsSize := (serializedCells.map List.length).sum
      let sizeBytes := bytesNeeded cells.length
      let offsetBytes := bytesNeeded cellsSize
      let flags : Nat := if hasCrc32 then 64 else 0
      let body :=
        natToBytesBE 4 BOC_GENERIC_MAGIC ++ [flags ||| sizeBytes] ++ [offsetBytes] ++
        natToBytesBE sizeBytes cells.length ++ natToBytesBE sizeBytes 1 ++
        natToBytesBE sizeBytes 0 ++ natToBytesBE offsetBytes cellsSize ++
        natToBytesBE sizeBytes rootIndex ++ serializedCells.flatten
      if hasCrc32 then .ok (body ++ natToBytesLE 4 (crc32 body))
      else .ok body

/-- `read_uint(data, pos, size)`: big-endian accumulation
`result = (result << 8) | byte`; returns the value and the advanced position. -/
def readUint (data : List Nat) (pos size : Nat) : Except CellError (Nat × Nat) :=
  if pos + size > data.length then .error .malformedStream
  else
    .ok ((List.range size).foldl (fun r i => (r <<< 8) ||| byteAt data (pos + i)) 0,
         pos + size)

/-- The completion-marker scan of `parse_cells`: index of the lowest set bit of
the final byte, reported as `8 - i`, or 0 when the byte is zero. -/
def bitsInLastByteScan (lastByte : Nat) : Nat :=
  match (List.range 8).find? (fun i => (lastByte >>> i) &&& 1 == 1) with
  | some i => 8 - i
  | none => 0

/-- The bit-length recovery of `parse_cells` from descriptor `d2` and the raw data. -/
def parseBitLen (cellData : List Nat) (d2 dataSize : Nat) : Nat :=
  if dataSize > 0 ∧ d2 > 0 then
    if d2 % 2 = 0 then (d2 / 2) * 8
    else
      if bitsInLastByteScan (byteAt cellData (cellData.length - 1)) > 0 then
        (cellData.length - 1) * 8 +
          bitsInLastByteScan (byteAt cellData (cellData.length - 1)) - 1
      else cellData.length * 8
  else 0

/-- The reference-index reads of the first pass of `parse_cells`. -/
def readRefIndices : Nat → List Nat → Nat → Except CellError (List Nat × Nat)
  | 0, _, pos => .ok ([], pos)
  | n + 1, data, pos =>
      if pos ≥ data.length then .error .malformedStream
      else
        match readRefIndices n data (pos + 1) with
        | .ok (rest, p2) => .ok (byteAt data pos :: rest, p2)
        | .error e => .error e

/-- The first pass of `parse_cells`: for each record parse the two descriptor
bytes, the data slice, and the reference-index bytes, recover the bit length,
and build the reference-free cell. -/
def parseCellsPass1 : Nat → List Nat → Nat → Except CellError (List (Cell × List Nat))
  | 0, _, _ => .ok []
  | count + 1, data, pos =>
      if pos ≥ data.length then .error .malformedStream
      else
        let d1 := byteAt data pos
        let pos1 := pos + 1
        if pos1 ≥ data.length then .error .malformedStream
        else
          let d2 := byteAt data pos1
          let pos2 := pos1 + 1
          let refCount := d1 &&& 0x07
          let dataSize := (d2 + 1) / 2
          if pos2 + dataSize > data.length then .error .malformedStream
          else
            let cellData := (data.drop pos2).take dataSize
            let pos3 := pos2 + dataSize
            match readRefIndices refCount data pos3 with
            | .error e => .error e
            | .ok (refIdx, pos4) =>
                let bitLen := parseBitLen cellData d2 dataSize
                match Cell.withData cellData bitLen with
                | .error e => .error e
                | .ok cell =>
                    match parseCellsPass1 count data pos4 with
                    | .ok rest => .ok ((cell, refIdx) :: rest)
                    | .error e => .error e

/-- The reference-attaching loop of the second pass of `parse_cells`. -/
def attachParsedRefs : Cell → List Nat → List Cell → Except CellError Cell
  | c, [], _ => .ok c
  | c, refIdx :: rest, cells =>
      if refIdx ≥ cells.length then .error .malformedStream
      else
        match c.addReference (cells.getD refIdx Cell.new) with
        | .ok c2 => attachParsedRefs c2 rest cells
        | .error e => .error e

/-- The second pass of `parse_cells`: every cell with outgoing references is
rebuilt from its data and the (possibly already rebuilt) referenced cells. -/
def parseCellsPass2 : List (Nat × List Nat) → List Cell → Except CellError (List Cell)
  | [], cells => .ok cells
  | (i, refs) :: rest, cells =>
      if refs.isEmpty then parseCellsPass2 rest cells
      else
        let oldCell := cells.getD i Cell.new
        match Cell.withData oldCell.data oldCell.bitLen with
        | .error e => .error e
        | .ok base =>
            match attachParsedRefs base refs cells with
            | .ok newCell => parseCellsPass2 rest (cells.set i newCell)
            | .error e => .error e

/-- `parse_cells(data, count)`. -/
def parseCells (data : List Nat) (count : Nat) : Except CellError (List Cell) :=
  match parseCellsPass1 count data 0 with
  | .error e => .error e
  | .ok parsed =>
      parseCellsPass2 ((parsed.map Prod.snd).enum) (parsed.map Prod.fst)

/-- `deserialize_boc_generic(data)`. -/
def deserializeBocGeneric (data : List Nat) : Except CellError Cell :=
  let pos0 := 4
  if pos0 ≥ data.length then .error .malformedStream
  else
    let flagsAndSize := byteAt data pos0
    let pos1 := pos0 + 1
    let hasCrc32 := flagsAndSize &&& 0x40 ≠ 0
    let sizeBytes := flagsAndSize &&& 0x07
    if sizeBytes = 0 ∨ sizeBytes > 8 then .error .malformedStream
    else if pos1 ≥ data.length then .error .malformedStream
    else
      let offsetBytes := byteAt data pos1
      let pos2 := pos1 + 1
      if offsetBytes = 0 ∨ offsetBytes > 8 then .error .malformedStream
      else
        match readUint data pos2 sizeBytes with
        | .error e => .error e
        | .ok (cellsCount, pos3) =>
        match readUint data pos3 sizeBytes with
        | .error e => .error e
        | .ok (rootsCount, pos4) =>
        if rootsCount ≠ 1 then .error .malformedStream
        else
        match readUint data pos4 sizeBytes with
        | .error e => .error e
        | .ok (_absentCount, pos5) =>
        match readUint data pos5 offsetBytes with
        | .error e => .error e
        | .ok (cellsSize, pos6) =>
        match readUint data pos6 sizeBytes with
        | .error e => .error e
        | .ok (rootIdx, pos7) =>
        let cellsStart := pos7
        let cellsEnd := cellsStart + cellsSize
        if cellsEnd > data.length - (if hasCrc32 then 4 else 0) then .error .malformedStream
        else
          let cellsData := (data.drop cellsStart).take cellsSize
          match parseCells cellsData cellsCount with
          | .error e => .error e
          | .ok cells =>
            let crcCheck : Except CellError Unit :=
              if hasCrc32 then
                if data.length < cellsEnd + 4 then .error .malformedStream
                else
                  let expected :=
                    byteAt data cellsEnd + byteAt data (cellsEnd + 1) * 256 +
                    byteAt data (cellsEnd + 2) * 65536 + byteAt data (cellsEnd + 3) * 16777216
                  let actual := crc32 (data.take cellsEnd)
                  if expected ≠ actual then .error .integrityError else .ok ()
              else .ok ()
            match crcCheck with
            | .error e => .error e
            | .ok _ =>
              if rootIdx ≥ cells.length then .error .malformedStream
              else .ok (cells.getD rootIdx Cell.new)

/-- `deserialize_boc(data)`. -/
def deserializeBoc (data : List Nat) : Except CellError Cell :=
  if data.length < 4 then .error .malformedStream
  else
    let magic :=
      ((byteAt data 0 * 256 + byteAt data 1) * 256 + byteAt data 2) * 256 + byteAt data 3
    if magic = BOC_GENERIC_MAGIC then deserializeBocGeneric data
    else if magic = BOC_INDEXED_MAGIC ∨ magic = BOC_INDEXED_CRC32C_MAGIC then
      .error .unsupportedFormat
    else .error .malformedStream

example :
    (match serializeBoc (Cell.mk [0x12, 0x34, 0x56, 0x78] 32 []) false with
     | .ok bs => (deserializeBoc bs).map Cell.hash
     | .error e => .error e) =
      .ok (Cell.mk [0x12, 0x34, 0x56, 0x78] 32 []).hash := by decide

example :
    (match serializeBoc (Cell.mk [0xAB] 8 [Cell.mk [] 0 []]) true with
     | .ok bs => (deserializeBoc bs).map Cell.hash
     | .error e => .error e) =
      .ok (Cell.mk [0xAB] 8 [Cell.mk [] 0 []]).hash := by decide

/-- The public `Slice` operations that take `&mut self` (the `&self` accessors
`remaining_bits`, `bit_position`, `preload_reference`, `can_read_*`,
`clone_from_current`, … cannot touch the cursor by their signature; the two that
return derived values are included as identity transitions on the receiver). -/
inductive SliceOp where
  | loadBit
  | loadBits (n : Nat)
  | loadByte
  | loadBytes (n : Nat)
  | loadU16
  | loadU32
  | loadU64
  | loadUint (bits : Nat)
  | loadInt (bits : Nat)
  | loadReference
  | skipBits (n : Nat)
  | skipRefs (n : Nat)
  | reset
  | loadRemainingBits
  | loadRemainingRefs
  | loadVarUint (lengthBits : Nat)
  | loadCoins
  | preloadReference (index : Nat)
  | cloneFromCurrent
deriving DecidableEq

/-- The state transition each `Slice` operation performs on its receiver. -/
def SliceOp.apply : SliceOp → Slice → Slice
  | .loadBit, s => s.loadBit.2
  | .loadBits n, s => (s.loadBits n).2
  | .loadByte, s => s.loadByte.2
  | .loadBytes n, s => (s.loadBytes n).2
  | .loadU16, s => s.loadU16.2
  | .loadU32, s => s.loadU32.2
  | .loadU64, s => s.loadU64.2
  | .loadUint bits, s => (s.loadUint bits).2
  | .loadInt bits, s => (s.loadInt bits).2
  | .loadReference, s => s.loadReference.2
  | .skipBits n, s => (s.skipBits n).2
  | .skipRefs n, s => (s.skipRefs n).2
  | .reset, s => s.reset
  | .loadRemainingBits, s => s.loadRemainingBits.2
  | .loadRemainingRefs, s => s.loadRemainingRefs.2
  | .loadVarUint lb, s => (s.loadVarUint lb).2
  | .loadCoins, s => s.loadCoins.2
  | .preloadReference _, s => s
  | .cloneFromCurrent, s => s

/-- Forward cursor movement: positions only grow and the cell handle is kept. -/
def SliceStep (s s2 : Slice) : Prop :=
  s.bitPos ≤ s2.bitPos ∧ s.refPos ≤ s2.refPos ∧ s2.cell = s.cell

/-- Bit `i` (MSB-first, global index) of a byte buffer. -/
def byteGetBit (bytes : List Nat) (i : Nat) : Bool :=
  Nat.testBit (bytes.getD (i / 8) 0) (7 - i % 8)

/-- A buffer is trailing-clean for a bit length when every bit at or past the
bit length (up to the byte boundary) is zero — the invariant `CellBuilder`
maintains for its data buffer. -/
def trailingClean (data : List Nat) (bitLen : Nat) : Prop :=
  ∀ j < data.length * 8, bitLen ≤ j → byteGetBit data j = false

instance (data : List Nat) (bitLen : Nat) : Decidable (trailingClean data bitLen) :=
  inferInstanceAs (Decidable (∀ j < data.length * 8, bitLen ≤ j → byteGetBit data j = false))

/-- Big-endian value of a byte list (specification helper used to reason about
the accumulation loops of `load_uint` and `read_uint`). -/
def beVal (l : List Nat) : Nat :=
  l.foldl (fun r b => r * 256 + b) 0

/-- Index of the first cell with the given hash (specification helper mirroring
both the incremental `cell_map` of `serialize_boc` and
`cells.iter().position(...)`; on the deduplicated collected list the hashes are
distinct so first match = unique match). -/
def findIdxByHash (cells : List Cell) (h : List Nat) : Nat :=
  cells.findIdx (fun x => x.hash == h)

/-- The reference-index bytes `serialize_cell` emits for a cell of the collected
list (one byte per reference, the index truncated to `u8`). -/
def refIndexBytes (cells : List Cell) (c : Cell) : List Nat :=
  c.refs.map (fun r => findIdxByHash cells r.hash % 256)

/-- The full wire record `serialize_cell` emits for a cell. -/
def recordOf (cells : List Cell) (c : Cell) : List Nat :=
  c.descriptors ++ c.serializeData ++ refIndexBytes cells c

/-- The second descriptor byte of a cell. -/
def d2Of (c : Cell) : Nat := c.bitLen / 8 + (c.bitLen + 7) / 8

/-- The reference-free cell the first parsing pass reconstructs from a record. -/
def reparsedFlat (c : Cell) : Cell :=
  Cell.mk c.serializeData (parseBitLen c.serializeData (d2Of c) c.serializeData.length) []

/-- Hash-injectivity over the subcells of a root: structurally different
subcells never collide.  (`collect_cells` deduplicates by hash, so the codec's
round-trip contract is stated under this no-collision assumption.) -/
def HashInj (root : Cell) : Prop :=
  ∀ x ∈ root.allSubcells, ∀ y ∈ root.allSubcells, x.hash = y.hash → x = y

instance (root : Cell) : Decidable (HashInj root) := by
  unfold HashInj
  infer_instance

mutual

/-- Structural size of a cell tree (counts every node; a cell is strictly
larger than each of its strict subcells). -/
def Cell.count : Cell → Nat
  | .mk _ _ rs => 1 + Cell.countList rs

def Cell.countList : List Cell → Nat
  | [] => 0
  | c :: cs => Cell.count c + Cell.countList cs

end

/-- The hash-to-index association list the serialization loop of `serialize_boc`
has built after inserting the first `k` collected cells. -/
def hashPairs (cells : List Cell) (k : Nat) : List (List Nat × Nat) :=
  (List.range k).map (fun j => ((cells.getD j Cell.new).hash, j))

/-- Topological order of a cell list: every reference of the `i`-th cell has its
hash among the hashes of the first `i` cells (the order
`collect_cells_recursive` produces — children before parents). -/
def OrderedRefs (cells : List Cell) : Prop :=
  ∀ i, i < cells.length → ∀ r ∈ (cells.getD i Cell.new).refs,
    r.hash ∈ (cells.take i).map Cell.hash

/-- The `body` local of `serialize_boc` — header and per-cell records, before
the optional CRC trailer — written against the per-cell records of the
collected cell list. -/
def bocBody (root : Cell) (hasCrc32 : Bool) : List Nat :=
  let cells := collectCell root []
  let records := cells.map (recordOf cells)
  let cellsSize := (records.map List.length).sum
  let sizeBytes := bytesNeeded cells.length
  let offsetBytes := bytesNeeded cellsSize
  let flags : Nat := if hasCrc32 then 64 else 0
  natToBytesBE 4 BOC_GENERIC_MAGIC ++ [flags ||| sizeBytes] ++ [offsetBytes] ++
    natToBytesBE sizeBytes cells.length ++ natToBytesBE sizeBytes 1 ++
    natToBytesBE sizeBytes 0 ++ natToBytesBE offsetBytes cellsSize ++
    natToBytesBE sizeBytes (cells.length - 1) ++ records.flatten

/-! ## Theorems -/

theorem sliceStep_refl (s : Slice) : SliceStep s s := ⟨le_rfl, le_rfl, rfl⟩

theorem sliceStep_trans {s1 s2 s3 : Slice} (h1 : SliceStep s1 s2) (h2 : SliceStep s2 s3) :
    SliceStep s1 s3 :=
  ⟨h1.1.trans h2.1, h1.2.1.trans h2.2.1, h2.2.2.trans h1.2.2⟩

theorem sliceStep_loadBit (s : Slice) : SliceStep s s.loadBit.2 := by
  by_cases h1 : s.remainingBits = 0
  · simp only [Slice.loadBit, if_pos h1]
    exact sliceStep_refl s
  · by_cases h2 : s.bitPos / 8 ≥ s.cell.data.length
    · simp only [Slice.loadBit, if_neg h1, if_pos h2]
      exact sliceStep_refl s
    · simp only [Slice.loadBit, if_neg h1, if_neg h2]
      exact ⟨Nat.le_succ _, le_rfl, rfl⟩

theorem sliceStep_loadBitsGo (n : Nat) :
    ∀ (i : Nat) (s : Slice) (acc : List Nat), SliceStep s (loadBitsGo i n s acc).2 := by
  induction n with
  | zero => intro i s acc; exact sliceStep_refl s
  | succ n ih =>
      intro i s acc
      have hb := sliceStep_loadBit s
      unfold loadBitsGo
      cases hlb : s.loadBit with
      | mk r s2 =>
          rw [hlb] at hb
          cases r with
          | ok bit => exact sliceStep_trans hb (ih (i + 1) s2 _)
          | error e => exact hb

theorem sliceStep_loadBits (s : Slice) (n : Nat) : SliceStep s (s.loadBits n).2 := by
  unfold Slice.loadBits
  split
  · exact sliceStep_refl s
  · exact sliceStep_loadBitsGo n 0 s _

theorem sliceStep_loadByte (s : Slice) : SliceStep s s.loadByte.2 := by
  have h := sliceStep_loadBits s 8
  unfold Slice.loadByte
  cases hlb : s.loadBits 8 with
  | mk r s2 =>
      rw [hlb] at h
      cases r with
      | ok bits => exact h
      | error e => exact h

theorem sliceStep_loadBytes (s : Slice) (n : Nat) : SliceStep s (s.loadBytes n).2 :=
  sliceStep_loadBits s (n * 8)

theorem sliceStep_loadU16 (s : Slice) : SliceStep s s.loadU16.2 := by
  have h := sliceStep_loadBits s 16
  unfold Slice.loadU16
  cases hlb : s.loadBits 16 with
  | mk r s2 =>
      rw [hlb] at h
      cases r with
      | ok bits => exact h
      | error e => exact h

theorem sliceStep_loadU32 (s : Slice) : SliceStep s s.loadU32.2 := by
  have h := sliceStep_loadBits s 32
  unfold Slice.loadU32
  cases hlb : s.loadBits 32 with
  | mk r s2 =>
      rw [hlb] at h
      cases r with
      | ok bits => exact h
      | error e => exact h

theorem sliceStep_loadU64 (s : Slice) : SliceStep s s.loadU64.2 := by
  have h := sliceStep_loadBits s 64
  unfold Slice.loadU64
  cases hlb : s.loadBits 64 with
  | mk r s2 =>
      rw [hlb] at h
      cases r with
      | ok bits => exact h
      | error e => exact h

theorem sliceStep_loadUint (s : Slice) (bits : Nat) : SliceStep s (s.loadUint bits).2 := by
  unfold Slice.loadUint
  split
  · exact sliceStep_refl s
  · split
    · exact sliceStep_refl s
    · have h := sliceStep_loadBits s bits
      cases hlb : s.loadBits bits with
      | mk r s2 =>
          rw [hlb] at h
          cases r with
          | ok bytes => exact h
          | error e => exact h

theorem sliceStep_loadInt (s : Slice) (bits : Nat) : SliceStep s (s.loadInt bits).2 := by
  unfold Slice.loadInt
  split
  · exact sliceStep_refl s
  · split
    · exact sliceStep_refl s
    · have h := sliceStep_loadUint s bits
      rcases hlu : s.loadUint bits with ⟨r, s2⟩
      rw [hlu] at h
      cases r with
      | ok unsigned =>
          dsimp only
          by_cases hc : unsigned &&& 1 <<< (bits - 1) ≠ 0
          · rw [if_pos hc]; exact h
          · rw [if_neg hc]; exact h
      | error e => exact h

theorem sliceStep_loadReference (s : Slice) : SliceStep s s.loadReference.2 := by
  unfold Slice.loadReference
  split
  · exact sliceStep_refl s
  · split
    · exact ⟨le_rfl, Nat.le_succ _, rfl⟩
    · exact sliceStep_refl s

theorem sliceStep_skipBits (s : Slice) (n : Nat) : SliceStep s (s.skipBits n).2 := by
  unfold Slice.skipBits
  split
  · exact sliceStep_refl s
  · exact ⟨Nat.le_add_right _ _, le_rfl, rfl⟩

theorem sliceStep_skipRefs (s : Slice) (n : Nat) : SliceStep s (s.skipRefs n).2 := by
  unfold Slice.skipRefs
  split
  · exact sliceStep_refl s
  · exact ⟨le_rfl, Nat.le_add_right _ _, rfl⟩

theorem sliceStep_loadRemainingRefsGo (fuel : Nat) :
    ∀ (s : Slice) (acc : List Cell), SliceStep s (loadRemainingRefsGo fuel s acc).2 := by
  induction fuel with
  | zero => intro s acc; exact sliceStep_refl s
  | succ fuel ih =>
      intro s acc
      unfold loadRemainingRefsGo
      split
      · exact sliceStep_refl s
      · have h := sliceStep_loadReference s
        cases hlr : s.loadReference with
        | mk r s2 =>
            rw [hlr] at h
            cases r with
            | ok c => exact sliceStep_trans h (ih s2 _)
            | error e => exact h

theorem sliceStep_loadVarUint (s : Slice) (lb : Nat) : SliceStep s (s.loadVarUint lb).2 := by
  unfold Slice.loadVarUint
  split
  · exact sliceStep_refl s
  · have h := sliceStep_loadUint s lb
    rcases hlu : s.loadUint lb with ⟨r, s2⟩
    rw [hlu] at h
    cases r with
    | ok byteLen =>
        dsimp only
        split
        · exact h
        · split
          · exact h
          · have h2 := sliceStep_loadBytes s2 byteLen
            rcases hlb : s2.loadBytes byteLen with ⟨r2, s3⟩
            rw [hlb] at h2
            cases r2 with
            | ok bytes => exact sliceStep_trans h h2
            | error e => exact sliceStep_trans h h2
    | error e => exact h

theorem sliceStep_loadCoins (s : Slice) : SliceStep s s.loadCoins.2 := by
  unfold Slice.loadCoins
  have h := sliceStep_loadUint s 4
  rcases hlu : s.loadUint 4 with ⟨r, s2⟩
  rw [hlu] at h
  cases r with
  | ok len =>
      dsimp only
      split
      · exact h
      · split
        · exact h
        · have h2 := sliceStep_loadBytes s2 len
          rcases hlb : s2.loadBytes len with ⟨r2, s3⟩
          rw [hlb] at h2
          cases r2 with
          | ok bytes => exact sliceStep_trans h h2
          | error e => exact sliceStep_trans h h2
  | error e => exact h

/-- **C9 (counterexample).** `reset` is a public `Slice` operation that moves
`bit_pos` backwards, refuting "cursor positions never decrease across any single
operation". -/
theorem slice_cursor_monotone_counterexample :
    (SliceOp.reset.apply (Slice.mk (Cell.mk [0x80] 1 []) 1 0)).bitPos <
      (Slice.mk (Cell.mk [0x80] 1 []) 1 0).bitPos := by decide

/-- **C9 (amended).** Every public `Slice` operation leaves the underlying cell
untouched, and every operation other than `reset` only moves `bit_pos` and
`ref_pos` forwards. -/
theorem slice_ops_monotone_except_reset (op : SliceOp) (s : Slice) :
    (op.apply s).cell = s.cell ∧
    (op ≠ SliceOp.reset →
      s.bitPos ≤ (op.apply s).bitPos ∧ s.refPos ≤ (op.apply s).refPos) := by
  have step : op ≠ SliceOp.reset → SliceStep s (op.apply s) := by
    intro hop
    cases op with
    | loadBit => exact sliceStep_loadBit s
    | loadBits n => exact sliceStep_loadBits s n
    | loadByte => exact sliceStep_loadByte s
    | loadBytes n => exact sliceStep_loadBytes s n
    | loadU16 => exact sliceStep_loadU16 s
    | loadU32 => exact sliceStep_loadU32 s
    | loadU64 => exact sliceStep_loadU64 s
    | loadUint bits => exact sliceStep_loadUint s bits
    | loadInt bits => exact sliceStep_loadInt s bits
    | loadReference => exact sliceStep_loadReference s
    | skipBits n => exact sliceStep_skipBits s n
    | skipRefs n => exact sliceStep_skipRefs s n
    | reset => exact absurd rfl hop
    | loadRemainingBits => exact sliceStep_loadBits s s.remainingBits
    | loadRemainingRefs => exact sliceStep_loadRemainingRefsGo s.remainingRefs s []
    | loadVarUint lb => exact sliceStep_loadVarUint s lb
    | loadCoins => exact sliceStep_loadCoins s
    | preloadReference i => exact sliceStep_refl s
    | cloneFromCurrent => exact sliceStep_refl s
  constructor
  · by_cases hop : op = SliceOp.reset
    · subst hop; rfl
    · exact (step hop).2.2
  · intro hop
    exact ⟨(step hop).1, (step hop).2.1⟩

theorem slice_ops_monotone_except_reset_witness :
    SliceOp.loadBit ≠ SliceOp.reset ∧
    ((SliceOp.loadBit.apply (Slice.new (Cell.mk [0x80] 1 []))).cell =
        (Slice.new (Cell.mk [0x80] 1 [])).cell ∧
      ((Slice.new (Cell.mk [0x80] 1 [])).bitPos ≤
          (SliceOp.loadBit.apply (Slice.new (Cell.mk [0x80] 1 []))).bitPos ∧
        (Slice.new (Cell.mk [0x80] 1 [])).refPos ≤
          (SliceOp.loadBit.apply (Slice.new (Cell.mk [0x80] 1 []))).refPos)) :=
  ⟨by decide,
   (slice_ops_monotone_except_reset SliceOp.loadBit (Slice.new (Cell.mk [0x80] 1 []))).1,
   (slice_ops_monotone_except_reset SliceOp.loadBit (Slice.new (Cell.mk [0x80] 1 []))).2
     (by decide)⟩

/-- **C3.** `Cell::with_data(data, n)` succeeds iff `n ≤ 1023` and
`data.len() ≥ ceil(n/8)`; for `n > 1023` it fails with CapacityExceeded, and for
short data (with `n ≤ 1023`) it fails with InsufficientData. -/
theorem withData_success_iff (data : List Nat) (n : Nat) :
    ((∃ c, Cell.withData data n = .ok c) ↔
      n ≤ 1023 ∧ data.length ≥ (n + 7) / 8) ∧
    (n > 1023 → Cell.withData data n = .error .capacityExceeded) ∧
    (n ≤ 1023 → data.length < (n + 7) / 8 →
      Cell.withData data n = .error .insufficientData) := by
  unfold Cell.withData MAX_CELL_BITS
  refine ⟨?_, ?_, ?_⟩
  · constructor
    · rintro ⟨c, hc⟩
      split at hc
      · exact absurd hc (by simp)
      · split at hc
        · exact absurd hc (by simp)
        · omega
    · rintro ⟨h1, h2⟩
      rw [if_neg (by omega), if_neg (by omega)]
      exact ⟨_, rfl⟩
  · intro h
    rw [if_pos (by omega)]
  · intro h1 h2
    rw [if_neg (by omega), if_pos (by omega)]

theorem withData_success_iff_witness :
    (1024 > 1023 ∧ Cell.withData [] 1024 = .error .capacityExceeded) ∧
    (8 ≤ 1023 ∧ ([] : List Nat).length < (8 + 7) / 8 ∧
      Cell.withData [] 8 = .error .insufficientData) ∧
    (∃ c, Cell.withData [1] 8 = .ok c) :=
  ⟨⟨by decide, (withData_success_iff [] 1024).2.1 (by decide)⟩,
   ⟨by decide, by decide, (withData_success_iff [] 8).2.2 (by decide) (by decide)⟩,
   (withData_success_iff [1] 8).1.mpr ⟨by decide, by decide⟩⟩

/-- **C10.** The high-level `Builder` accessors are placeholders: `bit_len()` and
`ref_count()` return 0 and `available_bits()`/`available_bytes()` return
1023/127 for every builder state, even one that demonstrably holds data. -/
theorem builder_accessors_are_placeholders (b : Builder) :
    b.bitLen = 0 ∧ b.refCount = 0 ∧ b.availableBits = 1023 ∧ b.availableBytes = 127 ∧
    ((Builder.new.storeBytes [1]).2.inner.bitLen = 8 ∧
      (Builder.new.storeBytes [1]).2.bitLen = 0) := by
  refine ⟨rfl, rfl, ?_, ?_, by decide, rfl⟩ <;>
    simp [Builder.availableBytes, Builder.availableBits, Builder.bitLen, MAX_CELL_BITS]

/-- **C5.** A `store_reference` on a builder that already has 4 references, or a
`store_bits` whose bit count would push the total above 1023 bits, fails with
CapacityExceeded and returns the builder state unchanged. -/
theorem storeCalls_fail_without_mutation (b : CellBuilder) (bits : List Nat) (n : Nat)
    (c : Cell) :
    (b.refs.length ≥ 4 → b.storeReference c = (some .capacityExceeded, b)) ∧
    (b.bitLen + n > 1023 → b.storeBits bits n = (some .capacityExceeded, b)) := by
  constructor
  · intro h
    unfold CellBuilder.storeReference MAX_CELL_REFS
    rw [if_pos (by omega)]
  · intro h
    unfold CellBuilder.storeBits MAX_CELL_BITS
    rw [if_pos (by omega)]

theorem getD_set_self : ∀ (l : List Nat) (i v : Nat), i < l.length → (l.set i v).getD i 0 = v
  | _ :: _, 0, _, _ => rfl
  | a :: l, i + 1, v, h => getD_set_self l i v (by simpa using h)
  | [], _, _, h => absurd h (by simp)

theorem getD_set_ne : ∀ (l : List Nat) (i j v : Nat), i ≠ j →
    (l.set i v).getD j 0 = l.getD j 0
  | [], _, _, _, _ => by simp
  | a :: l, 0, 0, v, h => absurd rfl h
  | a :: l, 0, j + 1, v, _ => rfl
  | a :: l, i + 1, 0, v, _ => rfl
  | a :: l, i + 1, j + 1, v, h => getD_set_ne l i j v (fun hij => h (by omega))

theorem getD_lt_of_all_lt (l : List Nat) (i : Nat) (h : ∀ x ∈ l, x < 256) :
    l.getD i 0 < 256 := by
  by_cases hi : i < l.length
  · rw [List.getD_eq_getElem l 0 hi]
    exact h _ (List.getElem_mem hi)
  · rw [List.getD_eq_default l 0 (by omega)]
    omega

theorem byteAt_eq_getD (data : List Nat) (i : Nat) (h : ∀ x ∈ data, x < 256) :
    byteAt data i = data.getD i 0 :=
  Nat.mod_eq_of_lt (getD_lt_of_all_lt data i h)

/-- The bit test performed by the source loops agrees with `Nat.testBit`. -/
theorem shift_and_one_eq_testBit (x k : Nat) : ((x >>> k) &&& 1 == 1) = x.testBit k := by
  simp [Nat.testBit, Nat.and_comm]

theorem find?_range'_eq (p : Nat → Bool) :
    ∀ (n s i0 : Nat), s ≤ i0 → i0 < s + n → p i0 = true →
      (∀ i, s ≤ i → i < i0 → p i = false) → (List.range' s n).find? p = some i0 := by
  intro n
  induction n with
  | zero => intro s i0 h1 h2; omega
  | succ n ih =>
      intro s i0 h1 h2 hp hmin
      rw [List.range'_succ, List.find?_cons]
      by_cases hs : s = i0
      · subst hs; rw [hp]
      · rw [hmin s le_rfl (by omega)]
        exact ih (s + 1) i0 (by omega) (by omega) hp (fun i hi hlt => hmin i (by omega) hlt)

/-- Characterization of the completion-marker scan: if `mi` is the least set bit
of a byte and `mi < 8`, the scan reports `8 - mi`. -/
theorem bitsInLastByteScan_eq (x mi : Nat) (hmi : mi < 8) (hbit : x.testBit mi = true)
    (hmin : ∀ i < mi, x.testBit i = false) : bitsInLastByteScan x = 8 - mi := by
  unfold bitsInLastByteScan
  have hfind : (List.range 8).find? (fun i => (x >>> i) &&& 1 == 1) = some mi := by
    rw [List.range_eq_range']
    refine find?_range'_eq _ 8 0 mi (Nat.zero_le _) (by omega) ?_ ?_
    · rw [shift_and_one_eq_testBit]; exact hbit
    · intro i _ hi
      rw [shift_and_one_eq_testBit]; exact hmin i hi
  rw [hfind]

theorem testBit_lor_two_pow (x k m : Nat) :
    (x ||| 2 ^ k).testBit m = (x.testBit m || (k == m)) := by
  rw [Nat.testBit_or]
  by_cases hkm : k = m
  · subst hkm
    simp [Nat.testBit_two_pow_self]
  · simp [Nat.testBit_two_pow_of_ne hkm, hkm]

theorem lor_two_pow_of_testBit (x k : Nat) (h : x.testBit k = true) : x ||| 2 ^ k = x := by
  apply Nat.eq_of_testBit_eq
  intro i
  rw [testBit_lor_two_pow]
  by_cases hk : k = i
  · subst hk; simp [h]
  · simp [hk]

theorem set_getD_self (l : List Nat) (i : Nat) (h : i < l.length) :
    l.set i (l.getD i 0) = l := by
  apply List.ext_getElem
  · simp
  · intro j hj hj2
    rw [List.getElem_set]
    split
    · subst i
      rw [List.getD_eq_getElem l 0 hj2]
    · rfl

theorem lor_lt_256 (x y : Nat) (hx : x < 256) (hy : y < 256) : x ||| y < 256 := by
  have h : Nat.bitwise or x y < 2 ^ 8 :=
    Nat.bitwise_lt (by norm_num; omega) (by norm_num; omega)
  have he : x ||| y = Nat.bitwise or x y := rfl
  rw [he]
  omega

/-- `serialize_data` in the non-byte-aligned case: the marker bit is OR-ed into
the byte holding the last data bit. -/
theorem serializeData_odd (d : List Nat) (b : Nat) (rs : List Cell)
    (hb8 : b % 8 ≠ 0) (hlen : d.length = (b + 7) / 8) :
    (Cell.mk d b rs).serializeData =
      d.set (b / 8) (d.getD (b / 8) 0 ||| 2 ^ (7 - b % 8)) := by
  unfold Cell.serializeData
  have hlt : b / 8 < d.length := by omega
  rw [if_pos (by simpa [Cell.bitLen] using hb8), if_pos (by simpa [Cell.data, Cell.bitLen] using hlt)]
  simp [Cell.data, Cell.bitLen, Nat.one_shiftLeft]

/-- `serialize_data` in the byte-aligned case is the identity on the data. -/
theorem serializeData_even (d : List Nat) (b : Nat) (rs : List Cell) (hb8 : b % 8 = 0) :
    (Cell.mk d b rs).serializeData = d := by
  unfold Cell.serializeData
  rw [if_neg (by simpa [Cell.bitLen] using hb8)]
  rfl

/-- **C6 (counterexample).** `serialize_data` only ORs the marker bit in: it does
not zero the buffer bits below it.  For `Cell { data: [0xFF], bit_len: 4 }` the
result is `[0xFF]`, not the claimed `[0xF8]` (data bits, marker, zeros), and the
parser's scan recovers 7 instead of the true bit length 4. -/
theorem serializeData_padding_counterexample :
    (Cell.mk [0xFF] 4 []).bitLen % 8 ≠ 0 ∧
    (Cell.mk [0xFF] 4 []).serializeData = [0xFF] ∧
    (Cell.mk [0xFF] 4 []).serializeData ≠ [0xF8] ∧
    parseBitLen (Cell.mk [0xFF] 4 []).serializeData
        ((Cell.mk [0xFF] 4 []).descriptors.getD 1 0)
        (Cell.mk [0xFF] 4 []).serializeData.length ≠
      (Cell.mk [0xFF] 4 []).bitLen := by decide

/-- **C6 (amended).** For a cell whose buffer is byte-exact
(`data.len() = ceil(bit_len/8)`, bytes in `u8` range) and trailing-clean (all
bits from `bit_len` to the byte boundary are zero — the invariant `CellBuilder`
output satisfies), `serialize_data()` keeps every data bit, sets the single
marker bit immediately after the last data bit, leaves all later bits zero, and
the BoC parser's low-end scan recovers exactly `bit_len`. -/
theorem serializeData_padding_amended (d : List Nat) (b : Nat) (rs : List Cell)
    (hb8 : b % 8 ≠ 0) (hlen : d.length = (b + 7) / 8)
    (hbytes : ∀ x ∈ d, x < 256) (hclean : trailingClean d b) :
    let sd := (Cell.mk d b rs).serializeData
    sd.length = d.length ∧
    (∀ j < b, byteGetBit sd j = byteGetBit d j) ∧
    byteGetBit sd b = true ∧
    (∀ j, b < j → j < d.length * 8 → byteGetBit sd j = false) ∧
    parseBitLen sd ((Cell.mk d b rs).descriptors.getD 1 0) sd.length = b := by
  intro sd
  have hsd : sd = d.set (b / 8) (d.getD (b / 8) 0 ||| 2 ^ (7 - b % 8)) :=
    serializeData_odd d b rs hb8 hlen
  have hlt : b / 8 < d.length := by omega
  have hsdlen : sd.length = d.length := by rw [hsd]; simp
  have hmod : b % 8 < 8 := Nat.mod_lt _ (by omega)
  have hbyte : ∀ j, byteGetBit sd j =
      if j / 8 = b / 8 then (d.getD (b / 8) 0 ||| 2 ^ (7 - b % 8)).testBit (7 - j % 8)
      else byteGetBit d j := by
    intro j
    unfold byteGetBit
    rw [hsd]
    by_cases hj : j / 8 = b / 8
    · rw [if_pos hj, hj, getD_set_self d _ _ hlt]
    · rw [if_neg hj, getD_set_ne d _ _ _ (fun h => hj h.symm)]
  have hbits : ∀ j < b, byteGetBit sd j = byteGetBit d j := by
    intro j hj
    rw [hbyte j]
    split
    · rename_i hj8
      have hjm : j % 8 < b % 8 := by omega
      rw [testBit_lor_two_pow]
      have hbe : ((7 - b % 8) == (7 - j % 8)) = false := by
        simp only [beq_eq_false_iff_ne, ne_eq]
        omega
      rw [hbe, Bool.or_false]
      unfold byteGetBit
      rw [hj8]
    · rfl
  have hmarker : byteGetBit sd b = true := by
    rw [hbyte b, if_pos rfl, testBit_lor_two_pow]
    simp
  have hafter : ∀ j, b < j → j < d.length * 8 → byteGetBit sd j = false := by
    intro j hj hj2
    have hdj : byteGetBit d j = false := hclean j hj2 (by omega)
    rw [hbyte j]
    split
    · rename_i hj8
      have hjm : b % 8 < j % 8 := by omega
      rw [testBit_lor_two_pow]
      have hbe : ((7 - b % 8) == (7 - j % 8)) = false := by
        simp only [beq_eq_false_iff_ne, ne_eq]
        omega
      rw [hbe, Bool.or_false]
      unfold byteGetBit at hdj
      rw [hj8] at hdj
      exact hdj
    · exact hdj
  refine ⟨hsdlen, hbits, hmarker, hafter, ?_⟩
  -- the parser's recovery
  have hd2 : (Cell.mk d b rs).descriptors.getD 1 0 = 2 * (b / 8) + 1 := by
    simp [Cell.descriptors, Cell.bitLen]
    omega
  have hL : sd.getD (d.length - 1) 0 = d.getD (b / 8) 0 ||| 2 ^ (7 - b % 8) := by
    rw [hsd]
    have : d.length - 1 = b / 8 := by omega
    rw [this]
    exact getD_set_self d _ _ hlt
  have hLlt : sd.getD (d.length - 1) 0 < 256 := by
    rw [hL]
    have hp : (2 : Nat) ^ (7 - b % 8) < 256 := by
      have h7 : (2 : Nat) ^ (7 - b % 8) ≤ 2 ^ 7 := Nat.pow_le_pow_right (by omega) (by omega)
      omega
    exact lor_lt_256 _ _ (getD_lt_of_all_lt d _ hbytes) hp
  unfold parseBitLen
  rw [hd2, hsdlen]
  rw [if_pos ⟨by omega, by omega⟩, if_neg (by omega)]
  have hscan : bitsInLastByteScan (byteAt sd (d.length - 1)) = 8 - (7 - b % 8) := by
    have hba : byteAt sd (d.length - 1) = sd.getD (d.length - 1) 0 :=
      Nat.mod_eq_of_lt hLlt
    rw [hba]
    apply bitsInLastByteScan_eq _ (7 - b % 8) (by omega)
    · rw [hL, testBit_lor_two_pow]; simp
    · intro i hi
      -- bit i of the last byte is the global bit (d.length - 1) * 8 + (7 - i)
      have hj : byteGetBit sd ((d.length - 1) * 8 + (7 - i)) = false := by
        apply hafter
        · have : (d.length - 1) * 8 = (b / 8) * 8 := by omega
          omega
        · omega
      unfold byteGetBit at hj
      have hdiv : ((d.length - 1) * 8 + (7 - i)) / 8 = d.length - 1 := by omega
      have hmod2 : 7 - ((d.length - 1) * 8 + (7 - i)) % 8 = i := by omega
      rw [hdiv, hmod2] at hj
      exact hj
  rw [hscan, if_pos (by omega)]
  omega

theorem serializeData_padding_amended_witness :
    ((3 : Nat) % 8 ≠ 0 ∧ ([0xA0] : List Nat).length = (3 + 7) / 8 ∧
      (∀ x ∈ ([0xA0] : List Nat), x < 256) ∧ trailingClean [0xA0] 3) ∧
    ((Cell.mk [0xA0] 3 []).serializeData.length = ([0xA0] : List Nat).length ∧
      (∀ j < 3, byteGetBit (Cell.mk [0xA0] 3 []).serializeData j = byteGetBit [0xA0] j) ∧
      byteGetBit (Cell.mk [0xA0] 3 []).serializeData 3 = true ∧
      (∀ j, 3 < j → j < ([0xA0] : List Nat).length * 8 →
        byteGetBit (Cell.mk [0xA0] 3 []).serializeData j = false) ∧
      parseBitLen (Cell.mk [0xA0] 3 []).serializeData
        ((Cell.mk [0xA0] 3 []).descriptors.getD 1 0)
        (Cell.mk [0xA0] 3 []).serializeData.length = 3) :=
  ⟨⟨by decide, by decide, by decide, by decide⟩,
   serializeData_padding_amended [0xA0] 3 [] (by decide) (by decide) (by decide) (by decide)⟩

theorem storeCalls_fail_without_mutation_witness :
    (CellBuilder.mk [] 0 [Cell.new, Cell.new, Cell.new, Cell.new]).refs.length ≥ 4 ∧
    (CellBuilder.mk [] 0 [Cell.new, Cell.new, Cell.new, Cell.new]).storeReference Cell.new =
      (some .capacityExceeded, CellBuilder.mk [] 0 [Cell.new, Cell.new, Cell.new, Cell.new]) ∧
    (CellBuilder.mk [0xFF] 8 []).bitLen + 1020 > 1023 ∧
    (CellBuilder.mk [0xFF] 8 []).storeBits [] 1020 =
      (some .capacityExceeded, CellBuilder.mk [0xFF] 8 []) :=
  ⟨by decide,
   (storeCalls_fail_without_mutation (CellBuilder.mk [] 0
      [Cell.new, Cell.new, Cell.new, Cell.new]) [] 0 Cell.new).1 (by decide),
   by decide,
   (storeCalls_fail_without_mutation (CellBuilder.mk [0xFF] 8 []) [] 1020 Cell.new).2
     (by decide)⟩

theorem Cell.hashesOfRefs_eq_flatten (rs : List Cell) :
    Cell.hashesOfRefs rs = (rs.map Cell.hash).flatten := by
  induction rs with
  | nil => rfl
  | cons r rest ih => simp [Cell.hashesOfRefs, ih]

theorem Cell.depthBytesOfRefs_eq_flatten (rs : List Cell) :
    Cell.depthBytesOfRefs rs = (rs.map (fun r => natToBytesBE 2 r.depth)).flatten := by
  induction rs with
  | nil => rfl
  | cons r rest ih => simp [Cell.depthBytesOfRefs, ih]

/-- **C2.** `hash()` is the SHA-256 of `descriptors() ‖ serialize_data() ‖`
each reference's depth as a big-endian u16 `‖` each reference's 32-byte hash,
and `with_data([0,0,0,0x0F], 32)` hashes to the documented digest. -/
theorem hash_formula_and_vector (c : Cell) :
    c.hash = sha256 (c.descriptors ++ c.serializeData ++
      (c.refs.map (fun r => natToBytesBE 2 r.depth)).flatten ++
      (c.refs.map Cell.hash).flatten) ∧
    Cell.withData [0, 0, 0, 0x0F] 32 = .ok (Cell.mk [0, 0, 0, 0x0F] 32 []) ∧
    (Cell.mk [0, 0, 0, 0x0F] 32 []).hash =
      [0x57, 0xb5, 0x20, 0xdb, 0xcb, 0x9d, 0x13, 0x58, 0x63, 0xfc, 0x33, 0x96,
       0x3c, 0xde, 0x9f, 0x6d, 0xb2, 0xde, 0xd1, 0x43, 0x0d, 0x88, 0x05, 0x68,
       0x10, 0xa2, 0xc9, 0x43, 0x4a, 0x38, 0x60, 0xf9] := by
  refine ⟨?_, by decide, by decide⟩
  obtain ⟨d, b, rs⟩ := c
  rw [Cell.hash, Cell.hashesOfRefs_eq_flatten, Cell.depthBytesOfRefs_eq_flatten]
  rfl

/-! ### Bit-level lemmas for the builder/slice round trip (C4) -/

theorem getD_append_lt (l : List Nat) (x i : Nat) (h : i < l.length) :
    (l ++ [x]).getD i 0 = l.getD i 0 := by
  rw [List.getD_eq_getElem _ 0 (by simp; omega), List.getD_eq_getElem _ 0 h]
  exact List.getElem_append_left h

theorem getD_append_self (l : List Nat) (x : Nat) :
    (l ++ [x]).getD l.length 0 = x := by
  rw [List.getD_eq_getElem _ 0 (by simp)]
  simp

theorem beVal_foldl (l : List Nat) :
    ∀ init : Nat, l.foldl (fun r b => r * 256 + b) init = init * 256 ^ l.length + beVal l := by
  induction l with
  | nil => intro init; simp [beVal]
  | cons b rest ih =>
      intro init
      have h1 := ih (init * 256 + b)
      have h2 := ih b
      simp only [List.foldl_cons, List.length_cons]
      rw [h1]
      have : beVal (b :: rest) = b * 256 ^ rest.length + beVal rest := by
        unfold beVal
        simpa using h2
      rw [this]
      ring

theorem beVal_cons (b : Nat) (rest : List Nat) :
    beVal (b :: rest) = 2 ^ (8 * rest.length) * b + beVal rest := by
  have h := beVal_foldl rest b
  show List.foldl _ (0 * 256 + b) rest = _
  rw [show (0 * 256 + b) = b by ring, h,
    show (256 : Nat) ^ rest.length = 2 ^ (8 * rest.length) by
      rw [show (256 : Nat) = 2 ^ 8 by norm_num, ← Nat.pow_mul]]
  ring

theorem beVal_lt (l : List Nat) (hl : ∀ x ∈ l, x < 256) : beVal l < 2 ^ (8 * l.length) := by
  induction l with
  | nil => simp [beVal]
  | cons b rest ih =>
      rw [beVal_cons]
      have hb : b < 256 := hl b (by simp)
      have hrest : beVal rest < 2 ^ (8 * rest.length) := ih (fun x hx => hl x (by simp [hx]))
      have h2 : (2 : Nat) ^ (8 * (b :: rest).length) = 2 ^ (8 * rest.length) * 256 := by
        rw [List.length_cons, Nat.mul_add, Nat.pow_add]
        try norm_num
      rw [h2]
      calc 2 ^ (8 * rest.length) * b + beVal rest
          < 2 ^ (8 * rest.length) * b + 2 ^ (8 * rest.length) := by omega
        _ = 2 ^ (8 * rest.length) * (b + 1) := by ring
        _ ≤ 2 ^ (8 * rest.length) * 256 := Nat.mul_le_mul_left _ (by omega)

theorem testBit_beVal (l : List Nat) (hl : ∀ x ∈ l, x < 256) (t : Nat) :
    (beVal l).testBit t =
      if t < 8 * l.length then byteGetBit l (8 * l.length - 1 - t) else false := by
  induction l with
  | nil => simp [beVal]
  | cons b rest ih =>
      have hb : b < 256 := hl b (by simp)
      have hrest : ∀ x ∈ rest, x < 256 := fun x hx => hl x (by simp [hx])
      have hlt : beVal rest < 2 ^ (8 * rest.length) := beVal_lt rest hrest
      rw [beVal_cons, Nat.testBit_mul_pow_two_add b hlt t]
      by_cases h1 : t < 8 * rest.length
      · rw [if_pos h1, ih hrest, if_pos h1,
          if_pos (by simp only [List.length_cons]; omega)]
        unfold byteGetBit
        have hp : 8 * (b :: rest).length - 1 - t = (8 * rest.length - 1 - t) + 8 := by
          simp only [List.length_cons]; omega
        rw [hp]
        have hdiv : ((8 * rest.length - 1 - t) + 8) / 8 = (8 * rest.length - 1 - t) / 8 + 1 := by
          omega
        have hmod : ((8 * rest.length - 1 - t) + 8) % 8 = (8 * rest.length - 1 - t) % 8 := by
          omega
        rw [hdiv, hmod]
        rfl
      · rw [if_neg h1]
        by_cases h2 : t < 8 * (b :: rest).length
        · rw [if_pos h2]
          have h3 : t - 8 * rest.length < 8 := by simp only [List.length_cons] at h2; omega
          unfold byteGetBit
          have hp : 8 * (b :: rest).length - 1 - t < 8 := by
            simp only [List.length_cons] at h2 ⊢; omega
          have hdiv : (8 * (b :: rest).length - 1 - t) / 8 = 0 := by omega
          have hmod : (8 * (b :: rest).length - 1 - t) % 8 = 8 * (b :: rest).length - 1 - t := by
            omega
          rw [hdiv, hmod]
          have harg : 7 - (8 * (b :: rest).length - 1 - t) = t - 8 * rest.length := by
            simp only [List.length_cons] at h2 ⊢
            omega
          rw [harg]
          rfl
        · rw [if_neg h2]
          apply Nat.testBit_lt_two_pow
          calc b < 256 := hb
            _ = 2 ^ 8 := by norm_num
            _ ≤ 2 ^ (t - 8 * rest.length) := Nat.pow_le_pow_right (by omega)
                  (by simp only [List.length_cons] at h2; omega)

theorem beAccum_eq (l : List Nat) (hl : ∀ x ∈ l, x < 256) :
    ∀ r : Nat, beAccum l r = r ||| beVal l := by
  induction l with
  | nil => intro r; simp [beAccum, beVal]
  | cons b rest ih =>
      intro r
      have hb : b < 256 := hl b (by simp)
      have hrest : ∀ x ∈ rest, x < 256 := fun x hx => hl x (by simp [hx])
      unfold beAccum
      rw [ih hrest, beVal_cons]
      have hshift : b <<< (rest.length * 8) = 2 ^ (8 * rest.length) * b := by
        rw [Nat.shiftLeft_eq, Nat.mul_comm 8 rest.length]
        ring
      have hadd : 2 ^ (8 * rest.length) * b + beVal rest =
          2 ^ (8 * rest.length) * b ||| beVal rest :=
        Nat.mul_add_lt_is_or (beVal_lt rest hrest) b
      rw [hshift, hadd, Nat.or_assoc]

/-- Effect of OR-ing the single bit `i` (MSB-first global index) into a buffer. -/
theorem setBit_spec (l : List Nat) (i : Nat) (hi : i / 8 < l.length)
    (hbytes : ∀ x ∈ l, x < 256) :
    (l.set (i / 8) (l.getD (i / 8) 0 ||| 1 <<< (7 - i % 8))).length = l.length ∧
    (∀ x ∈ l.set (i / 8) (l.getD (i / 8) 0 ||| 1 <<< (7 - i % 8)), x < 256) ∧
    byteGetBit (l.set (i / 8) (l.getD (i / 8) 0 ||| 1 <<< (7 - i % 8))) i = true ∧
    (∀ j, j ≠ i →
      byteGetBit (l.set (i / 8) (l.getD (i / 8) 0 ||| 1 <<< (7 - i % 8))) j =
        byteGetBit l j) := by
  have hv : l.getD (i / 8) 0 ||| 1 <<< (7 - i % 8) < 256 := by
    rw [Nat.one_shiftLeft]
    have hp : (2 : Nat) ^ (7 - i % 8) < 256 := by
      have h7 : (2 : Nat) ^ (7 - i % 8) ≤ 2 ^ 7 := Nat.pow_le_pow_right (by omega) (by omega)
      omega
    exact lor_lt_256 _ _ (getD_lt_of_all_lt l _ hbytes) hp
  refine ⟨by simp, ?_, ?_, ?_⟩
  · intro x hx
    rcases List.mem_or_eq_of_mem_set hx with hmem | hset
    · exact hbytes x hmem
    · rw [hset]; exact hv
  · unfold byteGetBit
    rw [getD_set_self l _ _ hi, Nat.one_shiftLeft, testBit_lor_two_pow]
    simp
  · intro j hj
    unfold byteGetBit
    by_cases hj8 : j / 8 = i / 8
    · rw [hj8, getD_set_self l _ _ hi, Nat.one_shiftLeft, testBit_lor_two_pow]
      have hmm : j % 8 ≠ i % 8 := by
        intro hc
        exact hj (by omega)
      have hbe : ((7 - i % 8) == (7 - j % 8)) = false := by
        simp only [beq_eq_false_iff_ne, ne_eq]
        omega
      rw [hbe, Bool.or_false]
    · rw [getD_set_ne l _ _ _ (fun hc => hj8 hc.symm)]

/-- One iteration of the `store_bits` loop: bit length advances by one, the new
bit lands at position `bl`, everything before is unchanged, the tail stays clean. -/
theorem storeBitsStep_spec (d : List Nat) (bl bit : Nat)
    (hlen : d.length = (bl + 7) / 8) (hbytes : ∀ x ∈ d, x < 256)
    (hclean : trailingClean d bl) :
    (storeBitsStep d bl bit).2 = bl + 1 ∧
    (storeBitsStep d bl bit).1.length = (bl + 1 + 7) / 8 ∧
    (∀ x ∈ (storeBitsStep d bl bit).1, x < 256) ∧
    trailingClean (storeBitsStep d bl bit).1 (bl + 1) ∧
    (∀ j < bl, byteGetBit (storeBitsStep d bl bit).1 j = byteGetBit d j) ∧
    byteGetBit (storeBitsStep d bl bit).1 bl = (bit == 1) := by
  have hunfold : storeBitsStep d bl bit =
      (if bit = 1 then
         (if bl / 8 ≥ d.length then d ++ [0] else d).set (bl / 8)
           ((if bl / 8 ≥ d.length then d ++ [0] else d).getD (bl / 8) 0 |||
             1 <<< (7 - bl % 8))
       else (if bl / 8 ≥ d.length then d ++ [0] else d), bl + 1) := rfl
  rw [hunfold]
  -- the intermediate buffer after the possible push
  have key : ∀ d1 : List Nat, d1.length = (bl + 1 + 7) / 8 → (∀ x ∈ d1, x < 256) →
      (∀ j < bl, byteGetBit d1 j = byteGetBit d j) →
      (∀ j, bl ≤ j → j < d1.length * 8 → byteGetBit d1 j = false) →
      (if bit = 1 then
          d1.set (bl / 8) (d1.getD (bl / 8) 0 ||| 1 <<< (7 - bl % 8))
        else d1).length = (bl + 1 + 7) / 8 ∧
      (∀ x ∈ (if bit = 1 then
          d1.set (bl / 8) (d1.getD (bl / 8) 0 ||| 1 <<< (7 - bl % 8))
        else d1), x < 256) ∧
      trailingClean (if bit = 1 then
          d1.set (bl / 8) (d1.getD (bl / 8) 0 ||| 1 <<< (7 - bl % 8))
        else d1) (bl + 1) ∧
      (∀ j < bl, byteGetBit (if bit = 1 then
          d1.set (bl / 8) (d1.getD (bl / 8) 0 ||| 1 <<< (7 - bl % 8))
        else d1) j = byteGetBit d j) ∧
      byteGetBit (if bit = 1 then
          d1.set (bl / 8) (d1.getD (bl / 8) 0 ||| 1 <<< (7 - bl % 8))
        else d1) bl = (bit == 1) := by
    intro d1 h1len h1bytes h1pre h1post
    have hdiv : bl / 8 < d1.length := by omega
    by_cases hbit : bit = 1
    · obtain ⟨hslen, hsbytes, hsbit, hsother⟩ := setBit_spec d1 bl hdiv h1bytes
      rw [if_pos hbit]
      refine ⟨by rw [hslen]; omega, hsbytes, ?_, ?_, ?_⟩
      · intro j hj hj2
        rw [hsother j (by omega)]
        exact h1post j (by omega) (by rw [hslen] at hj; omega)
      · intro j hj
        rw [hsother j (by omega)]
        exact h1pre j hj
      · rw [hsbit, hbit]
        rfl
    · rw [if_neg hbit]
      refine ⟨h1len, h1bytes, ?_, h1pre, ?_⟩
      · intro j hj hj2
        exact h1post j (by omega) hj
      · rw [h1post bl le_rfl (by omega)]
        have : (bit == 1) = false := by simpa using hbit
        rw [this]
  by_cases hpush : bl / 8 ≥ d.length
  · -- byte-aligned: a fresh zero byte is pushed
    have hmod : bl % 8 = 0 := by omega
    rw [if_pos hpush]
    have h1len : (d ++ [0]).length = (bl + 1 + 7) / 8 := by simp; omega
    have h1bytes : ∀ x ∈ d ++ [0], x < 256 := by
      intro x hx
      rcases List.mem_append.mp hx with h | h
      · exact hbytes x h
      · simp at h; omega
    have h1pre : ∀ j < bl, byteGetBit (d ++ [0]) j = byteGetBit d j := by
      intro j hj
      unfold byteGetBit
      rw [getD_append_lt d 0 _ (by omega)]
    have h1post : ∀ j, bl ≤ j → j < (d ++ [0]).length * 8 → byteGetBit (d ++ [0]) j = false := by
      intro j hj hj2
      simp only [List.length_append, List.length_singleton] at hj2
      unfold byteGetBit
      have hjd : j / 8 = d.length := by omega
      rw [hjd, getD_append_self]
      simp
    exact ⟨rfl, (key (d ++ [0]) h1len h1bytes h1pre h1post).1,
      (key (d ++ [0]) h1len h1bytes h1pre h1post).2.1,
      (key (d ++ [0]) h1len h1bytes h1pre h1post).2.2.1,
      (key (d ++ [0]) h1len h1bytes h1pre h1post).2.2.2.1,
      (key (d ++ [0]) h1len h1bytes h1pre h1post).2.2.2.2⟩
  · -- inside the final partial byte
    have hmod : bl % 8 ≠ 0 := by omega
    rw [if_neg hpush]
    have h1len : d.length = (bl + 1 + 7) / 8 := by omega
    have h1post : ∀ j, bl ≤ j → j < d.length * 8 → byteGetBit d j = false := by
      intro j hj hj2
      exact hclean j hj2 hj
    exact ⟨rfl, (key d h1len hbytes (fun j _ => rfl) h1post).1,
      (key d h1len hbytes (fun j _ => rfl) h1post).2.1,
      (key d h1len hbytes (fun j _ => rfl) h1post).2.2.1,
      (key d h1len hbytes (fun j _ => rfl) h1post).2.2.2.1,
      (key d h1len hbytes (fun j _ => rfl) h1post).2.2.2.2⟩

/-- The full `store_bits` loop: appends the `n` source bits `i, i+1, …` after the
existing `bl` bits, preserving everything already stored. -/
theorem storeBitsCore_spec (src : List Nat) :
    ∀ (n i : Nat) (d : List Nat) (bl : Nat),
      d.length = (bl + 7) / 8 → (∀ x ∈ d, x < 256) → trailingClean d bl →
      (storeBitsCore src i n d bl).2 = bl + n ∧
      (storeBitsCore src i n d bl).1.length = (bl + n + 7) / 8 ∧
      (∀ x ∈ (storeBitsCore src i n d bl).1, x < 256) ∧
      trailingClean (storeBitsCore src i n d bl).1 (bl + n) ∧
      (∀ j < bl, byteGetBit (storeBitsCore src i n d bl).1 j = byteGetBit d j) ∧
      (∀ k < n, byteGetBit (storeBitsCore src i n d bl).1 (bl + k) =
        ((byteAt src ((i + k) / 8) >>> (7 - (i + k) % 8)) &&& 1 == 1)) := by
  intro n
  induction n with
  | zero =>
      intro i d bl hlen hbytes hclean
      exact ⟨rfl, by simpa using hlen, hbytes, by simpa using hclean,
        fun j _ => rfl, fun k hk => absurd hk (by omega)⟩
  | succ n ih =>
      intro i d bl hlen hbytes hclean
      have hcore : storeBitsCore src i (n + 1) d bl =
          storeBitsCore src (i + 1) n
            (storeBitsStep d bl ((byteAt src (i / 8) >>> (7 - i % 8)) &&& 1)).1
            (storeBitsStep d bl ((byteAt src (i / 8) >>> (7 - i % 8)) &&& 1)).2 := rfl
      obtain ⟨hs2, hslen, hsbytes, hsclean, hspre, hsbit⟩ :=
        storeBitsStep_spec d bl ((byteAt src (i / 8) >>> (7 - i % 8)) &&& 1) hlen hbytes hclean
      rw [hcore, hs2]
      obtain ⟨hr2, hrlen, hrbytes, hrclean, hrpre, hrbit⟩ :=
        ih (i + 1) _ (bl + 1) (by rw [hslen]) hsbytes hsclean
      refine ⟨by rw [hr2]; omega, by rw [hrlen]; congr 1; omega, hrbytes,
        ?_, ?_, ?_⟩
      · have : bl + (n + 1) = bl + 1 + n := by omega
        rw [this]
        exact hrclean
      · intro j hj
        rw [hrpre j (by omega)]
        exact hspre j hj
      · intro k hk
        match k with
        | 0 =>
            rw [show bl + 0 = bl by omega, hrpre bl (by omega), hsbit]
            have harg : (x : Nat) → ((x &&& 1) == 1) = (x &&& 1 == 1) := fun x => rfl
            rfl
        | k + 1 =>
            have h1 : bl + (k + 1) = bl + 1 + k := by omega
            have h2 : i + (k + 1) = i + 1 + k := by omega
            rw [h1, h2]
            exact hrbit k (by omega)

/-- The `temp` buffer of `store_uint` holds exactly the low `bits` bits of
`value`, MSB-first, with a clean tail. -/
theorem storeUintTemp_spec (value bits : Nat) :
    (storeUintTemp value bits).length = (bits + 7) / 8 ∧
    (∀ x ∈ storeUintTemp value bits, x < 256) ∧
    (∀ i < bits, byteGetBit (storeUintTemp value bits) i = value.testBit (bits - 1 - i)) ∧
    (∀ i, bits ≤ i → i < (storeUintTemp value bits).length * 8 →
      byteGetBit (storeUintTemp value bits) i = false) := by
  have main : ∀ n ≤ bits,
      ((List.range n).foldl
        (fun temp i =>
          if value &&& (1 <<< (bits - 1 - i)) ≠ 0 then
            temp.set (i / 8) (temp.getD (i / 8) 0 ||| (1 <<< (7 - i % 8)))
          else temp)
        (List.replicate ((bits + 7) / 8) 0)).length = (bits + 7) / 8 ∧
      (∀ x ∈ (List.range n).foldl
        (fun temp i =>
          if value &&& (1 <<< (bits - 1 - i)) ≠ 0 then
            temp.set (i / 8) (temp.getD (i / 8) 0 ||| (1 <<< (7 - i % 8)))
          else temp)
        (List.replicate ((bits + 7) / 8) 0), x < 256) ∧
      (∀ i < n, byteGetBit ((List.range n).foldl
        (fun temp i =>
          if value &&& (1 <<< (bits - 1 - i)) ≠ 0 then
            temp.set (i / 8) (temp.getD (i / 8) 0 ||| (1 <<< (7 - i % 8)))
          else temp)
        (List.replicate ((bits + 7) / 8) 0)) i = value.testBit (bits - 1 - i)) ∧
      (∀ i, n ≤ i → byteGetBit ((List.range n).foldl
        (fun temp i =>
          if value &&& (1 <<< (bits - 1 - i)) ≠ 0 then
            temp.set (i / 8) (temp.getD (i / 8) 0 ||| (1 <<< (7 - i % 8)))
          else temp)
        (List.replicate ((bits + 7) / 8) 0)) i = false) := by
    intro n
    induction n with
    | zero =>
        intro _
        refine ⟨by simp, by simp, fun i hi => absurd hi (by omega), fun i _ => ?_⟩
        rw [List.range_zero, List.foldl_nil]
        unfold byteGetBit
        have : (List.replicate ((bits + 7) / 8) 0).getD (i / 8) 0 = 0 := by
          by_cases h : i / 8 < (bits + 7) / 8
          · rw [List.getD_eq_getElem _ 0 (by simpa using h)]
            simp
          · rw [List.getD_eq_default _ 0 (by simpa using h)]
        rw [this]
        simp
    | succ n ih =>
        intro hn
        obtain ⟨plen, pbytes, pdone, pclean⟩ := ih (by omega)
        rw [List.range_succ, List.foldl_append, List.foldl_cons, List.foldl_nil]
        by_cases hcond : value &&& (1 <<< (bits - 1 - n)) ≠ 0
        · rw [if_pos hcond]
          have hdiv : n / 8 <
              ((List.range n).foldl
                (fun temp i =>
                  if value &&& (1 <<< (bits - 1 - i)) ≠ 0 then
                    temp.set (i / 8) (temp.getD (i / 8) 0 ||| (1 <<< (7 - i % 8)))
                  else temp)
                (List.replicate ((bits + 7) / 8) 0)).length := by
            rw [plen]; omega
          obtain ⟨hslen, hsbytes, hsbit, hsother⟩ := setBit_spec _ n hdiv pbytes
          have hvbit : value.testBit (bits - 1 - n) = true := by
            rw [Nat.one_shiftLeft, Nat.and_two_pow] at hcond
            rcases hb : value.testBit (bits - 1 - n) with _ | _
            · rw [hb] at hcond; simp at hcond
            · rfl
          refine ⟨by rw [hslen, plen], hsbytes, ?_, ?_⟩
          · intro i hi
            by_cases hin : i = n
            · rw [hin, hsbit, hvbit]
            · rw [hsother i hin]
              exact pdone i (by omega)
          · intro i hi
            rw [hsother i (by omega)]
            exact pclean i (by omega)
        · rw [if_neg hcond]
          have hvbit : value.testBit (bits - 1 - n) = false := by
            rw [Nat.one_shiftLeft, Nat.and_two_pow] at hcond
            rcases hb : value.testBit (bits - 1 - n) with _ | _
            · rfl
            · rw [hb] at hcond
              simp at hcond
          refine ⟨plen, pbytes, ?_, ?_⟩
          · intro i hi
            by_cases hin : i = n
            · rw [hin, hvbit]
              exact pclean n le_rfl
            · exact pdone i (by omega)
          · intro i hi
            exact pclean i (by omega)
  obtain ⟨hlen, hbytes, hdone, hclean⟩ := main bits le_rfl
  exact ⟨hlen, hbytes, hdone, fun i hi _ => hclean i hi⟩

/-- `load_bit` on an in-range cursor returns the addressed data bit and advances. -/
theorem loadBit_spec (s : Slice) (hbytes : ∀ x ∈ s.cell.data, x < 256)
    (hpos : s.bitPos < s.cell.bitLen) (hdata : s.cell.bitLen ≤ 8 * s.cell.data.length) :
    s.loadBit = (.ok (byteGetBit s.cell.data s.bitPos),
      Slice.mk s.cell (s.bitPos + 1) s.refPos) := by
  have hunfold : s.loadBit =
      (if s.remainingBits = 0 then (.error .malformedStream, s)
       else if s.bitPos / 8 ≥ s.cell.data.length then (.error .malformedStream, s)
       else (.ok ((byteAt s.cell.data (s.bitPos / 8) >>> (7 - s.bitPos % 8)) &&& 1 == 1),
             Slice.mk s.cell (s.bitPos + 1) s.refPos)) := rfl
  have h0 : ¬ s.remainingBits = 0 := by
    unfold Slice.remainingBits
    omega
  have h1 : ¬ s.bitPos / 8 ≥ s.cell.data.length := by omega
  rw [hunfold, if_neg h0, if_neg h1]
  rw [byteAt_eq_getD _ _ hbytes, shift_and_one_eq_testBit]
  rfl

/-- The packing loop of `load_bits`: reads `n` consecutive cell bits into result
bits `i, i+1, …`, leaving the rest of the accumulator intact. -/
theorem loadBitsGo_spec :
    ∀ (n i : Nat) (s : Slice) (acc : List Nat),
      (∀ x ∈ s.cell.data, x < 256) →
      s.bitPos + n ≤ s.cell.bitLen →
      s.cell.bitLen ≤ 8 * s.cell.data.length →
      (∀ x ∈ acc, x < 256) →
      i + n ≤ 8 * acc.length →
      (∀ k, i ≤ k → k < i + n → byteGetBit acc k = false) →
      ∃ ACC, loadBitsGo i n s acc = (.ok ACC, Slice.mk s.cell (s.bitPos + n) s.refPos) ∧
        ACC.length = acc.length ∧ (∀ x ∈ ACC, x < 256) ∧
        (∀ j, byteGetBit ACC j =
          if i ≤ j ∧ j < i + n then byteGetBit s.cell.data (s.bitPos + (j - i))
          else byteGetBit acc j) := by
  intro n
  induction n with
  | zero =>
      intro i s acc _ _ _ haccb _ _
      refine ⟨acc, rfl, rfl, haccb, ?_⟩
      intro j
      rw [if_neg (by omega)]
  | succ n ih =>
      intro i s acc hbytes hfit hdlen haccb hacclen haccclean
      have hlb := loadBit_spec s hbytes (by omega) hdlen
      have hcore : loadBitsGo i (n + 1) s acc =
          (match s.loadBit with
           | (.ok bit, s2) =>
               loadBitsGo (i + 1) n s2
                 (if bit then acc.set (i / 8) (acc.getD (i / 8) 0 ||| (1 <<< (7 - i % 8)))
                  else acc)
           | (.error e, s2) => (.error e, s2)) := rfl
      rw [hcore, hlb]
      have hacc2 : ∀ acc2 : List Nat, acc2.length = acc.length → (∀ x ∈ acc2, x < 256) →
          byteGetBit acc2 i = byteGetBit s.cell.data s.bitPos →
          (∀ j, j ≠ i → byteGetBit acc2 j = byteGetBit acc j) →
          ∃ ACC, loadBitsGo (i + 1) n (Slice.mk s.cell (s.bitPos + 1) s.refPos) acc2 =
              (.ok ACC, Slice.mk s.cell (s.bitPos + (n + 1)) s.refPos) ∧
            ACC.length = acc.length ∧ (∀ x ∈ ACC, x < 256) ∧
            (∀ j, byteGetBit ACC j =
              if i ≤ j ∧ j < i + (n + 1) then byteGetBit s.cell.data (s.bitPos + (j - i))
              else byteGetBit acc j) := by
        intro acc2 h2len h2bytes h2bit h2other
        obtain ⟨ACC, hgo, hlen2, hb2, hbits2⟩ :=
          ih (i + 1) (Slice.mk s.cell (s.bitPos + 1) s.refPos) acc2 hbytes
            (by simpa using (by omega : s.bitPos + 1 + n ≤ s.cell.bitLen))
            hdlen h2bytes (by rw [h2len]; omega)
            (fun k hk1 hk2 => by
              rw [h2other k (by omega)]
              exact haccclean k (by omega) (by omega))
        refine ⟨ACC, ?_, by rw [hlen2, h2len], hb2, ?_⟩
        · rw [hgo]
          have harith : s.bitPos + 1 + n = s.bitPos + (n + 1) := by omega
          simp only [harith]
        · intro j
          rw [hbits2 j]
          by_cases hji : j = i
          · rw [if_neg (by omega), if_pos (by omega), hji, h2bit]
            congr 1
            omega
          · by_cases hjr : i + 1 ≤ j ∧ j < i + 1 + n
            · rw [if_pos hjr, if_pos (by omega)]
              have : s.bitPos + 1 + (j - (i + 1)) = s.bitPos + (j - i) := by omega
              simp only [this]
            · rw [if_neg hjr, if_neg (by omega), h2other j hji]
      by_cases hbit : byteGetBit s.cell.data s.bitPos
      · rw [hbit]
        dsimp only
        rw [if_pos rfl]
        have hdiv : i / 8 < acc.length := by omega
        obtain ⟨hslen, hsbytes, hsbit, hsother⟩ := setBit_spec acc i hdiv haccb
        exact hacc2 _ hslen hsbytes (by rw [hsbit, hbit]) hsother
      · rw [Bool.not_eq_true] at hbit
        rw [hbit]
        dsimp only
        rw [if_neg (by decide)]
        exact hacc2 acc rfl haccb
          (by rw [hbit]; exact haccclean i le_rfl (by omega))
          (fun j _ => rfl)

/-- **C4.** For `1 ≤ bits ≤ 64` and `value < 2^bits`, storing `value` with
`store_uint(value, bits)` on a fresh builder, building the cell, and reading it
back with `load_uint(bits)` on a fresh slice succeeds and returns `value`. -/
theorem store_load_uint_roundtrip (bits value : Nat) (h1 : 1 ≤ bits) (h2 : bits ≤ 64)
    (hv : value < 2 ^ bits) :
    (CellBuilder.new.storeUint value bits).1 = none ∧
    ∃ cell, (CellBuilder.new.storeUint value bits).2.build = .ok cell ∧
      ((Slice.new cell).loadUint bits).1 = .ok value := by
  obtain ⟨htlen, htbytes, htbits, htclean⟩ := storeUintTemp_spec value bits
  have hsu : CellBuilder.new.storeUint value bits =
      CellBuilder.new.storeBits (storeUintTemp value bits) bits := by
    unfold CellBuilder.storeUint
    rw [if_neg (by omega)]
  have hsb : CellBuilder.new.storeBits (storeUintTemp value bits) bits =
      (none, { CellBuilder.new with
        data := (storeBitsCore (storeUintTemp value bits) 0 bits [] 0).1,
        bitLen := (storeBitsCore (storeUintTemp value bits) 0 bits [] 0).2 }) := by
    unfold CellBuilder.storeBits
    rw [if_neg (show ¬(CellBuilder.new.bitLen + bits > MAX_CELL_BITS) from by
          show ¬((0 : Nat) + bits > 1023); omega),
      if_neg (show ¬((storeUintTemp value bits).length < (bits + 7) / 8) from by
          rw [htlen]; omega)]
    rfl
  obtain ⟨hc2, hclen, hcbytes, hcclean, _, hcbits⟩ :=
    storeBitsCore_spec (storeUintTemp value bits) bits 0 [] 0 (by simp) (by simp)
      (fun j hj _ => by simp at hj)
  set D := (storeBitsCore (storeUintTemp value bits) 0 bits [] 0).1 with hD
  have hc2s : (storeBitsCore (storeUintTemp value bits) 0 bits [] 0).2 = bits := by
    rw [hc2]
    omega
  have hDlen : D.length = (bits + 7) / 8 := by omega
  have hDbit : ∀ k < bits, byteGetBit D k = value.testBit (bits - 1 - k) := by
    intro k hk
    have hthis := hcbits k hk
    simp only [Nat.zero_add] at hthis
    rw [hthis, byteAt_eq_getD _ _ htbytes, shift_and_one_eq_testBit]
    exact htbits k hk
  have hDclean : ∀ j, bits ≤ j → j < 8 * D.length → byteGetBit D j = false :=
    fun j hj hj2 => hcclean j (by omega) (by omega)
  have hDbytes : ∀ x ∈ D, x < 256 := hcbytes
  refine ⟨by rw [hsu, hsb], ?_⟩
  -- building the cell
  have hbuild : (CellBuilder.new.storeUint value bits).2.build = .ok (Cell.mk D bits []) := by
    rw [hsu, hsb]
    unfold CellBuilder.build
    have hwd : Cell.withData D bits = .ok (Cell.mk D bits []) := by
      unfold Cell.withData MAX_CELL_BITS
      rw [if_neg (by omega), if_neg (by omega)]
    simp only [hc2s]
    rw [hwd]
    rfl
  refine ⟨Cell.mk D bits [], hbuild, ?_⟩
  -- reading it back
  have hnew : Slice.new (Cell.mk D bits []) = Slice.mk (Cell.mk D bits []) 0 0 := rfl
  obtain ⟨ACC, hgo, hACClen, hACCbytes, hACCbits⟩ :=
    loadBitsGo_spec bits 0 (Slice.mk (Cell.mk D bits []) 0 0)
      (List.replicate ((bits + 7) / 8) 0)
      (by simpa [Cell.data] using hDbytes)
      (by simp [Cell.bitLen])
      (by simp only [Cell.bitLen, Cell.data]; omega)
      (by simp)
      (by simp; omega)
      (fun k _ _ => by
        unfold byteGetBit
        have hz : (List.replicate ((bits + 7) / 8) 0).getD (k / 8) 0 = 0 := by
          by_cases h : k / 8 < (bits + 7) / 8
          · rw [List.getD_eq_getElem _ 0 (by simpa using h)]
            simp
          · rw [List.getD_eq_default _ 0 (by simpa using h)]
        rw [hz]
        simp)
  have hlb : (Slice.mk (Cell.mk D bits []) 0 0).loadBits bits =
      (.ok ACC, Slice.mk (Cell.mk D bits []) (0 + bits) 0) := by
    unfold Slice.loadBits
    rw [if_neg (by unfold Slice.remainingBits; simp [Cell.bitLen])]
    exact hgo
  have hACClen2 : ACC.length = (bits + 7) / 8 := by simpa using hACClen
  -- the accumulated big-endian value
  have hACCtest : ∀ t, (beVal ACC).testBit t =
      if t < 8 * ACC.length then byteGetBit ACC (8 * ACC.length - 1 - t) else false :=
    testBit_beVal ACC hACCbytes
  have hshift : beVal ACC = value <<< (8 * ACC.length - bits) := by
    apply Nat.eq_of_testBit_eq
    intro t
    rw [hACCtest t, Nat.testBit_shiftLeft]
    by_cases ht : t < 8 * ACC.length
    · rw [if_pos ht]
      have hj := hACCbits (8 * ACC.length - 1 - t)
      by_cases hrange : 8 * ACC.length - 1 - t < bits
      · rw [hj, if_pos (by omega)] at *
        have hd : byteGetBit (Cell.mk D bits []).data (0 + (8 * ACC.length - 1 - t - 0)) =
            byteGetBit D (8 * ACC.length - 1 - t) := by
          simp [Cell.data]
        rw [hd, hDbit _ (by omega)]
        have hge : 8 * ACC.length - bits ≤ t := by omega
        rw [decide_eq_true hge, Bool.true_and]
        congr 1
        omega
      · rw [hj, if_neg (by omega)] at *
        have hz : byteGetBit (List.replicate ((bits + 7) / 8) 0) (8 * ACC.length - 1 - t) =
            false := by
          unfold byteGetBit
          have hz2 : (List.replicate ((bits + 7) / 8) 0).getD ((8 * ACC.length - 1 - t) / 8) 0 = 0 := by
            by_cases h : (8 * ACC.length - 1 - t) / 8 < (bits + 7) / 8
            · rw [List.getD_eq_getElem _ 0 (by simpa using h)]
              simp
            · rw [List.getD_eq_default _ 0 (by simpa using h)]
          rw [hz2]
          simp
        rw [hz]
        by_cases hge : 8 * ACC.length - bits ≤ t
        · rw [decide_eq_true hge, Bool.true_and]
          have : bits ≤ t - (8 * ACC.length - bits) := by omega
          exact (Nat.testBit_lt_two_pow (Nat.lt_of_lt_of_le hv
            (Nat.pow_le_pow_right (by omega) this))).symm
        · rw [decide_eq_false hge]
          simp
    · rw [if_neg ht]
      have hge : 8 * ACC.length - bits ≤ t := by omega
      rw [decide_eq_true hge, Bool.true_and]
      have : bits ≤ t - (8 * ACC.length - bits) := by omega
      exact (Nat.testBit_lt_two_pow (Nat.lt_of_lt_of_le hv
        (Nat.pow_le_pow_right (by omega) this))).symm
  have hlu : ((Slice.new (Cell.mk D bits [])).loadUint bits).1 = .ok value := by
    rw [hnew]
    unfold Slice.loadUint
    rw [if_neg (by omega), if_neg (by omega), hlb]
    have hBA : beAccum ACC 0 = beVal ACC := by
      rw [beAccum_eq ACC hACCbytes 0]
      simp
    simp only [hBA, hshift]
    have hfinal : (value <<< (8 * ACC.length - bits)) >>> (ACC.length * 8 - bits) = value := by
      rw [show ACC.length * 8 = 8 * ACC.length by omega, Nat.shiftLeft_eq,
        Nat.shiftRight_eq_div_pow]
      exact Nat.mul_div_cancel value (Nat.pos_pow_of_pos _ (by omega))
    rw [hfinal]
  exact hlu

theorem store_load_uint_roundtrip_witness :
    (1 ≤ 12 ∧ 12 ≤ 64 ∧ 0xABC < 2 ^ 12) ∧
    ((CellBuilder.new.storeUint 0xABC 12).1 = none ∧
      ∃ cell, (CellBuilder.new.storeUint 0xABC 12).2.build = .ok cell ∧
        ((Slice.new cell).loadUint 12).1 = .ok 0xABC) :=
  ⟨⟨by decide, by decide, by decide⟩,
   store_load_uint_roundtrip 12 0xABC (by decide) (by decide) (by decide)⟩

/-! ### Snake encoding (C8) -/

/-- Two byte buffers of equal length agreeing on every bit are equal. -/
theorem bytes_ext (d1 d2 : List Nat) (hlen : d1.length = d2.length)
    (h1 : ∀ x ∈ d1, x < 256) (h2 : ∀ x ∈ d2, x < 256)
    (hbits : ∀ j < d1.length * 8, byteGetBit d1 j = byteGetBit d2 j) : d1 = d2 := by
  apply List.ext_getElem hlen
  intro i hi1 hi2
  apply Nat.eq_of_testBit_eq
  intro k
  by_cases hk : k < 8
  · have hj := hbits (8 * i + (7 - k)) (by omega)
    unfold byteGetBit at hj
    have hdiv : (8 * i + (7 - k)) / 8 = i := by omega
    have hmod : 7 - (8 * i + (7 - k)) % 8 = k := by omega
    rw [hdiv, hmod, List.getD_eq_getElem d1 0 hi1, List.getD_eq_getElem d2 0 hi2] at hj
    exact hj
  · have hp : (256 : Nat) ≤ 2 ^ k := by
      calc (256 : Nat) = 2 ^ 8 := by norm_num
        _ ≤ 2 ^ k := Nat.pow_le_pow_right (by omega) (by omega)
    rw [Nat.testBit_lt_two_pow (Nat.lt_of_lt_of_le (h1 _ (List.getElem_mem hi1)) hp),
      Nat.testBit_lt_two_pow (Nat.lt_of_lt_of_le (h2 _ (List.getElem_mem hi2)) hp)]

/-- `store_bytes` on a fresh low-level builder stores the bytes verbatim. -/
theorem fresh_storeBytes (bytes : List Nat) (hlen : bytes.length ≤ 127)
    (hbytes : ∀ x ∈ bytes, x < 256) :
    CellBuilder.new.storeBytes bytes = (none, CellBuilder.mk bytes (bytes.length * 8) []) := by
  unfold CellBuilder.storeBytes CellBuilder.storeBits
  rw [if_neg (show ¬(CellBuilder.new.bitLen + bytes.length * 8 > MAX_CELL_BITS) from by
        show ¬((0 : Nat) + bytes.length * 8 > 1023); omega),
    if_neg (show ¬(bytes.length < (bytes.length * 8 + 7) / 8) from by omega)]
  obtain ⟨hc2, hclen, hcbytes, _, _, hcbits⟩ :=
    storeBitsCore_spec bytes (bytes.length * 8) 0 [] 0 (by simp) (by simp)
      (fun j hj _ => by simp at hj)
  have hD : (storeBitsCore bytes 0 (bytes.length * 8) [] 0).1 = bytes := by
    apply bytes_ext _ _ (by rw [hclen]; omega) hcbytes hbytes
    intro j hj
    have hj2 := hcbits j (by rw [hclen] at hj; omega)
    simp only [Nat.zero_add] at hj2
    rw [hj2, byteAt_eq_getD _ _ hbytes, shift_and_one_eq_testBit]
    rfl
  have hfinal : ({ CellBuilder.new with
      data := (storeBitsCore bytes 0 (bytes.length * 8) [] 0).1,
      bitLen := (storeBitsCore bytes 0 (bytes.length * 8) [] 0).2 } : CellBuilder) =
      CellBuilder.mk bytes (bytes.length * 8) [] := by
    rw [show ((0 : Nat) + bytes.length * 8) = bytes.length * 8 from by omega] at hc2
    show CellBuilder.mk _ _ _ = _
    rw [hD, hc2]
    rfl
  rw [← hfinal]
  rfl

/-- Building a byte-exact reference-free builder state succeeds verbatim. -/
theorem build_flat (bytes : List Nat) (hlen : bytes.length ≤ 127) :
    (CellBuilder.mk bytes (bytes.length * 8) []).build =
      .ok (Cell.mk bytes (bytes.length * 8) []) := by
  unfold CellBuilder.build
  have hwd : Cell.withData bytes (bytes.length * 8) = .ok (Cell.mk bytes (bytes.length * 8) []) := by
    unfold Cell.withData MAX_CELL_BITS
    rw [if_neg (by omega), if_neg (by omega)]
  rw [hwd]
  rfl

/-- The snake recursion on a fresh builder: succeeds, and the built chain
concatenates back to the payload; a payload longer than 127 bytes forces at
least one reference. -/
theorem snake_go_spec :
    ∀ (fuel : Nat) (payload : List Nat), payload.length < fuel →
      (∀ x ∈ payload, x < 256) →
      (Builder.storeSnakeBytesGo fuel Builder.new payload).1 = none ∧
      ∃ root, (Builder.storeSnakeBytesGo fuel Builder.new payload).2.build = .ok root ∧
        root.chainBytes = payload ∧
        (127 < payload.length → 0 < root.referenceCount) := by
  intro fuel
  induction fuel with
  | zero => intro payload hf; omega
  | succ fuel ih =>
      intro payload hf hbytes
      have hgoeq : Builder.storeSnakeBytesGo (fuel + 1) Builder.new payload =
          (if payload.isEmpty = true then (none, Builder.new)
           else if payload.length ≤ Builder.new.availableBytes then
             Builder.new.storeBytes payload
           else
             match Builder.new.storeBytes (payload.take Builder.new.availableBytes) with
             | (some e, b2) => (some e, b2)
             | (none, b2) =>
                 match Builder.storeSnakeBytesGo fuel Builder.new
                     (payload.drop Builder.new.availableBytes) with
                 | (some e, _) => (some e, b2)
                 | (none, nb) =>
                     match nb.build with
                     | .error e => (some e, b2)
                     | .ok c => b2.storeRef c) := rfl
      by_cases hemp : payload.isEmpty = true
      · have hpe : payload = [] := by
          cases payload with
          | nil => rfl
          | cons x rest => simp at hemp
        subst hpe
        refine ⟨?_, Cell.mk [] 0 [], ?_, rfl, by decide⟩
        · rw [hgoeq, if_pos hemp]
        · rw [hgoeq, if_pos hemp]
          rfl
      · by_cases hsmall : payload.length ≤ Builder.new.availableBytes
        · have hub : Builder.storeSnakeBytesGo (fuel + 1) Builder.new payload =
              Builder.new.storeBytes payload := by
            rw [hgoeq, if_neg hemp, if_pos hsmall]
          have h127 : payload.length ≤ 127 := hsmall
          have hsb : Builder.new.storeBytes payload =
              (none, ⟨CellBuilder.mk payload (payload.length * 8) []⟩) := by
            unfold Builder.storeBytes
            rw [show Builder.new.inner = CellBuilder.new from rfl,
              fresh_storeBytes payload h127 hbytes]
          rw [hub, hsb]
          refine ⟨rfl, Cell.mk payload (payload.length * 8) [], ?_, ?_, ?_⟩
          · show (CellBuilder.mk payload (payload.length * 8) []).build = _
            exact build_flat payload h127
          · obtain ⟨x, rest, hpl⟩ : ∃ x rest, payload = x :: rest := by
              cases payload with
              | nil => simp at hemp
              | cons x rest => exact ⟨x, rest, rfl⟩
            rw [hpl]
            rfl
          · intro hcon
            omega
        · -- payload longer than the (placeholder) available capacity: chain
          push_neg at hsmall
          have hav : Builder.new.availableBytes = 127 := rfl
          rw [hav] at hsmall
          have htake : (payload.take 127).length = 127 := by
            rw [List.length_take]
            omega
          have htb : ∀ x ∈ payload.take 127, x < 256 :=
            fun x hx => hbytes x (List.mem_of_mem_take hx)
          have hdb : ∀ x ∈ payload.drop 127, x < 256 :=
            fun x hx => hbytes x (List.mem_of_mem_drop hx)
          have hsb : Builder.new.storeBytes (payload.take 127) =
              (none, ⟨CellBuilder.mk (payload.take 127) 1016 []⟩) := by
            unfold Builder.storeBytes
            rw [show Builder.new.inner = CellBuilder.new from rfl,
              fresh_storeBytes (payload.take 127) (by omega) htb]
            rw [htake]
          obtain ⟨hgo1, child, hchildbuild, hchildchain, _⟩ :=
            ih (payload.drop 127) (by rw [List.length_drop]; omega) hdb
          have hub : Builder.storeSnakeBytesGo (fuel + 1) Builder.new payload =
              (⟨CellBuilder.mk (payload.take 127) 1016 []⟩ : Builder).storeRef child := by
            rw [hgoeq, if_neg hemp, if_neg (by rw [hav]; omega), hav, hsb]
            dsimp only
            rcases hgo : Builder.storeSnakeBytesGo fuel Builder.new (payload.drop 127) with ⟨r, nb⟩
            rw [hgo] at hgo1 hchildbuild
            cases r with
            | some e => simp at hgo1
            | none =>
                dsimp only
                rw [show nb.build = (Except.ok child : Except CellError Cell) from hchildbuild]
          have hsr : (⟨CellBuilder.mk (payload.take 127) 1016 []⟩ : Builder).storeRef child =
              (none, ⟨CellBuilder.mk (payload.take 127) 1016 [child]⟩) := by
            unfold Builder.storeRef CellBuilder.storeReference
            rw [if_neg (by show ¬(([] : List Cell).length ≥ MAX_CELL_REFS); simp [MAX_CELL_REFS])]
            rfl
          rw [hub, hsr]
          refine ⟨rfl, Cell.mk (payload.take 127) 1016 [child], ?_, ?_, ?_⟩
          · show (CellBuilder.mk (payload.take 127) 1016 [child]).build = _
            unfold CellBuilder.build
            have hwd : Cell.withData (payload.take 127) 1016 =
                .ok (Cell.mk (payload.take 127) 1016 []) := by
              unfold Cell.withData MAX_CELL_BITS
              rw [if_neg (by omega), if_neg (by rw [htake]; omega)]
            rw [hwd]
            show addRefsFold _ [child] = _
            unfold addRefsFold
            have har : (Cell.mk (payload.take 127) 1016 []).addReference child =
                .ok (Cell.mk (payload.take 127) 1016 [child]) := by
              unfold Cell.addReference MAX_CELL_REFS
              rw [if_neg (by show ¬(([] : List Cell).length ≥ 4); simp)]
              rfl
            rw [har]
            rfl
          · show (payload.take 127) ++ child.chainBytes = payload
            rw [hchildchain, List.take_append_drop]
          · intro _
            show 0 < ([child] : List Cell).length
            simp

/-- **C8 (counterexample).** On a builder that already holds 960 bits, a
200-byte `store_snake_bytes` payload exceeds the remaining capacity, yet the
call fails with CapacityExceeded instead of chaining: the placeholder
`available_bytes() = 127` makes the code try to store 127 bytes into the 63
remaining bits. -/
theorem store_snake_bytes_counterexample :
    ((Builder.mk (CellBuilder.mk (List.replicate 120 0) 960 [])).storeSnakeBytes
        (List.replicate 200 1)).1 = some CellError.capacityExceeded := by decide

/-- **C8 (amended).** On a fresh `Builder`, a payload longer than
`available_bytes() = 127` is snake-encoded successfully: the prefix that fits is
stored in the root cell and the remainder is chained through references, the
root has at least one reference, and concatenating the data buffers along the
chain reproduces the payload exactly.  (On a non-fresh builder the call can
instead fail, because `available_bytes()` is a placeholder that ignores the
builder's real contents.) -/
theorem store_snake_bytes_amended (payload : List Nat)
    (hbytes : ∀ x ∈ payload, x < 256)
    (hlong : Builder.new.availableBytes < payload.length) :
    (Builder.new.storeSnakeBytes payload).1 = none ∧
    ∃ root, (Builder.new.storeSnakeBytes payload).2.build = .ok root ∧
      0 < root.referenceCount ∧ root.chainBytes = payload := by
  obtain ⟨h1, root, hbuild, hchain, href⟩ :=
    snake_go_spec (payload.length + 1) payload (by omega) hbytes
  exact ⟨h1, root, hbuild, href (by simpa using hlong), hchain⟩

theorem store_snake_bytes_amended_witness :
    ((∀ x ∈ List.replicate 128 1, x < 256) ∧
      Builder.new.availableBytes < (List.replicate 128 1).length) ∧
    ((Builder.new.storeSnakeBytes (List.replicate 128 1)).1 = none ∧
      ∃ root, (Builder.new.storeSnakeBytes (List.replicate 128 1)).2.build = .ok root ∧
        0 < root.referenceCount ∧ root.chainBytes = List.replicate 128 1) :=
  ⟨⟨by decide, by decide⟩,
   store_snake_bytes_amended (List.replicate 128 1) (by decide) (by decide)⟩

/-! ### Byte-stream lemmas for the BoC codec (C1/C7) -/

theorem getD_append_left (l1 l2 : List Nat) (i : Nat) (h : i < l1.length) :
    (l1 ++ l2).getD i 0 = l1.getD i 0 := by
  rw [List.getD_eq_getElem _ 0 (by simp; omega), List.getD_eq_getElem _ 0 h]
  exact List.getElem_append_left h

theorem getD_append_right (l1 l2 : List Nat) (i : Nat) :
    (l1 ++ l2).getD (l1.length + i) 0 = l2.getD i 0 := by
  by_cases h : i < l2.length
  · rw [List.getD_eq_getElem _ 0 (by simp; omega), List.getD_eq_getElem _ 0 h]
    rw [List.getElem_append_right (by omega)]
    congr 1
    omega
  · rw [List.getD_eq_default _ 0 (by simp; omega), List.getD_eq_default _ 0 (by omega)]

theorem natToBytesBE_length (size v : Nat) : (natToBytesBE size v).length = size := by
  simp [natToBytesBE]

theorem natToBytesBE_lt (size v : Nat) : ∀ x ∈ natToBytesBE size v, x < 256 := by
  intro x hx
  simp only [natToBytesBE, List.mem_map] at hx
  obtain ⟨i, _, hxi⟩ := hx
  omega

theorem natToBytesLE_length (size v : Nat) : (natToBytesLE size v).length = size := by
  simp [natToBytesLE]

theorem natToBytesLE_lt (size v : Nat) : ∀ x ∈ natToBytesLE size v, x < 256 := by
  intro x hx
  simp only [natToBytesLE, List.mem_map] at hx
  obtain ⟨i, _, hxi⟩ := hx
  omega

theorem natToBytesBE_succ (size v : Nat) :
    natToBytesBE (size + 1) v = (v >>> (8 * size)) % 256 :: natToBytesBE size v := by
  unfold natToBytesBE
  rw [List.range_succ_eq_map, List.map_cons, List.map_map]
  refine congrArg₂ List.cons ?_ ?_
  · norm_num
  · apply List.map_congr_left
    intro i hi
    have : i < size := List.mem_range.mp hi
    simp only [Function.comp_apply]
    congr 2
    omega

theorem beVal_natToBytesBE (size v : Nat) :
    beVal (natToBytesBE size v) = v % 256 ^ size := by
  induction size generalizing v with
  | zero => simp [natToBytesBE, beVal, Nat.mod_one]
  | succ size ih =>
      rw [natToBytesBE_succ, beVal_cons, natToBytesBE_length, ih]
      have h1 : (256 : Nat) ^ (size + 1) = 256 ^ size * 256 := by ring
      have h2 : (2 : Nat) ^ (8 * size) = 256 ^ size := by
        rw [show (256 : Nat) = 2 ^ 8 by norm_num, ← Nat.pow_mul]
      have h3 : v >>> (8 * size) = v / 256 ^ size := by
        rw [Nat.shiftRight_eq_div_pow, h2]
      rw [h1, h3, h2, Nat.mod_mul]
      ring

/-- The big-endian accumulation loop of `read_uint` equals the decimal fold when
all bytes are in range. -/
theorem foldl_shift_or_eq (l : List Nat) (hl : ∀ x ∈ l, x < 256) :
    ∀ a : Nat, l.foldl (fun r b => (r <<< 8) ||| b) a = l.foldl (fun r b => r * 256 + b) a := by
  induction l with
  | nil => intro a; rfl
  | cons b rest ih =>
      intro a
      have hb : b < 256 := hl b (by simp)
      have hstep : (a <<< 8) ||| b = a * 256 + b := by
        have hb8 : b < 2 ^ 8 := by omega
        rw [Nat.shiftLeft_eq, Nat.mul_comm a (2 ^ 8), ← Nat.mul_add_lt_is_or hb8 a]
      simp only [List.foldl_cons, hstep]
      exact ih (fun x hx => hl x (by simp [hx])) _

/-- `read_uint` recovers a value written big-endian with `write_uint`. -/
theorem readUint_spec (pre mid post : List Nat) (size v : Nat)
    (hmid : mid = natToBytesBE size v) (hv : v < 256 ^ size) :
    readUint (pre ++ mid ++ post) pre.length size = .ok (v, pre.length + size) := by
  subst hmid
  unfold readUint
  rw [if_neg (by simp only [List.length_append, natToBytesBE_length]; omega)]
  congr 2
  have hread : ∀ i < size,
      byteAt (pre ++ natToBytesBE size v ++ post) (pre.length + i) =
        (natToBytesBE size v).getD i 0 := by
    intro i hi
    unfold byteAt
    rw [List.append_assoc, getD_append_right, getD_append_left _ _ _ (by
      rw [natToBytesBE_length]; omega)]
    exact Nat.mod_eq_of_lt (getD_lt_of_all_lt _ _ (natToBytesBE_lt size v))
  have hfold : (List.range size).foldl
      (fun r i => (r <<< 8) ||| byteAt (pre ++ natToBytesBE size v ++ post) (pre.length + i)) 0 =
      (List.range size).foldl (fun r i => (r <<< 8) ||| (natToBytesBE size v).getD i 0) 0 := by
    apply List.foldl_ext
    intro r i hi
    rw [hread i (List.mem_range.mp hi)]
  rw [hfold]
  have hmap : (List.range size).foldl (fun r i => (r <<< 8) ||| (natToBytesBE size v).getD i 0) 0 =
      ((List.range size).map (fun i => (natToBytesBE size v).getD i 0)).foldl
        (fun r b => (r <<< 8) ||| b) 0 := by
    rw [List.foldl_map]
  have hlist : (List.range size).map (fun i => (natToBytesBE size v).getD i 0) =
      natToBytesBE size v := by
    apply List.ext_getElem (by simp [natToBytesBE_length])
    intro i hi1 hi2
    simp only [List.getElem_map, List.getElem_range]
    rw [List.getD_eq_getElem _ 0 hi2]
  rw [hmap, hlist, foldl_shift_or_eq _ (natToBytesBE_lt size v)]
  show beVal (natToBytesBE size v) = v
  rw [beVal_natToBytesBE]
  exact Nat.mod_eq_of_lt hv

/-! ### `bytes_needed` and the size descriptors (C1/C7) -/

theorem countP_range_decide_lt (s : Nat) :
    ∀ n, (List.range n).countP (fun i => decide (i < s)) = min s n := by
  intro n
  induction n with
  | zero => simp
  | succ n ih =>
      rw [List.range_succ, List.countP_append, ih]
      have hone : List.countP (fun i => decide (i < s)) [n] = if n < s then 1 else 0 := by
        by_cases h : n < s <;> simp [List.countP_cons, h]
      rw [hone]
      by_cases h : n < s
      · rw [if_pos h]; omega
      · rw [if_neg h]; omega

theorem bitWidth64_eq_size (v : Nat) (hv : v < 2 ^ 64) : bitWidth64 v = Nat.size v := by
  unfold bitWidth64
  have hp : (fun i => v >>> i != 0) = (fun i => decide (i < Nat.size v)) := by
    funext i
    rw [Nat.shiftRight_eq_div_pow]
    rcases Nat.lt_or_ge i (Nat.size v) with h | h
    · have h2 : 2 ^ i ≤ v := Nat.lt_size.mp h
      have h3 : 0 < v / 2 ^ i := Nat.div_pos h2 (Nat.pos_pow_of_pos i (by omega))
      simp only [decide_eq_true h]
      simp only [bne_iff_ne, ne_eq]
      omega
    · have h2 : v < 2 ^ i := Nat.size_le.mp (by omega)
      have h3 : v / 2 ^ i = 0 := Nat.div_eq_of_lt h2
      simp only [h3, decide_eq_false (by omega : ¬ i < Nat.size v)]
      simp
  rw [hp, countP_range_decide_lt]
  have hs : Nat.size v ≤ 64 := Nat.size_le.mpr hv
  omega

theorem lt_pow_bytesNeeded (v : Nat) (hv : v < 2 ^ 64) : v < 256 ^ bytesNeeded v := by
  unfold bytesNeeded
  split
  · omega
  · rw [bitWidth64_eq_size v hv]
    have h1 : v < 2 ^ Nat.size v := Nat.lt_size_self v
    have h2 : (2 : Nat) ^ Nat.size v ≤ 2 ^ (8 * ((Nat.size v + 7) / 8)) :=
      Nat.pow_le_pow_right (by omega) (by omega)
    have h3 : (256 : Nat) ^ ((Nat.size v + 7) / 8) = 2 ^ (8 * ((Nat.size v + 7) / 8)) := by
      rw [show (256 : Nat) = 2 ^ 8 by norm_num, ← Nat.pow_mul]
    omega

theorem bytesNeeded_pos (v : Nat) : 1 ≤ bytesNeeded v := by
  unfold bytesNeeded
  split
  · omega
  · rename_i h
    have h1 : 0 < bitWidth64 v := by
      unfold bitWidth64
      rw [List.countP_pos_iff]
      exact ⟨0, by simp, by simpa using h⟩
    omega

theorem bytesNeeded_le8 (v : Nat) : bytesNeeded v ≤ 8 := by
  unfold bytesNeeded
  split
  · omega
  · have h1 : bitWidth64 v ≤ 64 := by
      have h3 : (List.range 64).countP (fun i => v >>> i != 0) ≤ (List.range 64).length := by
        rw [List.countP_eq_length_filter]
        exact List.length_filter_le _ _
      simpa using h3
    omega

theorem bytesNeeded_le2 (v : Nat) (hv : v ≤ 256) : bytesNeeded v ≤ 2 := by
  unfold bytesNeeded
  split
  · omega
  · rw [bitWidth64_eq_size v (by omega)]
    have hs : Nat.size v ≤ 9 := Nat.size_le.mpr (by omega)
    omega

/-! ### CRC-32 range (C1/C7) -/

theorem crc32StepBit_lt (c : Nat) (hc : c < 2 ^ 32) : crc32StepBit c < 2 ^ 32 := by
  unfold crc32StepBit
  have h1 : c >>> 1 < 2 ^ 32 := by
    rw [Nat.shiftRight_eq_div_pow]
    omega
  split
  · exact Nat.xor_lt_two_pow h1 (by norm_num [crc32Poly])
  · exact h1

theorem crc32UpdateByte_lt (crc b : Nat) (hc : crc < 2 ^ 32) :
    crc32UpdateByte crc b < 2 ^ 32 := by
  unfold crc32UpdateByte
  have h0 : crc ^^^ (b % 256) < 2 ^ 32 := Nat.xor_lt_two_pow hc (by omega)
  have hfold : ∀ (l : List Nat) (a : Nat), a < 2 ^ 32 →
      l.foldl (fun c _ => crc32StepBit c) a < 2 ^ 32 := by
    intro l
    induction l with
    | nil => intro a ha; exact ha
    | cons x rest ih => intro a ha; exact ih _ (crc32StepBit_lt a ha)
  exact hfold _ _ h0

theorem crc32_lt (data : List Nat) : crc32 data < 2 ^ 32 := by
  unfold crc32
  have hfold : ∀ (l : List Nat) (a : Nat), a < 2 ^ 32 →
      l.foldl crc32UpdateByte a < 2 ^ 32 := by
    intro l
    induction l with
    | nil => intro a ha; exact ha
    | cons x rest ih => intro a ha; exact ih _ (crc32UpdateByte_lt a x ha)
  exact Nat.xor_lt_two_pow (hfold data 0xFFFFFFFF (by norm_num)) (by norm_num)

/-- The little-endian CRC trailer written by `serialize_boc` re-reads to the CRC
value under the byte-accumulation formula of `deserialize_boc_generic`. -/
theorem natToBytesLE4_readback (v : Nat) (hv : v < 2 ^ 32) :
    (natToBytesLE 4 v).getD 0 0 + (natToBytesLE 4 v).getD 1 0 * 256 +
      (natToBytesLE 4 v).getD 2 0 * 65536 + (natToBytesLE 4 v).getD 3 0 * 16777216 = v := by
  have he : natToBytesLE 4 v =
      [v % 256, (v >>> 8) % 256, (v >>> 16) % 256, (v >>> 24) % 256] := by
    simp [natToBytesLE, List.range_succ]
  rw [he]
  simp only [List.getD_cons_zero, List.getD_cons_succ]
  rw [Nat.shiftRight_eq_div_pow, Nat.shiftRight_eq_div_pow, Nat.shiftRight_eq_div_pow]
  norm_num
  omega

/-- Base-256 digits below 256 are uniquely determined by the accumulated value:
if any digit differs, the value differs. -/
theorem le4_digits_inj (a0 a1 a2 a3 b0 b1 b2 b3 : Nat)
    (ha : a0 < 256 ∧ a1 < 256 ∧ a2 < 256 ∧ a3 < 256)
    (hb : b0 < 256 ∧ b1 < 256 ∧ b2 < 256 ∧ b3 < 256)
    (hne : a0 ≠ b0 ∨ a1 ≠ b1 ∨ a2 ≠ b2 ∨ a3 ≠ b3) :
    a0 + a1 * 256 + a2 * 65536 + a3 * 16777216 ≠
      b0 + b1 * 256 + b2 * 65536 + b3 * 16777216 := by
  omega

/-! ### The reparse core: `serialize_data` → `parse_cells` bit-length recovery -/

theorem serializeData_length (d : List Nat) (b : Nat) (rs : List Cell) :
    (Cell.mk d b rs).serializeData.length = d.length := by
  simp only [Cell.serializeData, Cell.data, Cell.bitLen]
  split
  · split
    · simp
    · rfl
  · rfl

theorem serializeData_all_lt (d : List Nat) (b : Nat) (rs : List Cell)
    (hlen : d.length = (b + 7) / 8) (hbytes : ∀ x ∈ d, x < 256) :
    ∀ x ∈ (Cell.mk d b rs).serializeData, x < 256 := by
  by_cases hb8 : b % 8 = 0
  · rw [serializeData_even d b rs hb8]
    exact hbytes
  · rw [serializeData_odd d b rs hb8 hlen]
    intro x hx
    rcases List.mem_or_eq_of_mem_set hx with h | h
    · exact hbytes x h
    · subst h
      have hp : (2 : Nat) ^ (7 - b % 8) < 256 := by
        have h7 : (2 : Nat) ^ (7 - b % 8) ≤ 2 ^ 7 := Nat.pow_le_pow_right (by omega) (by omega)
        omega
      exact lor_lt_256 _ _ (getD_lt_of_all_lt d _ hbytes) hp

theorem d2Of_mk (d : List Nat) (b : Nat) (rs : List Cell) :
    d2Of (Cell.mk d b rs) = b / 8 + (b + 7) / 8 := rfl

/-- `(d2 + 1) / 2` recovers `ceil(bit_len / 8)` from the second descriptor. -/
theorem dataSize_of_d2 (b : Nat) : (b / 8 + (b + 7) / 8 + 1) / 2 = (b + 7) / 8 := by omega

/-- Core of the record round trip: parsing the serialized data of a byte-exact
cell recovers a bit length `bl` with the same `d2` descriptor, the same data
length, and an idempotent serialized form (for a cell with dirty padding bits
the recovered `bl` may exceed `b`, but all serialization-relevant quantities are
preserved). -/
theorem reparse_core (d : List Nat) (b : Nat) (rs : List Cell)
    (hlen : d.length = (b + 7) / 8) (hb : b ≤ MAX_CELL_BITS)
    (hbytes : ∀ x ∈ d, x < 256) :
    ∀ sd bl, sd = (Cell.mk d b rs).serializeData →
      bl = parseBitLen sd (d2Of (Cell.mk d b rs)) ((b + 7) / 8) →
      bl ≤ MAX_CELL_BITS ∧ (bl + 7) / 8 = (b + 7) / 8 ∧
        bl / 8 + (bl + 7) / 8 = d2Of (Cell.mk d b rs) ∧
        (∀ rs2, (Cell.mk sd bl rs2).serializeData = sd) ∧
        sd.length = d.length ∧ (∀ x ∈ sd, x < 256) := by
  intro sd bl hsd hbl
  have hsdlen : sd.length = d.length := by rw [hsd]; exact serializeData_length d b rs
  have hsdlt : ∀ x ∈ sd, x < 256 := by rw [hsd]; exact serializeData_all_lt d b rs hlen hbytes
  rw [d2Of_mk] at hbl ⊢
  by_cases hb8 : b % 8 = 0
  · -- byte-aligned: the parser recovers exactly b
    have hsd' : sd = d := by rw [hsd]; exact serializeData_even d b rs hb8
    have hbl' : bl = b := by
      rw [hbl]
      unfold parseBitLen
      by_cases hb0 : b = 0
      · subst hb0
        norm_num
      · rw [if_pos ⟨by omega, by omega⟩, if_pos (by omega)]
        omega
    refine ⟨by omega, by omega, by omega, ?_, hsdlen, hsdlt⟩
    intro rs2
    rw [hsd', hbl']
    exact serializeData_even d b rs2 hb8
  · -- non-aligned: the parser scans for the completion marker
    have hblt : b / 8 < d.length := by omega
    have hx : sd = d.set (b / 8) (d.getD (b / 8) 0 ||| 2 ^ (7 - b % 8)) := by
      rw [hsd]; exact serializeData_odd d b rs hb8 hlen
    have hxval : sd.getD (b / 8) 0 = d.getD (b / 8) 0 ||| 2 ^ (7 - b % 8) := by
      rw [hx]; exact getD_set_self d _ _ hblt
    have hmarker : (sd.getD (b / 8) 0).testBit (7 - b % 8) = true := by
      rw [hxval, testBit_lor_two_pow]
      simp
    obtain ⟨mi, hmibit, hmimin, hmile⟩ :
        ∃ mi, (sd.getD (b / 8) 0).testBit mi = true ∧
          (∀ i < mi, (sd.getD (b / 8) 0).testBit i = false) ∧ mi ≤ 7 - b % 8 := by
      have hex : ∃ i, (sd.getD (b / 8) 0).testBit i = true := ⟨7 - b % 8, hmarker⟩
      refine ⟨Nat.find hex, Nat.find_spec hex, ?_, Nat.find_min' hex hmarker⟩
      intro i hi
      have := Nat.find_min hex hi
      simpa using this
    have hlast : sd.length - 1 = b / 8 := by omega
    have hbyte : byteAt sd (sd.length - 1) = sd.getD (b / 8) 0 := by
      unfold byteAt
      rw [hlast]
      exact Nat.mod_eq_of_lt (getD_lt_of_all_lt sd _ hsdlt)
    have hscan : bitsInLastByteScan (byteAt sd (sd.length - 1)) = 8 - mi := by
      rw [hbyte]
      exact bitsInLastByteScan_eq _ mi (by omega) hmibit hmimin
    have hbl' : bl = (b / 8) * 8 + 7 - mi := by
      rw [hbl]
      unfold parseBitLen
      rw [if_pos ⟨by omega, by omega⟩, if_neg (by omega)]
      rw [hsdlen, hlen] at hscan ⊢
      rw [hscan, if_pos (by omega)]
      omega
    have hmod : bl % 8 = 7 - mi := by omega
    have hdiv : bl / 8 = b / 8 := by omega
    have hbl8 : bl % 8 ≠ 0 := by omega
    have hM : MAX_CELL_BITS = 1023 := rfl
    refine ⟨by omega, by omega, by omega, ?_, hsdlen, hsdlt⟩
    intro rs2
    rw [serializeData_odd sd bl rs2 hbl8 (by omega)]
    rw [hdiv, hmod, show 7 - (7 - mi) = mi by omega]
    rw [hxval, lor_two_pow_of_testBit _ _ (by rw [← hxval]; exact hmibit), ← hxval]
    exact set_getD_self sd _ (by omega)

/-! ### Hash congruence under component equality -/

theorem depthBytesOfRefs_congr : ∀ (rs rs' : List Cell), rs'.length = rs.length →
    (∀ i, i < rs.length → (rs'.getD i Cell.new).depth = (rs.getD i Cell.new).depth) →
    Cell.depthBytesOfRefs rs' = Cell.depthBytesOfRefs rs
  | [], [], _, _ => rfl
  | [], _ :: _, h, _ => by simp at h
  | _ :: _, [], h, _ => by simp at h
  | r :: rest, r' :: rest', h, hp => by
      rw [Cell.depthBytesOfRefs, Cell.depthBytesOfRefs]
      have h0 := hp 0 (by simp)
      simp only [List.getD_cons_zero] at h0
      rw [h0, depthBytesOfRefs_congr rest rest' (by simpa using h)
        (fun i hi => by simpa using hp (i + 1) (by simpa using hi))]

theorem hashesOfRefs_congr : ∀ (rs rs' : List Cell), rs'.length = rs.length →
    (∀ i, i < rs.length → (rs'.getD i Cell.new).hash = (rs.getD i Cell.new).hash) →
    Cell.hashesOfRefs rs' = Cell.hashesOfRefs rs
  | [], [], _, _ => rfl
  | [], _ :: _, h, _ => by simp at h
  | _ :: _, [], h, _ => by simp at h
  | r :: rest, r' :: rest', h, hp => by
      rw [Cell.hashesOfRefs, Cell.hashesOfRefs]
      have h0 := hp 0 (by simp)
      simp only [List.getD_cons_zero] at h0
      rw [h0, hashesOfRefs_congr rest rest' (by simpa using h)
        (fun i hi => by simpa using hp (i + 1) (by simpa using hi))]

theorem depthRefsMax_congr : ∀ (rs rs' : List Cell), rs'.length = rs.length →
    (∀ i, i < rs.length → (rs'.getD i Cell.new).depth = (rs.getD i Cell.new).depth) →
    Cell.depthRefsMax rs' = Cell.depthRefsMax rs
  | [], [], _, _ => rfl
  | [], _ :: _, h, _ => by simp at h
  | _ :: _, [], h, _ => by simp at h
  | r :: rest, r' :: rest', h, hp => by
      rw [Cell.depthRefsMax, Cell.depthRefsMax]
      have h0 := hp 0 (by simp)
      simp only [List.getD_cons_zero] at h0
      rw [h0, depthRefsMax_congr rest rest' (by simpa using h)
        (fun i hi => by simpa using hp (i + 1) (by simpa using hi))]

theorem depth_congr (d' : List Nat) (b' : Nat) (rs' : List Cell)
    (d : List Nat) (b : Nat) (rs : List Cell)
    (h : rs'.length = rs.length)
    (hp : ∀ i, i < rs.length → (rs'.getD i Cell.new).depth = (rs.getD i Cell.new).depth) :
    (Cell.mk d' b' rs').depth = (Cell.mk d b rs).depth := by
  cases rs with
  | nil =>
      cases rs' with
      | nil => rfl
      | cons x xs => simp at h
  | cons r rest =>
      cases rs' with
      | nil => simp at h
      | cons r2 rest2 =>
          show Cell.depthRefsMax (r2 :: rest2) + 1 = Cell.depthRefsMax (r :: rest) + 1
          rw [depthRefsMax_congr (r :: rest) (r2 :: rest2) h hp]

theorem hash_congr (d' : List Nat) (b' : Nat) (rs' : List Cell)
    (d : List Nat) (b : Nat) (rs : List Cell)
    (hlen : rs'.length = rs.length)
    (hd2 : b' / 8 + (b' + 7) / 8 = b / 8 + (b + 7) / 8)
    (hsd : (Cell.mk d' b' rs').serializeData = (Cell.mk d b rs).serializeData)
    (hdb : Cell.depthBytesOfRefs rs' = Cell.depthBytesOfRefs rs)
    (hh : Cell.hashesOfRefs rs' = Cell.hashesOfRefs rs) :
    (Cell.mk d' b' rs').hash = (Cell.mk d b rs).hash := by
  rw [Cell.hash, Cell.hash, hsd, hdb, hh]
  have hdesc : (Cell.mk d' b' rs').descriptors = (Cell.mk d b rs).descriptors := by
    simp [Cell.descriptors, Cell.refs, Cell.bitLen, hlen, hd2]
  rw [hdesc]

/-! ### Structural size: a cell is never its own strict subcell -/

mutual

theorem count_le_of_mem_allSubcells : ∀ (x c : Cell), x ∈ c.allSubcells → x.count ≤ c.count
  | x, .mk d b rs, hx => by
      rw [Cell.allSubcells] at hx
      rcases List.mem_cons.mp hx with h | h
      · rw [h]
      · have h2 := count_le_of_mem_allSubcellsList x rs h
        have h3 : (Cell.mk d b rs).count = 1 + Cell.countList rs := rfl
        omega

theorem count_le_of_mem_allSubcellsList : ∀ (x : Cell) (rs : List Cell),
    x ∈ Cell.allSubcellsList rs → x.count ≤ Cell.countList rs
  | x, [], hx => absurd hx (by rw [Cell.allSubcellsList]; simp)
  | x, c :: cs, hx => by
      rw [Cell.allSubcellsList] at hx
      have h3 : Cell.countList (c :: cs) = Cell.count c + Cell.countList cs := rfl
      rcases List.mem_append.mp hx with h | h
      · have h2 := count_le_of_mem_allSubcells x c h
        omega
      · have h2 := count_le_of_mem_allSubcellsList x cs h
        omega

end

theorem not_mem_own_refs_subcells (d : List Nat) (b : Nat) (rs : List Cell) :
    Cell.mk d b rs ∉ Cell.allSubcellsList rs := by
  intro h
  have h1 := count_le_of_mem_allSubcellsList (Cell.mk d b rs) rs h
  have h2 : (Cell.mk d b rs).count = 1 + Cell.countList rs := rfl
  omega

/-! ### Subcell membership -/

theorem self_mem_allSubcells (c : Cell) : c ∈ c.allSubcells := by
  obtain ⟨d, b, rs⟩ := c
  rw [Cell.allSubcells]
  exact List.mem_cons_self _ _

theorem allSubcells_sub_of_mem : ∀ (rs : List Cell) (r : Cell), r ∈ rs →
    ∀ y ∈ r.allSubcells, y ∈ Cell.allSubcellsList rs
  | [], r, hr, _, _ => absurd hr (by simp)
  | c :: cs, r, hr, y, hy => by
      rw [Cell.allSubcellsList]
      rcases List.mem_cons.mp hr with h | h
      · rw [← h]
        exact List.mem_append_left _ hy
      · exact List.mem_append_right _ (allSubcells_sub_of_mem cs r h y hy)

mutual

theorem allSubcells_trans : ∀ (root x : Cell), x ∈ root.allSubcells →
    ∀ y ∈ x.allSubcells, y ∈ root.allSubcells
  | .mk d b rs, x, hx, y, hy => by
      rw [Cell.allSubcells] at hx ⊢
      rcases List.mem_cons.mp hx with h | h
      · rw [h] at hy
        rw [Cell.allSubcells] at hy
        exact hy
      · exact List.mem_cons.mpr (Or.inr (allSubcellsList_trans rs x h y hy))

theorem allSubcellsList_trans : ∀ (rs : List Cell) (x : Cell), x ∈ Cell.allSubcellsList rs →
    ∀ y ∈ x.allSubcells, y ∈ Cell.allSubcellsList rs
  | [], x, hx, _, _ => absurd hx (by rw [Cell.allSubcellsList]; simp)
  | c :: cs, x, hx, y, hy => by
      rw [Cell.allSubcellsList] at hx ⊢
      rcases List.mem_append.mp hx with h | h
      · exact List.mem_append_left _ (allSubcells_trans c x h y hy)
      · exact List.mem_append_right _ (allSubcellsList_trans cs x h y hy)

end

theorem refs_mem_allSubcells (d : List Nat) (b : Nat) (rs : List Cell) (r : Cell)
    (hr : r ∈ rs) : r ∈ (Cell.mk d b rs).allSubcells := by
  rw [Cell.allSubcells]
  exact List.mem_cons.mpr (Or.inr (allSubcells_sub_of_mem rs r hr r (self_mem_allSubcells r)))

mutual

theorem wfB_of_mem_allSubcells : ∀ (c x : Cell), c.wfB = true → x ∈ c.allSubcells →
    x.wfB = true
  | .mk d b rs, x, hwf, hx => by
      rw [Cell.allSubcells] at hx
      rcases List.mem_cons.mp hx with h | h
      · rw [h]
        exact hwf
      · have hlist : Cell.wfListB rs = true := by
          rw [Cell.wfB] at hwf
          simp only [Bool.and_eq_true] at hwf
          exact hwf.2
        exact wfB_of_mem_allSubcellsList rs x hlist h

theorem wfB_of_mem_allSubcellsList : ∀ (rs : List Cell) (x : Cell), Cell.wfListB rs = true →
    x ∈ Cell.allSubcellsList rs → x.wfB = true
  | [], x, _, hx => absurd hx (by rw [Cell.allSubcellsList]; simp)
  | c :: cs, x, hwf, hx => by
      rw [Cell.allSubcellsList] at hx
      rw [Cell.wfListB] at hwf
      simp only [Bool.and_eq_true] at hwf
      rcases List.mem_append.mp hx with h | h
      · exact wfB_of_mem_allSubcells c x hwf.1 h
      · exact wfB_of_mem_allSubcellsList cs x hwf.2 h

end

/-- The components of well-formedness, unpacked. -/
theorem wfB_parts (d : List Nat) (b : Nat) (rs : List Cell)
    (hwf : (Cell.mk d b rs).wfB = true) :
    d.length = (b + 7) / 8 ∧ b ≤ MAX_CELL_BITS ∧ rs.length ≤ MAX_CELL_REFS ∧
      (∀ x ∈ d, x < 256) ∧ Cell.wfListB rs = true := by
  rw [Cell.wfB] at hwf
  simp only [Bool.and_eq_true, decide_eq_true_eq, List.all_eq_true] at hwf
  exact ⟨hwf.1.1.1.1, hwf.1.1.1.2, hwf.1.1.2, fun x hx => by simpa using hwf.1.2 x hx, hwf.2⟩

/-! ### `collect_cells_recursive`: order, membership and hash distinctness -/

mutual

theorem collectCell_ext : ∀ (c : Cell) (acc : List Cell), ∃ t, collectCell c acc = acc ++ t
  | .mk d b rs, acc => by
      rw [collectCell]
      split
      · exact ⟨[], by simp⟩
      · obtain ⟨t, ht⟩ := collectRefs_ext rs acc
        exact ⟨t ++ [Cell.mk d b rs], by rw [ht, List.append_assoc]⟩

theorem collectRefs_ext : ∀ (rs : List Cell) (acc : List Cell),
    ∃ t, collectRefs rs acc = acc ++ t
  | [], acc => ⟨[], by rw [collectRefs]; simp⟩
  | r :: rest, acc => by
      rw [collectRefs]
      obtain ⟨t1, h1⟩ := collectCell_ext r acc
      obtain ⟨t2, h2⟩ := collectRefs_ext rest (collectCell r acc)
      exact ⟨t1 ++ t2, by rw [h2, h1, List.append_assoc]⟩

end

mutual

theorem collectCell_mem : ∀ (c : Cell) (acc : List Cell) (x : Cell),
    x ∈ collectCell c acc → x ∈ acc ∨ x ∈ c.allSubcells
  | .mk d b rs, acc, x, hx => by
      rw [collectCell] at hx
      rw [Cell.allSubcells]
      split at hx
      · exact Or.inl hx
      · rcases List.mem_append.mp hx with h | h
        · rcases collectRefs_mem rs acc x h with h2 | h2
          · exact Or.inl h2
          · exact Or.inr (List.mem_cons.mpr (Or.inr h2))
        · exact Or.inr (List.mem_cons.mpr (Or.inl (by simpa using h)))

theorem collectRefs_mem : ∀ (rs : List Cell) (acc : List Cell) (x : Cell),
    x ∈ collectRefs rs acc → x ∈ acc ∨ x ∈ Cell.allSubcellsList rs
  | [], acc, x, hx => by rw [collectRefs] at hx; exact Or.inl hx
  | r :: rest, acc, x, hx => by
      rw [collectRefs] at hx
      rw [Cell.allSubcellsList]
      rcases collectRefs_mem rest (collectCell r acc) x hx with h | h
      · rcases collectCell_mem r acc x h with h2 | h2
        · exact Or.inl h2
        · exact Or.inr (List.mem_append_left _ h2)
      · exact Or.inr (List.mem_append_right _ h)

end

theorem collectRefs_hash_mono (rs : List Cell) (acc : List Cell) (h : List Nat)
    (hm : h ∈ acc.map Cell.hash) : h ∈ (collectRefs rs acc).map Cell.hash := by
  obtain ⟨t, ht⟩ := collectRefs_ext rs acc
  rw [ht, List.map_append]
  exact List.mem_append_left _ hm

mutual

theorem collectCell_hash_mem : ∀ (c : Cell) (acc : List Cell),
    c.hash ∈ (collectCell c acc).map Cell.hash
  | .mk d b rs, acc => by
      rw [collectCell]
      split
      · rename_i hany
        simp only [List.any_eq_true] at hany
        obtain ⟨y, hy, hey⟩ := hany
        exact List.mem_map.mpr ⟨y, hy, by simpa using hey⟩
      · simp

theorem collectRefs_hash_mem : ∀ (rs : List Cell) (acc : List Cell), ∀ r ∈ rs,
    r.hash ∈ (collectRefs rs acc).map Cell.hash
  | [], _, r, hr => absurd hr (by simp)
  | c :: cs, acc, r, hr => by
      rw [collectRefs]
      rcases List.mem_cons.mp hr with h | h
      · rw [h]
        exact collectRefs_hash_mono cs _ _ (collectCell_hash_mem c acc)
      · exact collectRefs_hash_mem cs (collectCell c acc) r h

end

theorem orderedRefs_append_singleton (L : List Cell) (c : Cell)
    (hL : OrderedRefs L) (hc : ∀ r ∈ c.refs, r.hash ∈ L.map Cell.hash) :
    OrderedRefs (L ++ [c]) := by
  intro i hi r hr
  rw [List.length_append] at hi
  simp only [List.length_singleton] at hi
  by_cases h : i < L.length
  · have hget : (L ++ [c]).getD i Cell.new = L.getD i Cell.new := by
      rw [List.getD_eq_getElem _ _ (by simp; omega), List.getD_eq_getElem _ _ h]
      exact List.getElem_append_left h
    rw [hget] at hr
    rw [List.take_append_of_le_length (by omega)]
    exact hL i h r hr
  · have hieq : i = L.length := by omega
    subst hieq
    have hget : (L ++ [c]).getD L.length Cell.new = c := by
      rw [List.getD_eq_getElem _ _ (by simp)]
      simp
    rw [hget] at hr
    rw [List.take_append_of_le_length le_rfl, List.take_length]
    exact hc r hr

mutual

theorem collectCell_ordered : ∀ (c : Cell) (acc : List Cell),
    OrderedRefs acc → OrderedRefs (collectCell c acc)
  | .mk d b rs, acc, hacc => by
      rw [collectCell]
      split
      · exact hacc
      · apply orderedRefs_append_singleton _ _ (collectRefs_ordered rs acc hacc)
        intro r hr
        exact collectRefs_hash_mem rs acc r hr

theorem collectRefs_ordered : ∀ (rs : List Cell) (acc : List Cell),
    OrderedRefs acc → OrderedRefs (collectRefs rs acc)
  | [], acc, hacc => by rw [collectRefs]; exact hacc
  | r :: rest, acc, hacc => by
      rw [collectRefs]
      exact collectRefs_ordered rest _ (collectCell_ordered r acc hacc)

end

mutual

theorem collectCell_nodup : ∀ (root : Cell), HashInj root → ∀ (c : Cell) (acc : List Cell),
    c ∈ root.allSubcells → (∀ x ∈ acc, x ∈ root.allSubcells) →
    (acc.map Cell.hash).Nodup →
    (∀ x ∈ collectCell c acc, x ∈ root.allSubcells) ∧
      ((collectCell c acc).map Cell.hash).Nodup
  | root, hinj, .mk d b rs, acc, hc, hacc, hnd => by
      rw [collectCell]
      split
      · exact ⟨hacc, hnd⟩
      · rename_i hany
        have hrs : ∀ r ∈ rs, r ∈ root.allSubcells := fun r hr =>
          allSubcells_trans root (Cell.mk d b rs) hc r (refs_mem_allSubcells d b rs r hr)
        obtain ⟨hmem, hnd2⟩ := collectRefs_nodup root hinj rs acc hrs hacc hnd
        constructor
        · intro x hx
          rcases List.mem_append.mp hx with h | h
          · exact hmem x h
          · rw [List.mem_singleton] at h
            rw [h]
            exact hc
        · rw [List.map_append, List.nodup_append]
          refine ⟨hnd2, by simp, ?_⟩
          intro a ha hb
          simp only [List.map_cons, List.map_nil, List.mem_singleton] at hb
          subst hb
          obtain ⟨x, hxm, hxh⟩ := List.mem_map.mp ha
          rcases collectRefs_mem rs acc x hxm with h | h
          · -- contradiction with the visited-hash guard
            apply hany
            rw [List.any_eq_true]
            exact ⟨x, h, by simpa using hxh⟩
          · -- x is a strict subcell with the same hash: impossible under HashInj
            have hx1 : x ∈ root.allSubcells :=
              allSubcells_trans root (Cell.mk d b rs) hc x
                (by rw [Cell.allSubcells]; exact List.mem_cons.mpr (Or.inr h))
            have hx2 : x = Cell.mk d b rs := hinj x hx1 (Cell.mk d b rs) hc hxh
            rw [hx2] at h
            exact not_mem_own_refs_subcells d b rs h

theorem collectRefs_nodup : ∀ (root : Cell), HashInj root → ∀ (rs : List Cell)
    (acc : List Cell), (∀ r ∈ rs, r ∈ root.allSubcells) →
    (∀ x ∈ acc, x ∈ root.allSubcells) → (acc.map Cell.hash).Nodup →
    (∀ x ∈ collectRefs rs acc, x ∈ root.allSubcells) ∧
      ((collectRefs rs acc).map Cell.hash).Nodup
  | root, hinj, [], acc, _, hacc, hnd => by rw [collectRefs]; exact ⟨hacc, hnd⟩
  | root, hinj, r :: rest, acc, hrs, hacc, hnd => by
      rw [collectRefs]
      obtain ⟨h1, h2⟩ := collectCell_nodup root hinj r acc (hrs r (by simp)) hacc hnd
      exact collectRefs_nodup root hinj rest (collectCell r acc)
        (fun x hx => hrs x (by simp [hx])) h1 h2

end

theorem positionByHash_last (L : List Cell) (c : Cell)
    (hnd : ((L ++ [c]).map Cell.hash).Nodup) :
    positionByHash (L ++ [c]) c.hash = some L.length := by
  induction L with
  | nil => simp [positionByHash]
  | cons x xs ih =>
      rw [List.cons_append] at hnd ⊢
      rw [positionByHash]
      have hx : (x.hash == c.hash) = false := by
        rw [List.map_cons, List.nodup_cons] at hnd
        refine beq_eq_false_iff_ne.mpr (fun he => hnd.1 ?_)
        rw [he, List.map_append]
        exact List.mem_append_right _ (by simp)
      rw [hx]
      have hnd2 : ((xs ++ [c]).map Cell.hash).Nodup := by
        rw [List.map_cons, List.nodup_cons] at hnd
        exact hnd.2
      rw [ih hnd2]
      simp

theorem findIdxByHash_spec : ∀ (cells : List Cell) (h : List Nat),
    h ∈ cells.map Cell.hash →
    findIdxByHash cells h < cells.length ∧
      (cells.getD (findIdxByHash cells h) Cell.new).hash = h ∧
      ∀ j < findIdxByHash cells h, (cells.getD j Cell.new).hash ≠ h
  | [], h, hh => absurd hh (by simp)
  | c :: rest, h, hh => by
      unfold findIdxByHash
      rw [List.findIdx_cons]
      by_cases hc : (c.hash == h) = true
      · rw [hc]
        refine ⟨by simp, by simpa using hc, ?_⟩
        intro j hj
        simp only [cond_true] at hj
        omega
      · rw [Bool.not_eq_true] at hc
        rw [hc]
        have hh2 : h ∈ rest.map Cell.hash := by
          rcases List.mem_map.mp hh with ⟨y, hy, hey⟩
          rcases List.mem_cons.mp hy with h1 | h1
          · rw [h1] at hey
            exact absurd hey (by simpa using hc)
          · exact List.mem_map.mpr ⟨y, h1, hey⟩
        obtain ⟨h1, h2, h3⟩ := findIdxByHash_spec rest h hh2
        unfold findIdxByHash at h1 h2 h3
        simp only [cond_false]
        refine ⟨by simp only [List.length_cons]; omega, by simpa using h2, ?_⟩
        intro j hj
        cases j with
        | zero =>
            intro he
            simp only [List.getD_cons_zero] at he
            rw [he] at hc
            simp at hc
        | succ j2 =>
            simp only [List.getD_cons_succ]
            exact h3 j2 (by omega)

theorem findIdxByHash_take (cells : List Cell) (h : List Nat) (i : Nat)
    (hh : h ∈ (cells.take i).map Cell.hash) :
    findIdxByHash cells h < i ∧ findIdxByHash cells h < cells.length ∧
      (cells.getD (findIdxByHash cells h) Cell.new).hash = h := by
  have hmem : h ∈ cells.map Cell.hash := by
    obtain ⟨x, hx, he⟩ := List.mem_map.mp hh
    exact List.mem_map.mpr ⟨x, List.mem_of_mem_take hx, he⟩
  obtain ⟨h1, h2, h3⟩ := findIdxByHash_spec cells h hmem
  refine ⟨?_, h1, h2⟩
  by_contra hcon
  push_neg at hcon
  obtain ⟨x, hx, he⟩ := List.mem_map.mp hh
  obtain ⟨m, hm, hxm⟩ := List.mem_iff_getElem.mp hx
  have hmlt : m < i ∧ m < cells.length := by
    rw [List.length_take] at hm
    omega
  have hhm : (cells.getD m Cell.new).hash = h := by
    rw [List.getD_eq_getElem _ _ hmlt.2]
    rw [List.getElem_take] at hxm
    rw [hxm]
    exact he
  exact h3 m (by omega) hhm

/-! ### The serialization loop produces one record per collected cell -/

theorem mapLookup_append (m1 m2 : List (List Nat × Nat)) (key : List Nat) :
    mapLookup (m1 ++ m2) key =
      match mapLookup m1 key with
      | some v => some v
      | none => mapLookup m2 key := by
  induction m1 with
  | nil => rfl
  | cons p rest ih =>
      obtain ⟨k, v⟩ := p
      rw [List.cons_append, mapLookup, mapLookup]
      split
      · rfl
      · exact ih

theorem mapLookup_eq_none (m : List (List Nat × Nat)) (key : List Nat)
    (h : ∀ p ∈ m, p.1 ≠ key) : mapLookup m key = none := by
  induction m with
  | nil => rfl
  | cons p rest ih =>
      obtain ⟨k, v⟩ := p
      rw [mapLookup]
      rw [if_neg (by simpa using h (k, v) (by simp))]
      exact ih (fun q hq => h q (by simp [hq]))

theorem hashPairs_succ (cells : List Cell) (k : Nat) :
    hashPairs cells (k + 1) = hashPairs cells k ++ [((cells.getD k Cell.new).hash, k)] := by
  unfold hashPairs
  rw [List.range_succ, List.map_append]
  rfl

theorem nodup_hash_getD_ne (cells : List Cell) (hnd : (cells.map Cell.hash).Nodup)
    (i j : Nat) (hij : i ≠ j) (hi : i < cells.length) (hj : j < cells.length) :
    (cells.getD i Cell.new).hash ≠ (cells.getD j Cell.new).hash := by
  intro he
  have hmi : i < (cells.map Cell.hash).length := by simpa using hi
  have hmj : j < (cells.map Cell.hash).length := by simpa using hj
  have hgi : (cells.map Cell.hash).get ⟨i, hmi⟩ = (cells.map Cell.hash).get ⟨j, hmj⟩ := by
    simp only [List.get_eq_getElem, List.getElem_map]
    rw [← List.getD_eq_getElem cells Cell.new hi, ← List.getD_eq_getElem cells Cell.new hj]
    exact he
  have := (List.Nodup.get_inj_iff hnd).mp hgi
  exact hij (by simpa using this)

theorem mapLookup_hashPairs (cells : List Cell) (hnd : (cells.map Cell.hash).Nodup) :
    ∀ k j, j < k → k ≤ cells.length →
      mapLookup (hashPairs cells k) (cells.getD j Cell.new).hash = some j := by
  intro k
  induction k with
  | zero => omega
  | succ k ih =>
      intro j hj hk
      rw [hashPairs_succ, mapLookup_append]
      by_cases hjk : j < k
      · rw [ih j hjk (by omega)]
      · have hjeq : j = k := by omega
        subst hjeq
        have hnone : mapLookup (hashPairs cells j) (cells.getD j Cell.new).hash = none := by
          apply mapLookup_eq_none
          intro p hp
          unfold hashPairs at hp
          obtain ⟨m, hm, hpm⟩ := List.mem_map.mp hp
          rw [← hpm]
          exact nodup_hash_getD_ne cells hnd m j (by simp at hm; omega)
            (by simp at hm; omega) (by omega)
        rw [hnone]
        rw [mapLookup, if_pos (by simp)]

theorem serializeCellRefs_spec (cells : List Cell) (hnd : (cells.map Cell.hash).Nodup)
    (k : Nat) (hk : k < cells.length) :
    ∀ (rsub : List Cell), (∀ r ∈ rsub, r.hash ∈ (cells.take k).map Cell.hash) →
      serializeCellRefs rsub (hashPairs cells (k + 1)) =
        .ok (rsub.map (fun r => findIdxByHash cells r.hash % 256)) := by
  intro rsub
  induction rsub with
  | nil => intro _; rfl
  | cons r rest ih =>
      intro hsub
      obtain ⟨h1, h2, h3⟩ := findIdxByHash_take cells r.hash k (hsub r (by simp))
      rw [serializeCellRefs]
      have hlook : mapLookup (hashPairs cells (k + 1)) r.hash = some (findIdxByHash cells r.hash) := by
        have hml := mapLookup_hashPairs cells hnd (k + 1) (findIdxByHash cells r.hash)
          (by omega) (by omega)
        rw [h3] at hml
        exact hml
      rw [hlook, ih (fun x hx => hsub x (by simp [hx]))]
      rfl

theorem serializeCell_spec (cells : List Cell) (hnd : (cells.map Cell.hash).Nodup)
    (hord : OrderedRefs cells) (k : Nat) (hk : k < cells.length) :
    serializeCell (cells.getD k Cell.new) (hashPairs cells (k + 1)) =
      .ok (recordOf cells (cells.getD k Cell.new)) := by
  unfold serializeCell
  rw [serializeCellRefs_spec cells hnd k hk _ (hord k hk)]
  rfl

theorem serializeCellsLoop_spec (cells : List Cell) (hnd : (cells.map Cell.hash).Nodup)
    (hord : OrderedRefs cells) :
    ∀ (cs : List Cell) (k : Nat), cells.drop k = cs →
      serializeCellsLoop cs (hashPairs cells k) k = .ok (cs.map (recordOf cells)) := by
  intro cs
  induction cs with
  | nil => intro k _; rfl
  | cons c rest ih =>
      intro k hdrop
      have hk : k < cells.length := by
        by_contra hcon
        rw [List.drop_eq_nil_of_le (by omega)] at hdrop
        exact absurd hdrop (by simp)
      have hcons : cells.getD k Cell.new :: cells.drop (k + 1) = c :: rest := by
        rw [List.getD_eq_getElem _ _ hk, ← List.drop_eq_getElem_cons hk]
        exact hdrop
      have hc : cells.getD k Cell.new = c := (List.cons.injEq _ _ _ _ ▸ hcons).1
      have hrest : cells.drop (k + 1) = rest := (List.cons.injEq _ _ _ _ ▸ hcons).2
      rw [serializeCellsLoop]
      have hcm : hashPairs cells k ++ [(c.hash, k)] = hashPairs cells (k + 1) := by
        rw [hashPairs_succ, hc]
      rw [hcm]
      have hser := serializeCell_spec cells hnd hord k hk
      rw [hc] at hser
      rw [hser, ih (k + 1) hrest]
      rw [← hc]
      rfl

/-! ### First parsing pass over concatenated records -/

theorem getD_append_len (pre l2 : List Nat) :
    (pre ++ l2).getD pre.length 0 = l2.getD 0 0 := by
  have h := getD_append_right pre l2 0
  simpa using h

theorem byteAt_append_mid (pre mid post : List Nat) (i : Nat) (hi : i < mid.length)
    (hlt : ∀ x ∈ mid, x < 256) :
    byteAt (pre ++ mid ++ post) (pre.length + i) = mid.getD i 0 := by
  unfold byteAt
  rw [List.append_assoc, getD_append_right, getD_append_left _ _ _ hi]
  exact Nat.mod_eq_of_lt (getD_lt_of_all_lt _ _ hlt)

theorem drop_take_middle (pre mid post : List Nat) :
    ((pre ++ mid ++ post).drop pre.length).take mid.length = mid := by
  rw [List.append_assoc, List.drop_left, List.take_left]

theorem and7_small (n : Nat) (h : n ≤ 4) : n &&& 7 = n := by
  interval_cases n <;> decide

theorem d2_le_255 (b : Nat) (hb : b ≤ MAX_CELL_BITS) : b / 8 + (b + 7) / 8 ≤ 255 := by
  have h : MAX_CELL_BITS = 1023 := rfl
  omega

theorem refIndexBytes_length (cells : List Cell) (c : Cell) :
    (refIndexBytes cells c).length = c.refs.length := by
  simp [refIndexBytes]

theorem refIndexBytes_lt (cells : List Cell) (c : Cell) :
    ∀ x ∈ refIndexBytes cells c, x < 256 := by
  intro x hx
  simp only [refIndexBytes, List.mem_map] at hx
  obtain ⟨r, _, hr⟩ := hx
  omega

theorem readRefIndices_spec : ∀ (n : Nat) (pre mid post : List Nat), mid.length = n →
    (∀ x ∈ mid, x < 256) →
    readRefIndices n (pre ++ mid ++ post) pre.length = .ok (mid, pre.length + n)
  | 0, pre, mid, post, hlen, _ => by
      rw [readRefIndices]
      have hm : mid = [] := List.eq_nil_of_length_eq_zero hlen
      rw [hm]
      norm_num
  | n + 1, pre, mid, post, hlen, hlt => by
      cases mid with
      | nil => simp at hlen
      | cons m0 mrest =>
          simp only [List.length_cons] at hlen
          rw [readRefIndices,
            if_neg (by simp only [List.length_append, List.length_cons]; omega)]
          have hrec := readRefIndices_spec n (pre ++ [m0]) mrest post (by omega)
            (fun x hx => hlt x (by simp [hx]))
          have heq : pre ++ [m0] ++ mrest ++ post = pre ++ (m0 :: mrest) ++ post := by simp
          have hplen : (pre ++ [m0]).length = pre.length + 1 := by simp
          rw [heq, hplen] at hrec
          rw [hrec]
          have hba : byteAt (pre ++ (m0 :: mrest) ++ post) pre.length = m0 := by
            unfold byteAt
            rw [List.append_assoc, getD_append_len]
            exact Nat.mod_eq_of_lt (hlt m0 (by simp))
          rw [hba]
          have hpos : pre.length + 1 + n = pre.length + (n + 1) := by omega
          rw [hpos]

theorem parseCellsPass1_succ (count : Nat) (data : List Nat) (pos : Nat) :
    parseCellsPass1 (count + 1) data pos =
      (if pos ≥ data.length then .error .malformedStream
      else if pos + 1 ≥ data.length then .error .malformedStream
      else if pos + 1 + 1 + (byteAt data (pos + 1) + 1) / 2 > data.length then
        .error .malformedStream
      else
        match readRefIndices (byteAt data pos &&& 0x07) data
            (pos + 1 + 1 + (byteAt data (pos + 1) + 1) / 2) with
        | .error e => .error e
        | .ok (refIdx, pos4) =>
            match Cell.withData ((data.drop (pos + 1 + 1)).take ((byteAt data (pos + 1) + 1) / 2))
                (parseBitLen ((data.drop (pos + 1 + 1)).take ((byteAt data (pos + 1) + 1) / 2))
                  (byteAt data (pos + 1)) ((byteAt data (pos + 1) + 1) / 2)) with
            | .error e => .error e
            | .ok cell =>
                match parseCellsPass1 count data pos4 with
                | .ok rest => .ok ((cell, refIdx) :: rest)
                | .error e => .error e) := rfl

/-- The record bytes of a well-formed cell are in `u8` range. -/
theorem recordOf_all_lt (cells : List Cell) (d : List Nat) (b : Nat) (rs : List Cell)
    (hwf : (Cell.mk d b rs).wfB = true) :
    ∀ x ∈ recordOf cells (Cell.mk d b rs), x < 256 := by
  obtain ⟨hlen, hb, hrs, hbytes, _⟩ := wfB_parts d b rs hwf
  intro x hx
  unfold recordOf at hx
  rcases List.mem_append.mp hx with hx | hx
  · rcases List.mem_append.mp hx with hx | hx
    · have hd2 := d2_le_255 b hb
      have hM : MAX_CELL_REFS = 4 := rfl
      simp only [Cell.descriptors, Cell.refs, Cell.bitLen, List.mem_cons,
        List.not_mem_nil, or_false] at hx
      rcases hx with h | h <;> omega
    · exact serializeData_all_lt d b rs hlen hbytes x hx
  · exact refIndexBytes_lt cells _ x hx

theorem parseCellsPass1_spec (cells : List Cell) :
    ∀ (cs : List Cell) (pre post : List Nat), (∀ c ∈ cs, c.wfB = true) →
      parseCellsPass1 cs.length (pre ++ (cs.map (recordOf cells)).flatten ++ post)
          pre.length =
        .ok (cs.map (fun c => (reparsedFlat c, refIndexBytes cells c))) := by
  intro cs
  induction cs with
  | nil => intro pre post _; rfl
  | cons c rest ih =>
      intro pre post hwfs
      obtain ⟨d, b, rs⟩ := c
      have hwfc := hwfs (Cell.mk d b rs) (by simp)
      obtain ⟨hlen, hb, hrs, hbytes, _⟩ := wfB_parts d b rs hwfc
      have hM : MAX_CELL_BITS = 1023 := rfl
      have hM4 : MAX_CELL_REFS = 4 := rfl
      have hsdlen : (Cell.mk d b rs).serializeData.length = (b + 7) / 8 := by
        rw [serializeData_length, hlen]
      obtain ⟨hbl1, hbl2, hbl3, hbl4, _, _⟩ :=
        reparse_core d b rs hlen hb hbytes (Cell.mk d b rs).serializeData
          (parseBitLen (Cell.mk d b rs).serializeData (d2Of (Cell.mk d b rs)) ((b + 7) / 8))
          rfl rfl
      have hrec : recordOf cells (Cell.mk d b rs) =
          rs.length :: (b / 8 + (b + 7) / 8) ::
            ((Cell.mk d b rs).serializeData ++ refIndexBytes cells (Cell.mk d b rs)) := by
        simp [recordOf, Cell.descriptors, Cell.refs, Cell.bitLen]
      have hreclt := recordOf_all_lt cells d b rs hwfc
      have hreclen : (recordOf cells (Cell.mk d b rs)).length =
          2 + (b + 7) / 8 + rs.length := by
        rw [hrec]
        simp only [List.length_cons, List.length_append, hsdlen, refIndexBytes_length,
          Cell.refs]
        omega
      have hdata : pre ++ ((Cell.mk d b rs :: rest).map (recordOf cells)).flatten ++ post =
          pre ++ recordOf cells (Cell.mk d b rs) ++
            ((rest.map (recordOf cells)).flatten ++ post) := by
        simp
      rw [List.length_cons, hdata, parseCellsPass1_succ]
      have hdlen : (pre ++ recordOf cells (Cell.mk d b rs) ++
          ((rest.map (recordOf cells)).flatten ++ post)).length =
          pre.length + (2 + (b + 7) / 8 + rs.length) +
            ((rest.map (recordOf cells)).flatten.length + post.length) := by
        simp only [List.length_append, hreclen]
      have hb0 : byteAt (pre ++ recordOf cells (Cell.mk d b rs) ++
          ((rest.map (recordOf cells)).flatten ++ post)) pre.length = rs.length := by
        have h := byteAt_append_mid pre (recordOf cells (Cell.mk d b rs))
          ((rest.map (recordOf cells)).flatten ++ post) 0 (by omega) hreclt
        rw [Nat.add_zero] at h
        rw [h, hrec]
        rfl
      have hb1 : byteAt (pre ++ recordOf cells (Cell.mk d b rs) ++
          ((rest.map (recordOf cells)).flatten ++ post)) (pre.length + 1) =
          b / 8 + (b + 7) / 8 := by
        have h := byteAt_append_mid pre (recordOf cells (Cell.mk d b rs))
          ((rest.map (recordOf cells)).flatten ++ post) 1 (by omega) hreclt
        rw [h, hrec]
        rfl
      rw [hb0, hb1]
      rw [if_neg (by omega), if_neg (by omega), dataSize_of_d2 b, if_neg (by omega),
        and7_small rs.length (by omega)]
      have hri := readRefIndices_spec rs.length
        (pre ++ [rs.length, b / 8 + (b + 7) / 8] ++ (Cell.mk d b rs).serializeData)
        (refIndexBytes cells (Cell.mk d b rs))
        ((rest.map (recordOf cells)).flatten ++ post)
        (refIndexBytes_length cells _) (refIndexBytes_lt cells _)
      have hassoc1 : pre ++ [rs.length, b / 8 + (b + 7) / 8] ++
          (Cell.mk d b rs).serializeData ++ refIndexBytes cells (Cell.mk d b rs) ++
          ((rest.map (recordOf cells)).flatten ++ post) =
          pre ++ recordOf cells (Cell.mk d b rs) ++
            ((rest.map (recordOf cells)).flatten ++ post) := by
        rw [hrec]
        simp
      have hplen2 : (pre ++ [rs.length, b / 8 + (b + 7) / 8] ++
          (Cell.mk d b rs).serializeData).length = pre.length + 1 + 1 + (b + 7) / 8 := by
        simp only [List.length_append, List.length_cons, List.length_nil, hsdlen]
      rw [hassoc1, hplen2] at hri
      rw [hri]
      dsimp only
      have hcd : ((pre ++ recordOf cells (Cell.mk d b rs) ++
          ((rest.map (recordOf cells)).flatten ++ post)).drop (pre.length + 1 + 1)).take
            ((b + 7) / 8) = (Cell.mk d b rs).serializeData := by
        have h := drop_take_middle (pre ++ [rs.length, b / 8 + (b + 7) / 8])
          ((Cell.mk d b rs).serializeData)
          (refIndexBytes cells (Cell.mk d b rs) ++
            ((rest.map (recordOf cells)).flatten ++ post))
        rw [hsdlen] at h
        have hassoc2 : pre ++ [rs.length, b / 8 + (b + 7) / 8] ++
            (Cell.mk d b rs).serializeData ++
            (refIndexBytes cells (Cell.mk d b rs) ++
              ((rest.map (recordOf cells)).flatten ++ post)) =
            pre ++ recordOf cells (Cell.mk d b rs) ++
              ((rest.map (recordOf cells)).flatten ++ post) := by
          rw [hrec]
          simp
        rw [hassoc2] at h
        have hplen3 : (pre ++ [rs.length, b / 8 + (b + 7) / 8]).length =
            pre.length + 1 + 1 := by
          simp
        rw [hplen3] at h
        exact h
      rw [hcd, ← d2Of_mk d b rs]
      rw [Cell.withData, if_neg (by omega), if_neg (by omega)]
      dsimp only
      have hih := ih (pre ++ recordOf cells (Cell.mk d b rs)) post
        (fun x hx => hwfs x (by simp [hx]))
      have hpos4 : (pre ++ recordOf cells (Cell.mk d b rs)).length =
          pre.length + 1 + 1 + (b + 7) / 8 + rs.length := by
        rw [List.length_append, hreclen]
        omega
      rw [hpos4] at hih
      simp only [List.append_assoc] at hih ⊢
      rw [hih]
      simp only [List.map_cons]
      unfold reparsedFlat
      rw [hsdlen]

/-! ### Second parsing pass: reference attachment -/

theorem getD_set_self2 {α : Type} : ∀ (l : List α) (i : Nat) (v d : α), i < l.length →
    (l.set i v).getD i d = v
  | _ :: _, 0, _, _, _ => rfl
  | _ :: l, i + 1, v, d, h => getD_set_self2 l i v d (by simpa using h)
  | [], _, _, _, h => absurd h (by simp)

theorem getD_set_ne2 {α : Type} : ∀ (l : List α) (i j : Nat) (v d : α), i ≠ j →
    (l.set i v).getD j d = l.getD j d
  | [], _, _, _, _, _ => by simp
  | _ :: _, 0, 0, _, _, h => absurd rfl h
  | _ :: _, 0, _ + 1, _, _, _ => rfl
  | _ :: _, _ + 1, 0, _, _, _ => rfl
  | _ :: l, i + 1, j + 1, v, d, h => getD_set_ne2 l i j v d (fun hij => h (by omega))

theorem getD_map_lt {α β : Type} (f : α → β) (l : List α) (m : Nat) (d : β) (d2 : α)
    (hm : m < l.length) : (l.map f).getD m d = f (l.getD m d2) := by
  rw [List.getD_eq_getElem _ _ (by simpa using hm), List.getD_eq_getElem _ _ hm,
    List.getElem_map]

theorem getD_mem {α : Type} (l : List α) (i : Nat) (d : α) (h : i < l.length) :
    l.getD i d ∈ l := by
  rw [List.getD_eq_getElem _ _ h]
  exact List.getElem_mem h

theorem attachParsedRefs_spec : ∀ (idxs : List Nat) (dd : List Nat) (bb : Nat)
    (rs0 : List Cell) (Lc : List Cell),
    (∀ i ∈ idxs, i < Lc.length) → rs0.length + idxs.length ≤ MAX_CELL_REFS →
    attachParsedRefs (Cell.mk dd bb rs0) idxs Lc =
      .ok (Cell.mk dd bb (rs0 ++ idxs.map (fun i => Lc.getD i Cell.new)))
  | [], dd, bb, rs0, Lc, _, _ => by
      rw [attachParsedRefs]
      simp
  | i :: rest, dd, bb, rs0, Lc, hlt, hcnt => by
      have hM4 : MAX_CELL_REFS = 4 := rfl
      rw [attachParsedRefs]
      rw [if_neg (by push_neg; exact hlt i (by simp))]
      rw [Cell.addReference]
      simp only [List.length_cons] at hcnt
      rw [if_neg (by simp only [Cell.refs]; omega)]
      dsimp only [Cell.data, Cell.bitLen, Cell.refs]
      rw [attachParsedRefs_spec rest dd bb (rs0 ++ [Lc.getD i Cell.new]) Lc
        (fun x hx => hlt x (by simp [hx]))
        (by simp only [List.length_append, List.length_cons, List.length_nil]; omega)]
      simp

theorem reparsedFlat_parts (d : List Nat) (b : Nat) (rs : List Cell)
    (hwf : (Cell.mk d b rs).wfB = true) :
    reparsedFlat (Cell.mk d b rs) =
      Cell.mk (Cell.mk d b rs).serializeData (reparsedFlat (Cell.mk d b rs)).bitLen [] ∧
    (reparsedFlat (Cell.mk d b rs)).bitLen ≤ MAX_CELL_BITS ∧
    ((reparsedFlat (Cell.mk d b rs)).bitLen + 7) / 8 = (b + 7) / 8 ∧
    (reparsedFlat (Cell.mk d b rs)).bitLen / 8 +
        ((reparsedFlat (Cell.mk d b rs)).bitLen + 7) / 8 = b / 8 + (b + 7) / 8 ∧
    ∀ rs2, (Cell.mk (Cell.mk d b rs).serializeData
        (reparsedFlat (Cell.mk d b rs)).bitLen rs2).serializeData =
      (Cell.mk d b rs).serializeData := by
  obtain ⟨hlen, hb, _, hbytes, _⟩ := wfB_parts d b rs hwf
  have hsdlen : (Cell.mk d b rs).serializeData.length = (b + 7) / 8 := by
    rw [serializeData_length, hlen]
  have hblv : (reparsedFlat (Cell.mk d b rs)).bitLen =
      parseBitLen (Cell.mk d b rs).serializeData (d2Of (Cell.mk d b rs))
        ((Cell.mk d b rs).serializeData.length) := rfl
  rw [hsdlen] at hblv
  obtain ⟨h1, h2, h3, h4, _, _⟩ := reparse_core d b rs hlen hb hbytes
    (Cell.mk d b rs).serializeData ((reparsedFlat (Cell.mk d b rs)).bitLen) rfl hblv
  rw [d2Of_mk] at h3
  exact ⟨rfl, h1, h2, h3, h4⟩

theorem reparsedFlat_hash_nil (d : List Nat) (b : Nat)
    (hwf : (Cell.mk d b []).wfB = true) :
    (reparsedFlat (Cell.mk d b [])).hash = (Cell.mk d b []).hash ∧
    (reparsedFlat (Cell.mk d b [])).depth = (Cell.mk d b []).depth := by
  obtain ⟨hstruct, _, _, hd2, hsd⟩ := reparsedFlat_parts d b [] hwf
  constructor
  · rw [hstruct]
    exact hash_congr _ _ _ d b [] rfl hd2 (hsd []) rfl rfl
  · rw [hstruct]
    rfl

theorem refIndexBytes_no_mod (cells : List Cell) (c : Cell) (k : Nat)
    (hk : k < cells.length) (hcount : cells.length ≤ 256)
    (hsub : ∀ r ∈ c.refs, r.hash ∈ (cells.take k).map Cell.hash) :
    refIndexBytes cells c = c.refs.map (fun r => findIdxByHash cells r.hash) ∧
    ∀ i ∈ refIndexBytes cells c, i < k := by
  constructor
  · unfold refIndexBytes
    apply List.map_congr_left
    intro r hr
    obtain ⟨h1, h2, _⟩ := findIdxByHash_take cells r.hash k (hsub r hr)
    exact Nat.mod_eq_of_lt (by omega)
  · intro i hi
    simp only [refIndexBytes, List.mem_map] at hi
    obtain ⟨r, hr, hri⟩ := hi
    obtain ⟨h1, h2, _⟩ := findIdxByHash_take cells r.hash k (hsub r hr)
    omega

theorem parseCellsPass2_step (i : Nat) (refs : List Nat) (tail : List (Nat × List Nat))
    (cells : List Cell) :
    parseCellsPass2 ((i, refs) :: tail) cells =
      if refs.isEmpty then parseCellsPass2 tail cells
      else
        match Cell.withData (cells.getD i Cell.new).data (cells.getD i Cell.new).bitLen with
        | .error e => .error e
        | .ok base =>
            match attachParsedRefs base refs cells with
            | .ok newCell => parseCellsPass2 tail (cells.set i newCell)
            | .error e => .error e := rfl

theorem parseCellsPass2_spec (root : Cell) (hinj : HashInj root) (cells : List Cell)
    (hwf : ∀ x ∈ cells, x.wfB = true)
    (hmem : ∀ x ∈ cells, x ∈ root.allSubcells)
    (hord : OrderedRefs cells) (hcount : cells.length ≤ 256) :
    ∀ (cs : List Cell) (k : Nat), cells.drop k = cs →
      ∀ L : List Cell, L.length = cells.length →
      (∀ j, j < cells.length →
        (j < k → (L.getD j Cell.new).hash = (cells.getD j Cell.new).hash ∧
          (L.getD j Cell.new).depth = (cells.getD j Cell.new).depth) ∧
        (k ≤ j → L.getD j Cell.new = reparsedFlat (cells.getD j Cell.new))) →
      ∃ L2, parseCellsPass2 ((cs.map (refIndexBytes cells)).enumFrom k) L = .ok L2 ∧
        L2.length = cells.length ∧
        ∀ j, j < cells.length →
          (L2.getD j Cell.new).hash = (cells.getD j Cell.new).hash ∧
          (L2.getD j Cell.new).depth = (cells.getD j Cell.new).depth := by
  intro cs
  induction cs with
  | nil =>
      intro k hdrop L hL hinv
      refine ⟨L, rfl, hL, ?_⟩
      have hk : cells.length ≤ k := by
        by_contra hcon
        have hle := congrArg List.length hdrop
        rw [List.length_drop] at hle
        simp only [List.length_nil] at hle
        omega
      intro j hj
      exact (hinv j hj).1 (by omega)
  | cons c rest ih =>
      intro k hdrop L hL hinv
      have hk : k < cells.length := by
        by_contra hcon
        rw [List.drop_eq_nil_of_le (by omega)] at hdrop
        exact absurd hdrop (by simp)
      have hcons : cells.getD k Cell.new :: cells.drop (k + 1) = c :: rest := by
        rw [List.getD_eq_getElem _ _ hk, ← List.drop_eq_getElem_cons hk]
        exact hdrop
      have hck : cells.getD k Cell.new = c := (List.cons.injEq _ _ _ _ ▸ hcons).1
      have hrest : cells.drop (k + 1) = rest := (List.cons.injEq _ _ _ _ ▸ hcons).2
      have hcmem : c ∈ cells := by rw [← hck]; exact getD_mem _ _ _ hk
      have hwfc := hwf c hcmem
      have hsub : ∀ r ∈ c.refs, r.hash ∈ (cells.take k).map Cell.hash := by
        have h := hord k hk
        rw [hck] at h
        exact h
      obtain ⟨hrb, hrblt⟩ := refIndexBytes_no_mod cells c k hk hcount hsub
      obtain ⟨dc, bc, rsc⟩ := c
      obtain ⟨hlenc, hbc, hrsc, hbytesc, _⟩ := wfB_parts dc bc rsc hwfc
      have hflatk := (hinv k hk).2 (le_refl k)
      rw [hck] at hflatk
      simp only [List.map_cons, List.enumFrom_cons]
      rw [parseCellsPass2_step]
      cases rsc with
      | nil =>
          rw [if_pos (by simp [refIndexBytes, Cell.refs])]
          apply ih (k + 1) hrest L hL
          intro j hj
          refine ⟨?_, fun h1j => (hinv j hj).2 (by omega)⟩
          intro hjk1
          by_cases hjk : j < k
          · exact (hinv j hj).1 hjk
          · have hjeq : j = k := by omega
            subst hjeq
            rw [hflatk, hck]
            exact reparsedFlat_hash_nil dc bc hwfc
      | cons r0 rtl =>
          rw [if_neg (by simp [refIndexBytes, Cell.refs])]
          obtain ⟨hstruct, hble, hd28, hd2sum, hsdid⟩ :=
            reparsedFlat_parts dc bc (r0 :: rtl) hwfc
          have hM : MAX_CELL_BITS = 1023 := rfl
          have hsdlen : (Cell.mk dc bc (r0 :: rtl)).serializeData.length = (bc + 7) / 8 := by
            rw [serializeData_length, hlenc]
          rw [hflatk, hstruct]
          rw [show (Cell.mk (Cell.mk dc bc (r0 :: rtl)).serializeData
              (reparsedFlat (Cell.mk dc bc (r0 :: rtl))).bitLen []).data =
              (Cell.mk dc bc (r0 :: rtl)).serializeData from rfl,
            show (Cell.mk (Cell.mk dc bc (r0 :: rtl)).serializeData
              (reparsedFlat (Cell.mk dc bc (r0 :: rtl))).bitLen []).bitLen =
              (reparsedFlat (Cell.mk dc bc (r0 :: rtl))).bitLen from rfl]
          rw [Cell.withData, if_neg (by omega), if_neg (by omega)]
          dsimp only
          rw [hrb]
          have hattach := attachParsedRefs_spec
            ((Cell.mk dc bc (r0 :: rtl)).refs.map (fun r => findIdxByHash cells r.hash))
            (Cell.mk dc bc (r0 :: rtl)).serializeData
            (reparsedFlat (Cell.mk dc bc (r0 :: rtl))).bitLen [] L
            (by
              intro i hi
              have hi2 : i ∈ refIndexBytes cells (Cell.mk dc bc (r0 :: rtl)) := by
                rw [hrb]
                exact hi
              have := hrblt i hi2
              omega)
            (by
              simp only [List.length_map, List.length_nil, Cell.refs]
              have hM4 : MAX_CELL_REFS = 4 := rfl
              simp only [List.length_cons] at hrsc ⊢
              omega)
          rw [hattach]
          dsimp only
          set newCell := Cell.mk (Cell.mk dc bc (r0 :: rtl)).serializeData
            (reparsedFlat (Cell.mk dc bc (r0 :: rtl))).bitLen
            ([] ++ ((Cell.mk dc bc (r0 :: rtl)).refs.map
              (fun r => findIdxByHash cells r.hash)).map (fun i => L.getD i Cell.new))
            with hnew
          -- pointwise facts about the attached references
          have hpoint : ∀ m, m < (r0 :: rtl).length →
              (L.getD (findIdxByHash cells (((r0 :: rtl).getD m Cell.new).hash)) Cell.new).hash =
                ((r0 :: rtl).getD m Cell.new).hash ∧
              (L.getD (findIdxByHash cells (((r0 :: rtl).getD m Cell.new).hash)) Cell.new).depth =
                ((r0 :: rtl).getD m Cell.new).depth := by
            intro m hm
            have hrm : (r0 :: rtl).getD m Cell.new ∈ (r0 :: rtl) := getD_mem _ _ _ hm
            obtain ⟨hj1, hj2, hj3⟩ := findIdxByHash_take cells
              (((r0 :: rtl).getD m Cell.new).hash) k (hsub _ hrm)
            have hreq : cells.getD (findIdxByHash cells (((r0 :: rtl).getD m Cell.new).hash))
                Cell.new = (r0 :: rtl).getD m Cell.new := by
              apply hinj
              · exact hmem _ (getD_mem _ _ _ hj2)
              · exact allSubcells_trans root (Cell.mk dc bc (r0 :: rtl)) (hmem _ hcmem) _
                  (refs_mem_allSubcells dc bc (r0 :: rtl) _ hrm)
              · exact hj3
            have hLj := (hinv (findIdxByHash cells (((r0 :: rtl).getD m Cell.new).hash))
              hj2).1 (by omega)
            rw [hreq] at hLj
            exact hLj
          have hnewhash : newCell.hash = (Cell.mk dc bc (r0 :: rtl)).hash := by
            rw [hnew]
            simp only [List.nil_append, List.map_map, Cell.refs]
            apply hash_congr
            · simp
            · exact hd2sum
            · exact hsdid _
            · apply depthBytesOfRefs_congr
              · simp
              · intro m hm
                rw [getD_map_lt _ _ _ _ Cell.new hm]
                exact (hpoint m hm).2
            · apply hashesOfRefs_congr
              · simp
              · intro m hm
                rw [getD_map_lt _ _ _ _ Cell.new hm]
                exact (hpoint m hm).1
          have hnewdepth : newCell.depth = (Cell.mk dc bc (r0 :: rtl)).depth := by
            rw [hnew]
            simp only [List.nil_append, List.map_map, Cell.refs]
            apply depth_congr
            · simp
            · intro m hm
              rw [getD_map_lt _ _ _ _ Cell.new hm]
              exact (hpoint m hm).2
          apply ih (k + 1) hrest (L.set k newCell) (by simp [hL])
          intro j hj
          constructor
          · intro hjk1
            by_cases hjk : j < k
            · rw [getD_set_ne2 L k j newCell Cell.new (by omega)]
              exact (hinv j hj).1 hjk
            · have hjeq : j = k := by omega
              subst hjeq
              rw [getD_set_self2 L j newCell Cell.new (by omega), hck]
              exact ⟨hnewhash, hnewdepth⟩
          · intro h1j
            rw [getD_set_ne2 L k j newCell Cell.new (by omega)]
            exact (hinv j hj).2 (by omega)

theorem parseCells_spec (root : Cell) (hinj : HashInj root) (cells : List Cell)
    (hwf : ∀ x ∈ cells, x.wfB = true) (hmem : ∀ x ∈ cells, x ∈ root.allSubcells)
    (hord : OrderedRefs cells) (hcount : cells.length ≤ 256) :
    ∃ L2, parseCells ((cells.map (recordOf cells)).flatten) cells.length = .ok L2 ∧
      L2.length = cells.length ∧
      ∀ j, j < cells.length →
        (L2.getD j Cell.new).hash = (cells.getD j Cell.new).hash := by
  have hp1 := parseCellsPass1_spec cells cells [] [] hwf
  simp only [List.append_nil, List.nil_append, List.length_nil] at hp1
  obtain ⟨L2, hL2, hlen, hhash⟩ := parseCellsPass2_spec root hinj cells hwf hmem hord hcount
    cells 0 (List.drop_zero cells) (cells.map reparsedFlat) (by simp)
    (by
      intro j hj
      refine ⟨by omega, fun _ => ?_⟩
      exact getD_map_lt reparsedFlat cells j Cell.new Cell.new hj)
  refine ⟨L2, ?_, hlen, fun j hj => (hhash j hj).1⟩
  unfold parseCells
  rw [hp1]
  dsimp only
  have hfst : (cells.map (fun c => (reparsedFlat c, refIndexBytes cells c))).map Prod.fst =
      cells.map reparsedFlat := by
    rw [List.map_map]
    rfl
  have hsnd : (cells.map (fun c => (reparsedFlat c, refIndexBytes cells c))).map Prod.snd =
      cells.map (refIndexBytes cells) := by
    rw [List.map_map]
    rfl
  rw [hfst, hsnd]
  have henum : (cells.map (refIndexBytes cells)).enum =
      (cells.map (refIndexBytes cells)).enumFrom 0 := rfl
  rw [henum]
  exact hL2

theorem collect_facts (root : Cell) (hwfr : root.wfB = true) (hinj : HashInj root) :
    (∀ x ∈ collectCell root [], x ∈ root.allSubcells) ∧
    (∀ x ∈ collectCell root [], x.wfB = true) ∧
    ((collectCell root []).map Cell.hash).Nodup ∧
    OrderedRefs (collectCell root []) ∧
    positionByHash (collectCell root []) root.hash =
      some ((collectCell root []).length - 1) ∧
    (collectCell root []).getD ((collectCell root []).length - 1) Cell.new = root ∧
    1 ≤ (collectCell root []).length := by
  obtain ⟨hmem, hnd⟩ := collectCell_nodup root hinj root [] (self_mem_allSubcells root)
    (by simp) (by simp)
  have hwf : ∀ x ∈ collectCell root [], x.wfB = true := fun x hx =>
    wfB_of_mem_allSubcells root x hwfr (hmem x hx)
  have hord : OrderedRefs (collectCell root []) :=
    collectCell_ordered root [] (by intro i hi _ _; simp at hi)
  obtain ⟨d, b, rs⟩ := root
  have hsplit : collectCell (Cell.mk d b rs) [] =
      collectRefs rs [] ++ [Cell.mk d b rs] := by
    rw [collectCell, if_neg (by simp)]
  rw [hsplit] at hmem hnd hord hwf ⊢
  have hlen : (collectRefs rs [] ++ [Cell.mk d b rs]).length =
      (collectRefs rs []).length + 1 := by simp
  have hgd : (collectRefs rs [] ++ [Cell.mk d b rs]).getD
      ((collectRefs rs []).length) Cell.new = Cell.mk d b rs := by
    rw [List.getD_eq_getElem _ _ (by simp)]
    simp
  refine ⟨hmem, hwf, hnd, hord, ?_, ?_, by omega⟩
  · rw [hlen]
    simp only [Nat.add_sub_cancel]
    exact positionByHash_last (collectRefs rs []) (Cell.mk d b rs) hnd
  · rw [hlen]
    simp only [Nat.add_sub_cancel]
    exact hgd

theorem serializeBoc_spec (root : Cell) (hwfr : root.wfB = true) (hinj : HashInj root)
    (crc : Bool) :
    serializeBoc root crc = .ok (bocBody root crc ++
      (if crc then natToBytesLE 4 (crc32 (bocBody root crc)) else [])) := by
  obtain ⟨hmem, hwf, hnd, hord, hpos, hgetlast, hlen1⟩ := collect_facts root hwfr hinj
  have hloop := serializeCellsLoop_spec (collectCell root []) hnd hord
    (collectCell root []) 0 (List.drop_zero _)
  have hhp0 : hashPairs (collectCell root []) 0 = [] := rfl
  rw [hhp0] at hloop
  unfold serializeBoc
  dsimp only
  rw [hpos]
  dsimp only
  rw [hloop]
  dsimp only
  unfold bocBody
  dsimp only
  cases crc
  · simp
  · simp

/-! ### Header arithmetic for the BoC round trip -/

theorem recordOf_length_le (cells : List Cell) (c : Cell) (hwf : c.wfB = true) :
    (recordOf cells c).length ≤ 134 := by
  obtain ⟨d, b, rs⟩ := c
  obtain ⟨hlen, hb, hrs, _, _⟩ := wfB_parts d b rs hwf
  have hM : MAX_CELL_BITS = 1023 := rfl
  have hM4 : MAX_CELL_REFS = 4 := rfl
  unfold recordOf
  simp only [List.length_append, Cell.descriptors, Cell.refs, Cell.bitLen,
    List.length_cons, List.length_nil, serializeData_length, refIndexBytes_length]
  omega

theorem sum_records_le (cells : List Cell) (hwf : ∀ c ∈ cells, c.wfB = true) :
    ((cells.map (recordOf cells)).map List.length).sum ≤ cells.length * 134 := by
  have h : ∀ (cs : List Cell), (∀ c ∈ cs, c.wfB = true) →
      ((cs.map (recordOf cells)).map List.length).sum ≤ cs.length * 134 := by
    intro cs
    induction cs with
    | nil => intro _; simp
    | cons c rest ih =>
        intro hwfs
        simp only [List.map_cons, List.sum_cons, List.length_cons]
        have h1 := recordOf_length_le cells c (hwfs c (by simp))
        have h2 := ih (fun x hx => hwfs x (by simp [hx]))
        omega
  exact h cells hwf

theorem flags_facts (s : Nat) (hs1 : 1 ≤ s) (hs : s ≤ 7) (crc : Bool) :
    (((if crc then 64 else 0) ||| s) &&& 0x40 = if crc then 64 else 0) ∧
    (((if crc then 64 else 0) ||| s) &&& 0x07 = s) ∧
    ((if crc then 64 else 0) ||| s) < 256 := by
  cases crc <;> simp only [if_true, if_false, Bool.false_eq_true] <;>
    interval_cases s <;> exact ⟨by decide, by decide, by decide⟩

theorem byteAt_shift (pre rest : List Nat) (i : Nat) :
    byteAt (pre ++ rest) (pre.length + i) = byteAt rest i := by
  unfold byteAt
  rw [getD_append_right]

theorem natToBytesBE_magic :
    natToBytesBE 4 BOC_GENERIC_MAGIC = [0xb5, 0xee, 0x9c, 0x72] := by decide

theorem flags_val_true (s : Nat) (hs1 : 1 ≤ s) (hs7 : s ≤ 7) :
    (64 ||| s) &&& 0x40 = 64 ∧ (64 ||| s) &&& 0x07 = s ∧ 64 ||| s < 256 := by
  interval_cases s <;> exact ⟨by decide, by decide, by decide⟩

theorem flags_val_false (s : Nat) (hs1 : 1 ≤ s) (hs7 : s ≤ 7) :
    s &&& 0x40 = 0 ∧ s &&& 0x07 = s ∧ s < 256 := by
  interval_cases s <;> exact ⟨by decide, by decide, by decide⟩

theorem deserializeBocGeneric_header_nocrc (s ob n csz rootIdx : Nat) (flat : List Nat)
    (hs1 : 1 ≤ s) (hs7 : s ≤ 7) (hob1 : 1 ≤ ob) (hob8 : ob ≤ 8)
    (hn : n < 256 ^ s) (hri : rootIdx < 256 ^ s) (hcsz : csz < 256 ^ ob)
    (hflat : flat.length = csz) :
    deserializeBocGeneric
      (0xb5 :: 0xee :: 0x9c :: 0x72 :: s :: ob ::
        (natToBytesBE s n ++ (natToBytesBE s 1 ++ (natToBytesBE s 0 ++
         (natToBytesBE ob csz ++ (natToBytesBE s rootIdx ++ flat)))))) =
      match parseCells flat n with
      | .error e => .error e
      | .ok cells2 =>
          if rootIdx ≥ cells2.length then .error .malformedStream
          else .ok (cells2.getD rootIdx Cell.new) := by
  obtain ⟨hf1, hf2, hf3⟩ := flags_val_false s hs1 hs7
  have h2561 : (256 : Nat) ^ 1 = 256 := by norm_num
  have h256s : (256 : Nat) ^ 1 ≤ 256 ^ s := Nat.pow_le_pow_right (by norm_num) hs1
  have hDlen : (0xb5 :: 0xee :: 0x9c :: 0x72 :: s :: ob ::
      (natToBytesBE s n ++ (natToBytesBE s 1 ++ (natToBytesBE s 0 ++
       (natToBytesBE ob csz ++ (natToBytesBE s rootIdx ++ flat)))))).length =
      4 + 1 + 1 + s + s + s + ob + s + csz := by
    simp only [List.length_cons, List.length_append, natToBytesBE_length, hflat]
    omega
  unfold deserializeBocGeneric
  dsimp only
  rw [if_neg (by omega)]
  have hb4 : byteAt (0xb5 :: 0xee :: 0x9c :: 0x72 :: s :: ob ::
      (natToBytesBE s n ++ (natToBytesBE s 1 ++ (natToBytesBE s 0 ++
       (natToBytesBE ob csz ++ (natToBytesBE s rootIdx ++ flat)))))) 4 = s % 256 := rfl
  rw [hb4, Nat.mod_eq_of_lt hf3, hf1, hf2]
  rw [if_neg (by omega), if_neg (by omega)]
  have hb5 : byteAt (0xb5 :: 0xee :: 0x9c :: 0x72 :: s :: ob ::
      (natToBytesBE s n ++ (natToBytesBE s 1 ++ (natToBytesBE s 0 ++
       (natToBytesBE ob csz ++ (natToBytesBE s rootIdx ++ flat)))))) (4 + 1) = ob % 256 := rfl
  rw [hb5, Nat.mod_eq_of_lt (by omega)]
  rw [if_neg (by omega)]
  have hru1 : readUint (0xb5 :: 0xee :: 0x9c :: 0x72 :: s :: ob ::
      (natToBytesBE s n ++ (natToBytesBE s 1 ++ (natToBytesBE s 0 ++
       (natToBytesBE ob csz ++ (natToBytesBE s rootIdx ++ flat)))))) (4 + 1 + 1) s =
      .ok (n, 4 + 1 + 1 + s) := by
    have h := readUint_spec [0xb5, 0xee, 0x9c, 0x72, s, ob] (natToBytesBE s n)
      (natToBytesBE s 1 ++ (natToBytesBE s 0 ++
        (natToBytesBE ob csz ++ (natToBytesBE s rootIdx ++ flat)))) s n rfl hn
    have hpl : ([0xb5, 0xee, 0x9c, 0x72, s, ob] : List Nat).length = 4 + 1 + 1 := rfl
    rw [hpl] at h
    have hdd : [0xb5, 0xee, 0x9c, 0x72, s, ob] ++ natToBytesBE s n ++
        (natToBytesBE s 1 ++ (natToBytesBE s 0 ++
          (natToBytesBE ob csz ++ (natToBytesBE s rootIdx ++ flat)))) =
        0xb5 :: 0xee :: 0x9c :: 0x72 :: s :: ob ::
          (natToBytesBE s n ++ (natToBytesBE s 1 ++ (natToBytesBE s 0 ++
           (natToBytesBE ob csz ++ (natToBytesBE s rootIdx ++ flat))))) := by
      simp [List.append_assoc]
    rw [hdd] at h
    exact h
  rw [hru1]
  dsimp only
  have hru2 : readUint (0xb5 :: 0xee :: 0x9c :: 0x72 :: s :: ob ::
      (natToBytesBE s n ++ (natToBytesBE s 1 ++ (natToBytesBE s 0 ++
       (natToBytesBE ob csz ++ (natToBytesBE s rootIdx ++ flat)))))) (4 + 1 + 1 + s) s =
      .ok (1, 4 + 1 + 1 + s + s) := by
    have h := readUint_spec ([0xb5, 0xee, 0x9c, 0x72, s, ob] ++ natToBytesBE s n)
      (natToBytesBE s 1)
      (natToBytesBE s 0 ++ (natToBytesBE ob csz ++ (natToBytesBE s rootIdx ++ flat)))
      s 1 rfl (by omega)
    have hpl : (([0xb5, 0xee, 0x9c, 0x72, s, ob] : List Nat) ++ natToBytesBE s n).length =
        4 + 1 + 1 + s := by
      simp only [List.length_append, natToBytesBE_length, List.length_cons, List.length_nil]
    rw [hpl] at h
    have hdd : [0xb5, 0xee, 0x9c, 0x72, s, ob] ++ natToBytesBE s n ++ natToBytesBE s 1 ++
        (natToBytesBE s 0 ++ (natToBytesBE ob csz ++ (natToBytesBE s rootIdx ++ flat))) =
        0xb5 :: 0xee :: 0x9c :: 0x72 :: s :: ob ::
          (natToBytesBE s n ++ (natToBytesBE s 1 ++ (natToBytesBE s 0 ++
           (natToBytesBE ob csz ++ (natToBytesBE s rootIdx ++ flat))))) := by
      simp [List.append_assoc]
    rw [hdd] at h
    exact h
  rw [hru2]
  dsimp only
  rw [if_neg (by omega)]
  have hru3 : readUint (0xb5 :: 0xee :: 0x9c :: 0x72 :: s :: ob ::
      (natToBytesBE s n ++ (natToBytesBE s 1 ++ (natToBytesBE s 0 ++
       (natToBytesBE ob csz ++ (natToBytesBE s rootIdx ++ flat)))))) (4 + 1 + 1 + s + s) s =
      .ok (0, 4 + 1 + 1 + s + s + s) := by
    have h := readUint_spec
      ([0xb5, 0xee, 0x9c, 0x72, s, ob] ++ natToBytesBE s n ++ natToBytesBE s 1)
      (natToBytesBE s 0)
      (natToBytesBE ob csz ++ (natToBytesBE s rootIdx ++ flat))
      s 0 rfl (by omega)
    have hpl : (([0xb5, 0xee, 0x9c, 0x72, s, ob] : List Nat) ++ natToBytesBE s n ++
        natToBytesBE s 1).length = 4 + 1 + 1 + s + s := by
      simp only [List.length_append, natToBytesBE_length, List.length_cons, List.length_nil]
    rw [hpl] at h
    have hdd : [0xb5, 0xee, 0x9c, 0x72, s, ob] ++ natToBytesBE s n ++ natToBytesBE s 1 ++
        natToBytesBE s 0 ++ (natToBytesBE ob csz ++ (natToBytesBE s rootIdx ++ flat)) =
        0xb5 :: 0xee :: 0x9c :: 0x72 :: s :: ob ::
          (natToBytesBE s n ++ (natToBytesBE s 1 ++ (natToBytesBE s 0 ++
           (natToBytesBE ob csz ++ (natToBytesBE s rootIdx ++ flat))))) := by
      simp [List.append_assoc]
    rw [hdd] at h
    exact h
  rw [hru3]
  dsimp only
  have hru4 : readUint (0xb5 :: 0xee :: 0x9c :: 0x72 :: s :: ob ::
      (natToBytesBE s n ++ (natToBytesBE s 1 ++ (natToBytesBE s 0 ++
       (natToBytesBE ob csz ++ (natToBytesBE s rootIdx ++ flat)))))) (4 + 1 + 1 + s + s + s)
      ob = .ok (csz, 4 + 1 + 1 + s + s + s + ob) := by
    have h := readUint_spec
      ([0xb5, 0xee, 0x9c, 0x72, s, ob] ++ natToBytesBE s n ++ natToBytesBE s 1 ++
        natToBytesBE s 0)
      (natToBytesBE ob csz) (natToBytesBE s rootIdx ++ flat) ob csz rfl hcsz
    have hpl : (([0xb5, 0xee, 0x9c, 0x72, s, ob] : List Nat) ++ natToBytesBE s n ++
        natToBytesBE s 1 ++ natToBytesBE s 0).length = 4 + 1 + 1 + s + s + s := by
      simp only [List.length_append, natToBytesBE_length, List.length_cons, List.length_nil]
    rw [hpl] at h
    have hdd : [0xb5, 0xee, 0x9c, 0x72, s, ob] ++ natToBytesBE s n ++ natToBytesBE s 1 ++
        natToBytesBE s 0 ++ natToBytesBE ob csz ++ (natToBytesBE s rootIdx ++ flat) =
        0xb5 :: 0xee :: 0x9c :: 0x72 :: s :: ob ::
          (natToBytesBE s n ++ (natToBytesBE s 1 ++ (natToBytesBE s 0 ++
           (natToBytesBE ob csz ++ (natToBytesBE s rootIdx ++ flat))))) := by
      simp [List.append_assoc]
    rw [hdd] at h
    exact h
  rw [hru4]
  dsimp only
  have hru5 : readUint (0xb5 :: 0xee :: 0x9c :: 0x72 :: s :: ob ::
      (natToBytesBE s n ++ (natToBytesBE s 1 ++ (natToBytesBE s 0 ++
       (natToBytesBE ob csz ++ (natToBytesBE s rootIdx ++ flat))))))
      (4 + 1 + 1 + s + s + s + ob) s = .ok (rootIdx, 4 + 1 + 1 + s + s + s + ob + s) := by
    have h := readUint_spec
      ([0xb5, 0xee, 0x9c, 0x72, s, ob] ++ natToBytesBE s n ++ natToBytesBE s 1 ++
        natToBytesBE s 0 ++ natToBytesBE ob csz)
      (natToBytesBE s rootIdx) flat s rootIdx rfl hri
    have hpl : (([0xb5, 0xee, 0x9c, 0x72, s, ob] : List Nat) ++ natToBytesBE s n ++
        natToBytesBE s 1 ++ natToBytesBE s 0 ++ natToBytesBE ob csz).length =
        4 + 1 + 1 + s + s + s + ob := by
      simp only [List.length_append, natToBytesBE_length, List.length_cons, List.length_nil]
    rw [hpl] at h
    have hdd : [0xb5, 0xee, 0x9c, 0x72, s, ob] ++ natToBytesBE s n ++ natToBytesBE s 1 ++
        natToBytesBE s 0 ++ natToBytesBE ob csz ++ natToBytesBE s rootIdx ++ flat =
        0xb5 :: 0xee :: 0x9c :: 0x72 :: s :: ob ::
          (natToBytesBE s n ++ (natToBytesBE s 1 ++ (natToBytesBE s 0 ++
           (natToBytesBE ob csz ++ (natToBytesBE s rootIdx ++ flat))))) := by
      simp [List.append_assoc]
    rw [hdd] at h
    exact h
  rw [hru5]
  dsimp only
  rw [if_neg (show ¬((0 : Nat) ≠ 0) by simp)]
  rw [if_neg (by omega)]
  have hcd : ((0xb5 :: 0xee :: 0x9c :: 0x72 :: s :: ob ::
      (natToBytesBE s n ++ (natToBytesBE s 1 ++ (natToBytesBE s 0 ++
       (natToBytesBE ob csz ++ (natToBytesBE s rootIdx ++ flat)))))).drop
        (4 + 1 + 1 + s + s + s + ob + s)).take csz = flat := by
    have h := drop_take_middle
      ([0xb5, 0xee, 0x9c, 0x72, s, ob] ++ natToBytesBE s n ++ natToBytesBE s 1 ++
        natToBytesBE s 0 ++ natToBytesBE ob csz ++ natToBytesBE s rootIdx) flat []
    have hpl : (([0xb5, 0xee, 0x9c, 0x72, s, ob] : List Nat) ++ natToBytesBE s n ++
        natToBytesBE s 1 ++ natToBytesBE s 0 ++ natToBytesBE ob csz ++
        natToBytesBE s rootIdx).length = 4 + 1 + 1 + s + s + s + ob + s := by
      simp only [List.length_append, natToBytesBE_length, List.length_cons, List.length_nil]
    rw [hpl, hflat] at h
    have hdd : [0xb5, 0xee, 0x9c, 0x72, s, ob] ++ natToBytesBE s n ++ natToBytesBE s 1 ++
        natToBytesBE s 0 ++ natToBytesBE ob csz ++ natToBytesBE s rootIdx ++ flat ++ [] =
        0xb5 :: 0xee :: 0x9c :: 0x72 :: s :: ob ::
          (natToBytesBE s n ++ (natToBytesBE s 1 ++ (natToBytesBE s 0 ++
           (natToBytesBE ob csz ++ (natToBytesBE s rootIdx ++ flat))))) := by
      simp [List.append_assoc]
    rw [hdd] at h
    exact h
  rw [hcd]
  cases hpc : parseCells flat n with
  | error e => rfl
  | ok cells2 =>
      dsimp only
      rw [if_neg (show ¬((0 : Nat) ≠ 0) by simp)]

theorem deserializeBocGeneric_header_crc (s ob n csz rootIdx : Nat) (flat trailer : List Nat)
    (hs1 : 1 ≤ s) (hs7 : s ≤ 7) (hob1 : 1 ≤ ob) (hob8 : ob ≤ 8)
    (hn : n < 256 ^ s) (hri : rootIdx < 256 ^ s) (hcsz : csz < 256 ^ ob)
    (hflat : flat.length = csz) (htl : trailer.length = 4)
    (htlt : ∀ x ∈ trailer, x < 256) :
    deserializeBocGeneric
      ((0xb5 :: 0xee :: 0x9c :: 0x72 :: (64 ||| s) :: ob ::
        (natToBytesBE s n ++ (natToBytesBE s 1 ++ (natToBytesBE s 0 ++
         (natToBytesBE ob csz ++ (natToBytesBE s rootIdx ++ flat)))))) ++ trailer) =
      match parseCells flat n with
      | .error e => .error e
      | .ok cells2 =>
          if trailer.getD 0 0 + trailer.getD 1 0 * 256 + trailer.getD 2 0 * 65536 +
              trailer.getD 3 0 * 16777216 =
              crc32 (0xb5 :: 0xee :: 0x9c :: 0x72 :: (64 ||| s) :: ob ::
                (natToBytesBE s n ++ (natToBytesBE s 1 ++ (natToBytesBE s 0 ++
                 (natToBytesBE ob csz ++ (natToBytesBE s rootIdx ++ flat))))))
          then (if rootIdx ≥ cells2.length then .error .malformedStream
                else .ok (cells2.getD rootIdx Cell.new))
          else .error .integrityError := by
  obtain ⟨hf1, hf2, hf3⟩ := flags_val_true s hs1 hs7
  have h2561 : (256 : Nat) ^ 1 = 256 := by norm_num
  have h256s : (256 : Nat) ^ 1 ≤ 256 ^ s := Nat.pow_le_pow_right (by norm_num) hs1
  have hplB : (0xb5 :: 0xee :: 0x9c :: 0x72 :: (64 ||| s) :: ob ::
      (natToBytesBE s n ++ (natToBytesBE s 1 ++ (natToBytesBE s 0 ++
       (natToBytesBE ob csz ++ (natToBytesBE s rootIdx ++ flat)))))).length =
      4 + 1 + 1 + s + s + s + ob + s + csz := by
    simp only [List.length_cons, List.length_append, natToBytesBE_length, hflat]
    omega
  have hDlen : ((0xb5 :: 0xee :: 0x9c :: 0x72 :: (64 ||| s) :: ob ::
      (natToBytesBE s n ++ (natToBytesBE s 1 ++ (natToBytesBE s 0 ++
       (natToBytesBE ob csz ++ (natToBytesBE s rootIdx ++ flat)))))) ++ trailer).length =
      4 + 1 + 1 + s + s + s + ob + s + csz + 4 := by
    rw [List.length_append, hplB, htl]
  unfold deserializeBocGeneric
  dsimp only
  rw [if_neg (by omega)]
  have hb4 : byteAt ((0xb5 :: 0xee :: 0x9c :: 0x72 :: (64 ||| s) :: ob ::
      (natToBytesBE s n ++ (natToBytesBE s 1 ++ (natToBytesBE s 0 ++
       (natToBytesBE ob csz ++ (natToBytesBE s rootIdx ++ flat)))))) ++ trailer) 4 =
      (64 ||| s) % 256 := rfl
  rw [hb4, Nat.mod_eq_of_lt hf3, hf1, hf2]
  rw [if_neg (by omega), if_neg (by omega)]
  have hb5 : byteAt ((0xb5 :: 0xee :: 0x9c :: 0x72 :: (64 ||| s) :: ob ::
      (natToBytesBE s n ++ (natToBytesBE s 1 ++ (natToBytesBE s 0 ++
       (natToBytesBE ob csz ++ (natToBytesBE s rootIdx ++ flat)))))) ++ trailer) (4 + 1) =
      ob % 256 := rfl
  rw [hb5, Nat.mod_eq_of_lt (by omega)]
  rw [if_neg (by omega)]
  have hru1 : readUint ((0xb5 :: 0xee :: 0x9c :: 0x72 :: (64 ||| s) :: ob ::
      (natToBytesBE s n ++ (natToBytesBE s 1 ++ (natToBytesBE s 0 ++
       (natToBytesBE ob csz ++ (natToBytesBE s rootIdx ++ flat)))))) ++ trailer)
      (4 + 1 + 1) s = .ok (n, 4 + 1 + 1 + s) := by
    have h := readUint_spec [0xb5, 0xee, 0x9c, 0x72, 64 ||| s, ob] (natToBytesBE s n)
      (natToBytesBE s 1 ++ (natToBytesBE s 0 ++
        (natToBytesBE ob csz ++ (natToBytesBE s rootIdx ++ (flat ++ trailer))))) s n rfl hn
    have hpl : ([0xb5, 0xee, 0x9c, 0x72, 64 ||| s, ob] : List Nat).length = 4 + 1 + 1 := rfl
    rw [hpl] at h
    have hdd : [0xb5, 0xee, 0x9c, 0x72, 64 ||| s, ob] ++ natToBytesBE s n ++
        (natToBytesBE s 1 ++ (natToBytesBE s 0 ++
          (natToBytesBE ob csz ++ (natToBytesBE s rootIdx ++ (flat ++ trailer))))) =
        (0xb5 :: 0xee :: 0x9c :: 0x72 :: (64 ||| s) :: ob ::
          (natToBytesBE s n ++ (natToBytesBE s 1 ++ (natToBytesBE s 0 ++
           (natToBytesBE ob csz ++ (natToBytesBE s rootIdx ++ flat)))))) ++ trailer := by
      simp [List.append_assoc]
    rw [hdd] at h
    exact h
  rw [hru1]
  dsimp only
  have hru2 : readUint ((0xb5 :: 0xee :: 0x9c :: 0x72 :: (64 ||| s) :: ob ::
      (natToBytesBE s n ++ (natToBytesBE s 1 ++ (natToBytesBE s 0 ++
       (natToBytesBE ob csz ++ (natToBytesBE s rootIdx ++ flat)))))) ++ trailer)
      (4 + 1 + 1 + s) s = .ok (1, 4 + 1 + 1 + s + s) := by
    have h := readUint_spec ([0xb5, 0xee, 0x9c, 0x72, 64 ||| s, ob] ++ natToBytesBE s n)
      (natToBytesBE s 1)
      (natToBytesBE s 0 ++ (natToBytesBE ob csz ++ (natToBytesBE s rootIdx ++
        (flat ++ trailer)))) s 1 rfl (by omega)
    have hpl : (([0xb5, 0xee, 0x9c, 0x72, 64 ||| s, ob] : List Nat) ++
        natToBytesBE s n).length = 4 + 1 + 1 + s := by
      simp only [List.length_append, natToBytesBE_length, List.length_cons, List.length_nil]
    rw [hpl] at h
    have hdd : [0xb5, 0xee, 0x9c, 0x72, 64 ||| s, ob] ++ natToBytesBE s n ++
        natToBytesBE s 1 ++ (natToBytesBE s 0 ++ (natToBytesBE ob csz ++
          (natToBytesBE s rootIdx ++ (flat ++ trailer)))) =
        (0xb5 :: 0xee :: 0x9c :: 0x72 :: (64 ||| s) :: ob ::
          (natToBytesBE s n ++ (natToBytesBE s 1 ++ (natToBytesBE s 0 ++
           (natToBytesBE ob csz ++ (natToBytesBE s rootIdx ++ flat)))))) ++ trailer := by
      simp [List.append_assoc]
    rw [hdd] at h
    exact h
  rw [hru2]
  dsimp only
  rw [if_neg (by omega)]
  have hru3 : readUint ((0xb5 :: 0xee :: 0x9c :: 0x72 :: (64 ||| s) :: ob ::
      (natToBytesBE s n ++ (natToBytesBE s 1 ++ (natToBytesBE s 0 ++
       (natToBytesBE ob csz ++ (natToBytesBE s rootIdx ++ flat)))))) ++ trailer)
      (4 + 1 + 1 + s + s) s = .ok (0, 4 + 1 + 1 + s + s + s) := by
    have h := readUint_spec
      ([0xb5, 0xee, 0x9c, 0x72, 64 ||| s, ob] ++ natToBytesBE s n ++ natToBytesBE s 1)
      (natToBytesBE s 0)
      (natToBytesBE ob csz ++ (natToBytesBE s rootIdx ++ (flat ++ trailer)))
      s 0 rfl (by omega)
    have hpl : (([0xb5, 0xee, 0x9c, 0x72, 64 ||| s, ob] : List Nat) ++ natToBytesBE s n ++
        natToBytesBE s 1).length = 4 + 1 + 1 + s + s := by
      simp only [List.length_append, natToBytesBE_length, List.length_cons, List.length_nil]
    rw [hpl] at h
    have hdd : [0xb5, 0xee, 0x9c, 0x72, 64 ||| s, ob] ++ natToBytesBE s n ++
        natToBytesBE s 1 ++ natToBytesBE s 0 ++ (natToBytesBE ob csz ++
          (natToBytesBE s rootIdx ++ (flat ++ trailer))) =
        (0xb5 :: 0xee :: 0x9c :: 0x72 :: (64 ||| s) :: ob ::
          (natToBytesBE s n ++ (natToBytesBE s 1 ++ (natToBytesBE s 0 ++
           (natToBytesBE ob csz ++ (natToBytesBE s rootIdx ++ flat)))))) ++ trailer := by
      simp [List.append_assoc]
    rw [hdd] at h
    exact h
  rw [hru3]
  dsimp only
  have hru4 : readUint ((0xb5 :: 0xee :: 0x9c :: 0x72 :: (64 ||| s) :: ob ::
      (natToBytesBE s n ++ (natToBytesBE s 1 ++ (natToBytesBE s 0 ++
       (natToBytesBE ob csz ++ (natToBytesBE s rootIdx ++ flat)))))) ++ trailer)
      (4 + 1 + 1 + s + s + s) ob = .ok (csz, 4 + 1 + 1 + s + s + s + ob) := by
    have h := readUint_spec
      ([0xb5, 0xee, 0x9c, 0x72, 64 ||| s, ob] ++ natToBytesBE s n ++ natToBytesBE s 1 ++
        natToBytesBE s 0)
      (natToBytesBE ob csz) (natToBytesBE s rootIdx ++ (flat ++ trailer)) ob csz rfl hcsz
    have hpl : (([0xb5, 0xee, 0x9c, 0x72, 64 ||| s, ob] : List Nat) ++ natToBytesBE s n ++
        natToBytesBE s 1 ++ natToBytesBE s 0).length = 4 + 1 + 1 + s + s + s := by
      simp only [List.length_append, natToBytesBE_length, List.length_cons, List.length_nil]
    rw [hpl] at h
    have hdd : [0xb5, 0xee, 0x9c, 0x72, 64 ||| s, ob] ++ natToBytesBE s n ++
        natToBytesBE s 1 ++ natToBytesBE s 0 ++ natToBytesBE ob csz ++
        (natToBytesBE s rootIdx ++ (flat ++ trailer)) =
        (0xb5 :: 0xee :: 0x9c :: 0x72 :: (64 ||| s) :: ob ::
          (natToBytesBE s n ++ (natToBytesBE s 1 ++ (natToBytesBE s 0 ++
           (natToBytesBE ob csz ++ (natToBytesBE s rootIdx ++ flat)))))) ++ trailer := by
      simp [List.append_assoc]
    rw [hdd] at h
    exact h
  rw [hru4]
  dsimp only
  have hru5 : readUint ((0xb5 :: 0xee :: 0x9c :: 0x72 :: (64 ||| s) :: ob ::
      (natToBytesBE s n ++ (natToBytesBE s 1 ++ (natToBytesBE s 0 ++
       (natToBytesBE ob csz ++ (natToBytesBE s rootIdx ++ flat)))))) ++ trailer)
      (4 + 1 + 1 + s + s + s + ob) s =
      .ok (rootIdx, 4 + 1 + 1 + s + s + s + ob + s) := by
    have h := readUint_spec
      ([0xb5, 0xee, 0x9c, 0x72, 64 ||| s, ob] ++ natToBytesBE s n ++ natToBytesBE s 1 ++
        natToBytesBE s 0 ++ natToBytesBE ob csz)
      (natToBytesBE s rootIdx) (flat ++ trailer) s rootIdx rfl hri
    have hpl : (([0xb5, 0xee, 0x9c, 0x72, 64 ||| s, ob] : List Nat) ++ natToBytesBE s n ++
        natToBytesBE s 1 ++ natToBytesBE s 0 ++ natToBytesBE ob csz).length =
        4 + 1 + 1 + s + s + s + ob := by
      simp only [List.length_append, natToBytesBE_length, List.length_cons, List.length_nil]
    rw [hpl] at h
    have hdd : [0xb5, 0xee, 0x9c, 0x72, 64 ||| s, ob] ++ natToBytesBE s n ++
        natToBytesBE s 1 ++ natToBytesBE s 0 ++ natToBytesBE ob csz ++
        natToBytesBE s rootIdx ++ (flat ++ trailer) =
        (0xb5 :: 0xee :: 0x9c :: 0x72 :: (64 ||| s) :: ob ::
          (natToBytesBE s n ++ (natToBytesBE s 1 ++ (natToBytesBE s 0 ++
           (natToBytesBE ob csz ++ (natToBytesBE s rootIdx ++ flat)))))) ++ trailer := by
      simp [List.append_assoc]
    rw [hdd] at h
    exact h
  rw [hru5]
  dsimp only
  rw [if_pos (show (64 : Nat) ≠ 0 by norm_num)]
  rw [if_neg (by omega)]
  have hcd : (((( 0xb5 :: 0xee :: 0x9c :: 0x72 :: (64 ||| s) :: ob ::
      (natToBytesBE s n ++ (natToBytesBE s 1 ++ (natToBytesBE s 0 ++
       (natToBytesBE ob csz ++ (natToBytesBE s rootIdx ++ flat)))))) ++ trailer)).drop
        (4 + 1 + 1 + s + s + s + ob + s)).take csz = flat := by
    have h := drop_take_middle
      ([0xb5, 0xee, 0x9c, 0x72, 64 ||| s, ob] ++ natToBytesBE s n ++ natToBytesBE s 1 ++
        natToBytesBE s 0 ++ natToBytesBE ob csz ++ natToBytesBE s rootIdx) flat trailer
    have hpl : (([0xb5, 0xee, 0x9c, 0x72, 64 ||| s, ob] : List Nat) ++ natToBytesBE s n ++
        natToBytesBE s 1 ++ natToBytesBE s 0 ++ natToBytesBE ob csz ++
        natToBytesBE s rootIdx).length = 4 + 1 + 1 + s + s + s + ob + s := by
      simp only [List.length_append, natToBytesBE_length, List.length_cons, List.length_nil]
    rw [hpl, hflat] at h
    have hdd : [0xb5, 0xee, 0x9c, 0x72, 64 ||| s, ob] ++ natToBytesBE s n ++
        natToBytesBE s 1 ++ natToBytesBE s 0 ++ natToBytesBE ob csz ++
        natToBytesBE s rootIdx ++ flat ++ trailer =
        (0xb5 :: 0xee :: 0x9c :: 0x72 :: (64 ||| s) :: ob ::
          (natToBytesBE s n ++ (natToBytesBE s 1 ++ (natToBytesBE s 0 ++
           (natToBytesBE ob csz ++ (natToBytesBE s rootIdx ++ flat)))))) ++ trailer := by
      simp [List.append_assoc]
    rw [hdd] at h
    exact h
  rw [hcd]
  have htake : ((0xb5 :: 0xee :: 0x9c :: 0x72 :: (64 ||| s) :: ob ::
      (natToBytesBE s n ++ (natToBytesBE s 1 ++ (natToBytesBE s 0 ++
       (natToBytesBE ob csz ++ (natToBytesBE s rootIdx ++ flat)))))) ++ trailer).take
        (4 + 1 + 1 + s + s + s + ob + s + csz) =
      0xb5 :: 0xee :: 0x9c :: 0x72 :: (64 ||| s) :: ob ::
        (natToBytesBE s n ++ (natToBytesBE s 1 ++ (natToBytesBE s 0 ++
         (natToBytesBE ob csz ++ (natToBytesBE s rootIdx ++ flat))))) := by
    have h := List.take_left (0xb5 :: 0xee :: 0x9c :: 0x72 :: (64 ||| s) :: ob ::
      (natToBytesBE s n ++ (natToBytesBE s 1 ++ (natToBytesBE s 0 ++
       (natToBytesBE ob csz ++ (natToBytesBE s rootIdx ++ flat)))))) trailer
    rw [hplB] at h
    exact h
  have hbt0 : byteAt ((0xb5 :: 0xee :: 0x9c :: 0x72 :: (64 ||| s) :: ob ::
      (natToBytesBE s n ++ (natToBytesBE s 1 ++ (natToBytesBE s 0 ++
       (natToBytesBE ob csz ++ (natToBytesBE s rootIdx ++ flat)))))) ++ trailer)
      (4 + 1 + 1 + s + s + s + ob + s + csz) = trailer.getD 0 0 := by
    have h := byteAt_shift (0xb5 :: 0xee :: 0x9c :: 0x72 :: (64 ||| s) :: ob ::
      (natToBytesBE s n ++ (natToBytesBE s 1 ++ (natToBytesBE s 0 ++
       (natToBytesBE ob csz ++ (natToBytesBE s rootIdx ++ flat)))))) trailer 0
    rw [hplB, Nat.add_zero] at h
    rw [h]
    exact byteAt_eq_getD trailer 0 htlt
  have hbt1 : byteAt ((0xb5 :: 0xee :: 0x9c :: 0x72 :: (64 ||| s) :: ob ::
      (natToBytesBE s n ++ (natToBytesBE s 1 ++ (natToBytesBE s 0 ++
       (natToBytesBE ob csz ++ (natToBytesBE s rootIdx ++ flat)))))) ++ trailer)
      (4 + 1 + 1 + s + s + s + ob + s + csz + 1) = trailer.getD 1 0 := by
    have h := byteAt_shift (0xb5 :: 0xee :: 0x9c :: 0x72 :: (64 ||| s) :: ob ::
      (natToBytesBE s n ++ (natToBytesBE s 1 ++ (natToBytesBE s 0 ++
       (natToBytesBE ob csz ++ (natToBytesBE s rootIdx ++ flat)))))) trailer 1
    rw [hplB] at h
    rw [h]
    exact byteAt_eq_getD trailer 1 htlt
  have hbt2 : byteAt ((0xb5 :: 0xee :: 0x9c :: 0x72 :: (64 ||| s) :: ob ::
      (natToBytesBE s n ++ (natToBytesBE s 1 ++ (natToBytesBE s 0 ++
       (natToBytesBE ob csz ++ (natToBytesBE s rootIdx ++ flat)))))) ++ trailer)
      (4 + 1 + 1 + s + s + s + ob + s + csz + 2) = trailer.getD 2 0 := by
    have h := byteAt_shift (0xb5 :: 0xee :: 0x9c :: 0x72 :: (64 ||| s) :: ob ::
      (natToBytesBE s n ++ (natToBytesBE s 1 ++ (natToBytesBE s 0 ++
       (natToBytesBE ob csz ++ (natToBytesBE s rootIdx ++ flat)))))) trailer 2
    rw [hplB] at h
    rw [h]
    exact byteAt_eq_getD trailer 2 htlt
  have hbt3 : byteAt ((0xb5 :: 0xee :: 0x9c :: 0x72 :: (64 ||| s) :: ob ::
      (natToBytesBE s n ++ (natToBytesBE s 1 ++ (natToBytesBE s 0 ++
       (natToBytesBE ob csz ++ (natToBytesBE s rootIdx ++ flat)))))) ++ trailer)
      (4 + 1 + 1 + s + s + s + ob + s + csz + 3) = trailer.getD 3 0 := by
    have h := byteAt_shift (0xb5 :: 0xee :: 0x9c :: 0x72 :: (64 ||| s) :: ob ::
      (natToBytesBE s n ++ (natToBytesBE s 1 ++ (natToBytesBE s 0 ++
       (natToBytesBE ob csz ++ (natToBytesBE s rootIdx ++ flat)))))) trailer 3
    rw [hplB] at h
    rw [h]
    exact byteAt_eq_getD trailer 3 htlt
  cases hpc : parseCells flat n with
  | error e => rfl
  | ok cells2 =>
      dsimp only
      rw [if_pos (show (64 : Nat) ≠ 0 by norm_num)]
      rw [if_neg (by omega)]
      rw [hbt0, hbt1, hbt2, hbt3, htake]
      by_cases hexp : trailer.getD 0 0 + trailer.getD 1 0 * 256 + trailer.getD 2 0 * 65536 +
          trailer.getD 3 0 * 16777216 =
          crc32 (0xb5 :: 0xee :: 0x9c :: 0x72 :: (64 ||| s) :: ob ::
            (natToBytesBE s n ++ (natToBytesBE s 1 ++ (natToBytesBE s 0 ++
             (natToBytesBE ob csz ++ (natToBytesBE s rootIdx ++ flat))))))
      · rw [if_neg (fun hne => hne hexp), if_pos hexp]
      · rw [if_pos hexp, if_neg hexp]

theorem deserializeBoc_magic2 (data : List Nat) (h4 : 4 ≤ data.length)
    (h0 : byteAt data 0 = 0xb5) (h1 : byteAt data 1 = 0xee)
    (h2 : byteAt data 2 = 0x9c) (h3 : byteAt data 3 = 0x72) :
    deserializeBoc data = deserializeBocGeneric data := by
  unfold deserializeBoc
  dsimp only
  rw [if_neg (by omega), h0, h1, h2, h3]
  rw [if_pos (by norm_num [BOC_GENERIC_MAGIC])]

theorem boc_pipeline_nocrc (root : Cell) (hwfr : root.wfB = true)
    (hinj : HashInj root) (hcount : (collectCell root []).length ≤ 256) :
    ∃ c2, c2.hash = root.hash ∧
      serializeBoc root false = .ok (bocBody root false) ∧
      deserializeBoc (bocBody root false) = .ok c2 := by
  obtain ⟨hmem, hwf, hnd, hord, hpos, hgetlast, hlen1⟩ := collect_facts root hwfr hinj
  obtain ⟨L2, hparse, hL2len, hL2hash⟩ := parseCells_spec root hinj (collectCell root [])
    hwf hmem hord hcount
  refine ⟨L2.getD ((collectCell root []).length - 1) Cell.new, ?_, ?_, ?_⟩
  · rw [hL2hash _ (by omega), hgetlast]
  · have h := serializeBoc_spec root hwfr hinj false
    simpa using h
  · have hshape : bocBody root false =
        0xb5 :: 0xee :: 0x9c :: 0x72 :: bytesNeeded (collectCell root []).length ::
          bytesNeeded (((collectCell root []).map (recordOf (collectCell root []))).map
            List.length).sum ::
          (natToBytesBE (bytesNeeded (collectCell root []).length)
              (collectCell root []).length ++
           (natToBytesBE (bytesNeeded (collectCell root []).length) 1 ++
            (natToBytesBE (bytesNeeded (collectCell root []).length) 0 ++
             (natToBytesBE (bytesNeeded (((collectCell root []).map
                 (recordOf (collectCell root []))).map List.length).sum)
               (((collectCell root []).map (recordOf (collectCell root []))).map
                 List.length).sum ++
              (natToBytesBE (bytesNeeded (collectCell root []).length)
                ((collectCell root []).length - 1) ++
               ((collectCell root []).map (recordOf (collectCell root []))).flatten))))) := by
      unfold bocBody
      rw [natToBytesBE_magic]
      simp [List.append_assoc]
    have hmagic := deserializeBoc_magic2 (bocBody root false)
      (by rw [hshape]; simp only [List.length_cons]; omega)
      (by rw [hshape]; rfl) (by rw [hshape]; rfl) (by rw [hshape]; rfl)
      (by rw [hshape]; rfl)
    rw [hmagic, hshape]
    have hcsz64 : (((collectCell root []).map (recordOf (collectCell root []))).map
        List.length).sum < 2 ^ 64 := by
      have h := sum_records_le (collectCell root []) hwf
      omega
    have hgen := deserializeBocGeneric_header_nocrc
      (bytesNeeded (collectCell root []).length)
      (bytesNeeded (((collectCell root []).map (recordOf (collectCell root []))).map
        List.length).sum)
      (collectCell root []).length
      (((collectCell root []).map (recordOf (collectCell root []))).map List.length).sum
      ((collectCell root []).length - 1)
      ((collectCell root []).map (recordOf (collectCell root []))).flatten
      (bytesNeeded_pos _) (by have := bytesNeeded_le2 _ hcount; omega)
      (bytesNeeded_pos _) (bytesNeeded_le8 _)
      (lt_pow_bytesNeeded _ (by omega))
      (by have := lt_pow_bytesNeeded (collectCell root []).length (by omega); omega)
      (lt_pow_bytesNeeded _ hcsz64)
      (List.length_flatten _)
    rw [hgen, hparse]
    dsimp only
    rw [if_neg (by omega)]

theorem boc_pipeline_crc (root : Cell) (hwfr : root.wfB = true)
    (hinj : HashInj root) (hcount : (collectCell root []).length ≤ 256) :
    ∃ c2, c2.hash = root.hash ∧
      serializeBoc root true =
        .ok (bocBody root true ++ natToBytesLE 4 (crc32 (bocBody root true))) ∧
      ∀ trailer : List Nat, trailer.length = 4 → (∀ x ∈ trailer, x < 256) →
        deserializeBoc (bocBody root true ++ trailer) =
          (if trailer.getD 0 0 + trailer.getD 1 0 * 256 + trailer.getD 2 0 * 65536 +
              trailer.getD 3 0 * 16777216 = crc32 (bocBody root true)
           then .ok c2 else .error .integrityError) := by
  obtain ⟨hmem, hwf, hnd, hord, hpos, hgetlast, hlen1⟩ := collect_facts root hwfr hinj
  obtain ⟨L2, hparse, hL2len, hL2hash⟩ := parseCells_spec root hinj (collectCell root [])
    hwf hmem hord hcount
  refine ⟨L2.getD ((collectCell root []).length - 1) Cell.new, ?_, ?_, ?_⟩
  · rw [hL2hash _ (by omega), hgetlast]
  · have h := serializeBoc_spec root hwfr hinj true
    simpa using h
  · intro trailer htl htlt
    have hshape : bocBody root true =
        0xb5 :: 0xee :: 0x9c :: 0x72 ::
          (64 ||| bytesNeeded (collectCell root []).length) ::
          bytesNeeded (((collectCell root []).map (recordOf (collectCell root []))).map
            List.length).sum ::
          (natToBytesBE (bytesNeeded (collectCell root []).length)
              (collectCell root []).length ++
           (natToBytesBE (bytesNeeded (collectCell root []).length) 1 ++
            (natToBytesBE (bytesNeeded (collectCell root []).length) 0 ++
             (natToBytesBE (bytesNeeded (((collectCell root []).map
                 (recordOf (collectCell root []))).map List.length).sum)
               (((collectCell root []).map (recordOf (collectCell root []))).map
                 List.length).sum ++
              (natToBytesBE (bytesNeeded (collectCell root []).length)
                ((collectCell root []).length - 1) ++
               ((collectCell root []).map (recordOf (collectCell root []))).flatten))))) := by
      unfold bocBody
      rw [natToBytesBE_magic]
      simp [List.append_assoc]
    have hmagic := deserializeBoc_magic2 (bocBody root true ++ trailer)
      (by rw [hshape]; simp only [List.cons_append, List.length_cons]; omega)
      (by rw [hshape]; rfl) (by rw [hshape]; rfl) (by rw [hshape]; rfl)
      (by rw [hshape]; rfl)
    rw [hmagic, hshape]
    have hcsz64 : (((collectCell root []).map (recordOf (collectCell root []))).map
        List.length).sum < 2 ^ 64 := by
      have h := sum_records_le (collectCell root []) hwf
      omega
    have hgen := deserializeBocGeneric_header_crc
      (bytesNeeded (collectCell root []).length)
      (bytesNeeded (((collectCell root []).map (recordOf (collectCell root []))).map
        List.length).sum)
      (collectCell root []).length
      (((collectCell root []).map (recordOf (collectCell root []))).map List.length).sum
      ((collectCell root []).length - 1)
      ((collectCell root []).map (recordOf (collectCell root []))).flatten
      trailer
      (bytesNeeded_pos _) (by have := bytesNeeded_le2 _ hcount; omega)
      (bytesNeeded_pos _) (bytesNeeded_le8 _)
      (lt_pow_bytesNeeded _ (by omega))
      (by have := lt_pow_bytesNeeded (collectCell root []).length (by omega); omega)
      (lt_pow_bytesNeeded _ hcsz64)
      (List.length_flatten _) htl htlt
    rw [hgen, hparse]
    dsimp only
    by_cases hsum : trailer.getD 0 0 + trailer.getD 1 0 * 256 + trailer.getD 2 0 * 65536 +
        trailer.getD 3 0 * 16777216 =
        crc32 (0xb5 :: 0xee :: 0x9c :: 0x72 ::
          (64 ||| bytesNeeded (collectCell root []).length) ::
          bytesNeeded (((collectCell root []).map (recordOf (collectCell root []))).map
            List.length).sum ::
          (natToBytesBE (bytesNeeded (collectCell root []).length)
              (collectCell root []).length ++
           (natToBytesBE (bytesNeeded (collectCell root []).length) 1 ++
            (natToBytesBE (bytesNeeded (collectCell root []).length) 0 ++
             (natToBytesBE (bytesNeeded (((collectCell root []).map
                 (recordOf (collectCell root []))).map List.length).sum)
               (((collectCell root []).map (recordOf (collectCell root []))).map
                 List.length).sum ++
              (natToBytesBE (bytesNeeded (collectCell root []).length)
                ((collectCell root []).length - 1) ++
               ((collectCell root []).map (recordOf (collectCell root []))).flatten))))))
    · rw [if_pos hsum, if_pos hsum, if_neg (by omega)]
    · rw [if_neg hsum, if_neg hsum]

/-- **C1 (counterexample).** `Cell { data: [0xAB, 0xCD], bit_len: 8 }` respects
the 1023-bit and 4-reference limits, yet the BoC round trip does not preserve
its hash: `serialize_cell` emits only `ceil(bit_len/8) = 1` data byte, so the
re-parsed root drops the extra buffer byte and hashes differently. -/
theorem boc_roundtrip_counterexample :
    (Cell.mk [0xAB, 0xCD] 8 []).bitLen ≤ MAX_CELL_BITS ∧
    (Cell.mk [0xAB, 0xCD] 8 []).referenceCount ≤ MAX_CELL_REFS ∧
    (match serializeBoc (Cell.mk [0xAB, 0xCD] 8 []) false with
     | .ok bs => (deserializeBoc bs).map Cell.hash
     | .error e => .error e) ≠ .ok (Cell.mk [0xAB, 0xCD] 8 []).hash := by decide

/-- **C1 (amended).** For a well-formed root (byte-exact buffers, bytes in `u8`
range, ≤ 1023 bits and ≤ 4 references in every subcell), whose collected cell
list has at most 256 entries (one-byte reference indices) and whose distinct
subcells never collide in hash, `deserialize_boc(serialize_boc(root, crc))`
succeeds and returns a root with the same `hash()`, for both CRC settings. -/
theorem boc_roundtrip_amended (root : Cell) (crc : Bool) (hwfr : root.wfB = true)
    (hinj : HashInj root) (hcount : (collectCell root []).length ≤ 256) :
    ∃ bs c2, serializeBoc root crc = .ok bs ∧ deserializeBoc bs = .ok c2 ∧
      c2.hash = root.hash := by
  cases crc
  · obtain ⟨c2, hh, hs, hd⟩ := boc_pipeline_nocrc root hwfr hinj hcount
    exact ⟨_, c2, hs, hd, hh⟩
  · obtain ⟨c2, hh, hs, hd⟩ := boc_pipeline_crc root hwfr hinj hcount
    refine ⟨_, c2, hs, ?_, hh⟩
    rw [hd (natToBytesLE 4 (crc32 (bocBody root true))) (natToBytesLE_length _ _)
      (natToBytesLE_lt _ _)]
    rw [if_pos (natToBytesLE4_readback (crc32 (bocBody root true)) (crc32_lt _))]

theorem boc_roundtrip_amended_witness :
    ((Cell.mk [0xAB] 8 [Cell.mk [] 0 []]).wfB = true ∧
      HashInj (Cell.mk [0xAB] 8 [Cell.mk [] 0 []]) ∧
      (collectCell (Cell.mk [0xAB] 8 [Cell.mk [] 0 []]) []).length ≤ 256) ∧
    (∃ bs c2, serializeBoc (Cell.mk [0xAB] 8 [Cell.mk [] 0 []]) true = .ok bs ∧
      deserializeBoc bs = .ok c2 ∧ c2.hash = (Cell.mk [0xAB] 8 [Cell.mk [] 0 []]).hash) :=
  ⟨⟨by decide, by decide, by decide⟩,
   boc_roundtrip_amended (Cell.mk [0xAB] 8 [Cell.mk [] 0 []]) true (by decide) (by decide)
     (by decide)⟩

/-- **C7 (counterexample).** Flipping a byte of a CRC-protected BoC does not
always give IntegrityError: changing the flags byte (offset 4) from 0x41 to
0x01 clears the CRC flag, so deserialization skips the check and succeeds,
returning the original root. -/
theorem crc_flip_counterexample :
    (serializeBoc (Cell.mk [0x12, 0x34, 0x56, 0x78] 32 []) true).map
        (fun bs => bs.getD 4 0) = .ok 0x41 ∧
    (serializeBoc (Cell.mk [0x12, 0x34, 0x56, 0x78] 32 []) true).map
        (fun bs => deserializeBoc (bs.set 4 0x01)) =
      .ok (.ok (Cell.mk [0x12, 0x34, 0x56, 0x78] 32 [])) := by decide

/-- **C7 (amended).** For a well-formed, collision-free root with at most 256
cells, `serialize_boc(root, true)` produces the body followed by a 4-byte CRC
trailer, and replacing any single trailer byte by a different value makes
`deserialize_boc` fail with IntegrityError.  (Flips outside the trailer need
not give IntegrityError — see the counterexample.) -/
theorem crc_trailer_flip_amended (root : Cell) (hwfr : root.wfB = true)
    (hinj : HashInj root) (hcount : (collectCell root []).length ≤ 256)
    (i v : Nat) (hi : i < 4) (hv : v < 256)
    (hne : v ≠ (natToBytesLE 4 (crc32 (bocBody root true))).getD i 0) :
    serializeBoc root true =
      .ok (bocBody root true ++ natToBytesLE 4 (crc32 (bocBody root true))) ∧
    deserializeBoc (bocBody root true ++
      (natToBytesLE 4 (crc32 (bocBody root true))).set i v) = .error .integrityError := by
  obtain ⟨c2, hh, hs, hd⟩ := boc_pipeline_crc root hwfr hinj hcount
  refine ⟨hs, ?_⟩
  have hTlen : (natToBytesLE 4 (crc32 (bocBody root true))).length = 4 :=
    natToBytesLE_length _ _
  have hTlt := natToBytesLE_lt 4 (crc32 (bocBody root true))
  rw [hd ((natToBytesLE 4 (crc32 (bocBody root true))).set i v)
    (by rw [List.length_set]; exact hTlen)
    (by
      intro x hx
      rcases List.mem_or_eq_of_mem_set hx with h | h
      · exact hTlt x h
      · omega)]
  rw [if_neg ?hne2]
  case hne2 =>
    intro hcon
    have hreadback := natToBytesLE4_readback (crc32 (bocBody root true)) (crc32_lt _)
    have hb0 := getD_lt_of_all_lt (natToBytesLE 4 (crc32 (bocBody root true))) 0 hTlt
    have hb1 := getD_lt_of_all_lt (natToBytesLE 4 (crc32 (bocBody root true))) 1 hTlt
    have hb2 := getD_lt_of_all_lt (natToBytesLE 4 (crc32 (bocBody root true))) 2 hTlt
    have hb3 := getD_lt_of_all_lt (natToBytesLE 4 (crc32 (bocBody root true))) 3 hTlt
    interval_cases i
    · rw [getD_set_self _ 0 v (by omega),
        getD_set_ne _ 0 1 v (by omega), getD_set_ne _ 0 2 v (by omega),
        getD_set_ne _ 0 3 v (by omega)] at hcon
      omega
    · rw [getD_set_ne _ 1 0 v (by omega), getD_set_self _ 1 v (by omega),
        getD_set_ne _ 1 2 v (by omega), getD_set_ne _ 1 3 v (by omega)] at hcon
      omega
    · rw [getD_set_ne _ 2 0 v (by omega), getD_set_ne _ 2 1 v (by omega),
        getD_set_self _ 2 v (by omega), getD_set_ne _ 2 3 v (by omega)] at hcon
      omega
    · rw [getD_set_ne _ 3 0 v (by omega), getD_set_ne _ 3 1 v (by omega),
        getD_set_ne _ 3 2 v (by omega), getD_set_self _ 3 v (by omega)] at hcon
      omega

theorem crc_trailer_flip_amended_witness :
    ((Cell.mk [0xAB] 8 [Cell.mk [] 0 []]).wfB = true ∧
      HashInj (Cell.mk [0xAB] 8 [Cell.mk [] 0 []]) ∧
      (collectCell (Cell.mk [0xAB] 8 [Cell.mk [] 0 []]) []).length ≤ 256 ∧
      (0 : Nat) < 4 ∧ (0 : Nat) < 256 ∧
      (0 : Nat) ≠ (natToBytesLE 4 (crc32 (bocBody (Cell.mk [0xAB] 8 [Cell.mk [] 0 []])
        true))).getD 0 0) ∧
    (serializeBoc (Cell.mk [0xAB] 8 [Cell.mk [] 0 []]) true =
      .ok (bocBody (Cell.mk [0xAB] 8 [Cell.mk [] 0 []]) true ++
        natToBytesLE 4 (crc32 (bocBody (Cell.mk [0xAB] 8 [Cell.mk [] 0 []]) true))) ∧
     deserializeBoc (bocBody (Cell.mk [0xAB] 8 [Cell.mk [] 0 []]) true ++
       (natToBytesLE 4 (crc32 (bocBody (Cell.mk [0xAB] 8 [Cell.mk [] 0 []]) true))).set
         0 0) = .error .integrityError) :=
  ⟨⟨by decide, by decide, by decide, by decide, by decide, by decide⟩,
   crc_trailer_flip_amended (Cell.mk [0xAB] 8 [Cell.mk [] 0 []]) (by decide) (by decide)
     (by decide) 0 0 (by decide) (by decide) (by decide)⟩
